import Mathlib

/-!
# Chunk-stream engine of `pngsplit` and `png-fix-IDAT-windowsize`

A shallow embedding of `src/gpl/pngsplit.c` and
`src/gpl/png-fix-IDAT-windowsize.c`.

Conventions of the embedding.

* A byte is a `Nat` below 256; a file is a `List Nat` (see `IsBytes`).
* The target is LP64: `long` is a 64-bit two's complement integer, `int` is
  32 bits wide.  `long` arithmetic is done in `Int`; C's `/` is `Int.tdiv`.
  Overflow of a signed product is undefined in C.  The embedding follows the
  build the source documents (`gcc -Wall -O2`): the value held afterwards is
  the wrapped one (`wrapLong`), and a comparison that could only be true after
  such an overflow is dropped (`divideBack`).
* `fread(buf, 1, n, f)` on a regular file delivers `min n (bytes left)`
  bytes; read faults are not modelled.  `fwrite`/`fputc`/`fclose` succeed.
* Loops are recursive functions over a recursion budget; `Flow.starved`
  and `none` mark an exhausted budget.  The top-level functions pass a budget
  larger than the source, which the loops never exhaust.
* `stderr` lines are recorded as `Msg` values; `stdout` (verbose) lines are
  not modelled.
-/

namespace Png

/-! ## Constants and byte order -/

/-- Size of the read window `inbuf` (`#define BUFSZ 4096`). -/
def BUFSZ : Nat := 4096

/-- Smallest accepted first read (`#define MIN_PNG_SIZE`, 67). -/
def MIN_PNG_SIZE : Nat := 8 + 4+4+13+4 + 4+4+10+4 + 4+4+4

/-- Flag bit `WR_FORCE` of `write_chunk_to_file`. -/
def WR_FORCE : Nat := 0x01

/-- Flag bit `WR_OPEN` of `write_chunk_to_file`. -/
def WR_OPEN : Nat := 0x02

/-- Flag bit `WR_CLOSE` of `write_chunk_to_file`. -/
def WR_CLOSE : Nat := 0x04

/-- The PNG signature `pngsig`. -/
def pngsig : List Nat := [137, 80, 78, 71, 13, 10, 26, 10]

/-- The MNG signature `mngsig`. -/
def mngsig : List Nat := [138, 77, 78, 71, 13, 10, 26, 10]

/-- The JNG signature `jngsig`. -/
def jngsig : List Nat := [139, 74, 78, 71, 13, 10, 26, 10]

/-- Chunk type `IHDR` as a number, `0x49484452`. -/
def IHDR : Nat := (73 <<< 24) ||| (72 <<< 16) ||| (68 <<< 8) ||| 82

/-- Chunk type `IDAT` as a number, `0x49444154`. -/
def IDAT : Nat := (73 <<< 24) ||| (68 <<< 16) ||| (65 <<< 8) ||| 84

/-- Every element is a byte value. -/
def IsBytes (l : List Nat) : Prop := ∀ b ∈ l, b < 256

/-- The macro `U32(x)`: big-endian value of the 4 bytes at `x`. -/
def U32 (x : List Nat) : Nat :=
  (x.getD 0 0 <<< 24) ||| (x.getD 1 0 <<< 16) ||| (x.getD 2 0 <<< 8) ||| x.getD 3 0

/-- The four `fputc` arguments `(v >> 24) & 0xff`, `(v >> 16) & 0xff`,
`(v >> 8) & 0xff`, `v & 0xff`: the big-endian bytes of `v`. -/
def be32 (v : Nat) : List Nat :=
  [(v >>> 24) &&& 0xff, (v >>> 16) &&& 0xff, (v >>> 8) &&& 0xff, v &&& 0xff]

/-! ## CRC-32 (zlib's `crc32`, which the sources only call) -/

/-- One bit of the reflected CRC-32 division, polynomial `0xEDB88320`. -/
def crcStep (c : Nat) : Nat :=
  if c % 2 = 1 then (c >>> 1) ^^^ 0xEDB88320 else c >>> 1

/-- Feed one byte to the CRC register. -/
def crcByte (c b : Nat) : Nat := crcStep (crcStep (crcStep (crcStep
  (crcStep (crcStep (crcStep (crcStep (c ^^^ b))))))))

/-- Modelled from the spec: `crc32(crc, buf, len)` of zlib is linked in, not
part of the sources; this is the standard CRC-32 the glossary names, in zlib's
running form (pre- and post-conditioning by `0xFFFFFFFF`), so that
`crc32(0L, Z_NULL, 0)` is `0` and calls can be chained. -/
def crc32 (crc : Nat) (buf : List Nat) : Nat :=
  (buf.foldl crcByte (crc ^^^ 0xFFFFFFFF)) ^^^ 0xFFFFFFFF

/-! ## The cyclic read buffer and `GET_U32` -/

/-- The reading state shared by both tools: the window `inbuf` (the bytes the
last `fread` delivered), the cursor `inptr` (an index into `inbuf`), the
count `incnt` of unread window bytes, the part `infile` of the source that no
`fread` has delivered yet, the running `calc_crc` and `file_offset`. -/
structure Reader where
  inbuf : List Nat
  inptr : Nat
  incnt : Nat
  infile : List Nat
  calc_crc : Nat
  file_offset : Nat
  deriving DecidableEq, Repr

/-- The macro `GET_U32(val, docrc)` of both sources.  `none` is the branch
`haveEOF = TRUE; break;` (fewer than `4 - incnt` bytes came from the refill);
otherwise the value assigned to `val` and the state after the macro. -/
def GET_U32 (docrc : Bool) (s : Reader) : Option (Nat × Reader) :=
  if s.incnt < 4 then
    let remainder := 4 - s.incnt
    -- copy bytes to temporary buffer
    let tmp := (s.inbuf.drop s.inptr).take s.incnt
    -- read more bytes into main buffer
    let got := s.infile.take BUFSZ
    -- if still fewer than 4 bytes, bail
    if got.length < remainder then none
    else
      -- copy remaining bytes to temporary buffer and assemble
      let tmpbuf := tmp ++ got.take remainder
      some (U32 tmpbuf,
        { inbuf := got
          inptr := remainder
          incnt := got.length - remainder
          infile := s.infile.drop BUFSZ
          calc_crc := if docrc then crc32 s.calc_crc tmpbuf else s.calc_crc
          file_offset := s.file_offset + 4 })
  else
    let four := (s.inbuf.drop s.inptr).take 4
    some (U32 four,
      { s with
        inptr := s.inptr + 4
        incnt := s.incnt - 4
        calc_crc := if docrc then crc32 s.calc_crc four else s.calc_crc
        file_offset := s.file_offset + 4 })

/-- The bytes of the source that the reader has not consumed yet: the unread
part of the window followed by the unread part of the file. -/
def Reader.unread (s : Reader) : List Nat :=
  (s.inbuf.drop s.inptr).take s.incnt ++ s.infile

/-- The cursor and the count describe the window: `inptr + incnt` is the
number of bytes in `inbuf`. -/
def Reader.Consistent (s : Reader) : Prop :=
  s.inptr + s.incnt = s.inbuf.length

/-- Outcome of a loop of the C code. -/
inductive Flow (ρ α : Type) where
  /-- The enclosing C function returns. -/
  | ret (r : ρ) : Flow ρ α
  /-- Control leaves the loop normally. -/
  | go (a : α) : Flow ρ α
  /-- The recursion budget of the model ran out. -/
  | starved : Flow ρ α
  deriving DecidableEq, Repr

/-! ## Diagnostics -/

/-- The lines the tools print on `stderr`, with the values they carry. -/
inductive Msg where
  /-- The line `cannot open ... for reading`. -/
  | cannotOpenIn
  /-- The line `... exists; not overwriting`. -/
  | existsNotOverwriting
  /-- The line `... is not a PNG file` (or PNG, MNG, or JNG file). -/
  | notPng
  /-- The line `... has bad IHDR chunk`. -/
  | badIHDR
  /-- The line `bad IHDR CRC (got ..., expected ...)`. -/
  | badIHDRcrc (got expected : Nat)
  /-- The line `invalid dimensions`. -/
  | invalidDimensions
  /-- The line `invalid colortype (...)`. -/
  | invalidColortype (colortype : Nat)
  /-- The line `invalid sample depth (...) for colortype (...)`. -/
  | invalidDepth (depth colortype : Nat)
  /-- The line `unexpected EOF while reading ... (chunk is missing ... bytes)`. -/
  | eofMissing (missing : Nat)
  /-- The line `has bad ... CRC (got ..., expected ...)` with the chunk type. -/
  | badCrc (chunktyp got expected : Nat)
  /-- The line `found no IDAT chunks`. -/
  | noIDAT
  /-- The line `can't seek back to start of IDATs`. -/
  | cannotSeek
  /-- The line `can't allocate buffer for first IDAT`. -/
  | cannotAllocate
  /-- The line `does not appear to have bad zlib windowBits; skipping`. -/
  | noteSkipping
  /-- The line `cannot open ... for writing`. -/
  | cannotOpenOut
  /-- The line `unexpected EOF while copying`. -/
  | eofCopying
  /-- The line `logic error:  OPEN flag set but ... still open`. -/
  | logicStillOpen
  /-- The line `logic error:  about to fwrite() but no file is open`. -/
  | logicNoFile
  deriving DecidableEq, Repr

/-! ## IHDR interpretation (png-fix-IDAT-windowsize.c, lines 309-390) -/

/-- Reduce a mathematical integer to the value a 64-bit two's complement
`long` holds (wraparound). -/
def wrapLong (x : Int) : Int := (x + 2^63) % 2^64 - 2^63

/-- The values derived from an accepted IHDR. -/
structure Derived where
  channels : Nat
  bitsperpixel : Nat
  bitwidth : Int
  bytewidth : Int
  ucsize : Int
  deriving DecidableEq, Repr

/-- The `switch (colortype)`: `none` is the `default:` branch (return 22),
otherwise `channels` and the value of `error` after the switch. -/
def colortypeSwitch (colortype depth : Nat) : Option (Nat × Nat) :=
  match colortype with
  | 0 => some (1, if depth ≠ 1 ∧ depth ≠ 2 ∧ depth ≠ 4 ∧ depth ≠ 8 ∧ depth ≠ 16 then 1 else 0)
  | 2 => some (3, if depth ≠ 8 ∧ depth ≠ 16 then 1 else 0)
  | 3 => some (1, if depth ≠ 1 ∧ depth ≠ 2 ∧ depth ≠ 4 ∧ depth ≠ 8 then 1 else 0)
  | 4 => some (2, if depth ≠ 8 ∧ depth ≠ 16 then 1 else 0)
  | 6 => some (4, if depth ≠ 8 ∧ depth ≠ 16 then 1 else 0)
  | _ => none

/-- The comparison `x/a != b` of line 384 for a `long` `x` that was computed
as `a * b`.  Where the product fits a 64-bit `long` it is the comparison as
written.  Where it does not, the multiplication before it has overflowed,
which is undefined for signed operands in C; the build the source documents
(`gcc -Wall -O2`, line 10 of the source) takes it that this never happens and
drops the comparison, so the test does not fire. -/
def divideBack (a b : Int) : Bool :=
  if -2^63 ≤ a * b ∧ a * b < 2^63 then decide ((a * b).tdiv a ≠ b) else false

/-- Lines 309-390: the checks on the stored IHDR fields.  `width` and
`height` are the `long` values, `depth` and `colortype` the byte values.
An error is the return code with its `stderr` line.  The three `long` values
are the ones a 64-bit machine multiplication leaves (`wrapLong`); the two
divide-back comparisons of line 384 are `divideBack`. -/
def ihdrStage (width height : Int) (depth colortype : Nat) : Except (Nat × Msg) Derived :=
  if width ≤ 0 ∨ height ≤ 0 then .error (20, .invalidDimensions)
  else
    match colortypeSwitch colortype depth with
    | none => .error (22, .invalidColortype colortype)
    | some (channels, error) =>
      if error ≠ 0 then .error (23, .invalidDepth depth colortype)
      else
        let bitsperpixel : Nat := depth * channels
        let bitwidth := wrapLong (width * (bitsperpixel : Int))
        let bytewidth := wrapLong (1 + (wrapLong (bitwidth + 7)).tdiv 8)
        let ucsize := wrapLong (bytewidth * height)
        if divideBack width (bitsperpixel : Int) = true ∨ bytewidth ≤ 0 ∨
            divideBack bytewidth height = true then
          .error (20, .invalidDimensions)
        else
          .ok { channels := channels, bitsperpixel := bitsperpixel,
                bitwidth := bitwidth, bytewidth := bytewidth, ucsize := ucsize }

/-! ## png_fix_IDAT_windowsize -/

/-- What the surroundings of one `png_fix_IDAT_windowsize` call decide. -/
structure Env where
  /-- The call `fopen(filename, "rb")` succeeds. -/
  inOpens : Bool
  /-- The output name already exists (`fopen(outname, "rb")` succeeds). -/
  outExists : Bool
  /-- The call `fseek` back to the first IDAT succeeds. -/
  seekOk : Bool
  /-- The call `malloc(chunklen+12)` succeeds. -/
  mallocOk : Bool
  /-- The call `fopen(outname, "wb")` succeeds. -/
  outOpens : Bool
  /-- The indeterminate initial content of the `malloc`ed block, by index
  (taken modulo 256). -/
  heap : Nat → Nat

/-- What one call leaves behind: the return code, the content of the output
file if the call created it (`fopen(outname, "wb")` succeeded), and the
`stderr` lines. -/
structure Result where
  code : Nat
  outfile : Option (List Nat)
  stderr : List Msg
  deriving DecidableEq, Repr

/-- Lines 262-307 and 309-390: signature, IHDR framing, IHDR CRC and IHDR
fields.  On success the reader stands just after the IHDR chunk
(`file_offset` 33). -/
def headerPass (input : List Nat) : Except (Nat × Msg) (Reader × Derived) :=
  let inbuf := input.take BUFSZ
  let incnt := inbuf.length
  if incnt < MIN_PNG_SIZE ∨ inbuf.take 8 ≠ pngsig then .error (17, .notPng)
  else
    let chunklen := U32 (inbuf.drop 8)
    let chunktyp := U32 (inbuf.drop 12)
    if chunklen ≠ 13 ∨ chunktyp ≠ IHDR then .error (18, .badIHDR)
    else
      let calc_crc := crc32 (crc32 0 []) ((inbuf.drop 12).take (4 + chunklen))
      let chunkcrc := U32 (inbuf.drop (16 + chunklen))
      if calc_crc ≠ chunkcrc then .error (19, .badIHDRcrc calc_crc chunkcrc)
      else
        let width : Int := U32 (inbuf.drop 16)
        let height : Int := U32 (inbuf.drop 20)
        let depth := inbuf.getD 24 0
        let colortype := inbuf.getD 25 0
        match ihdrStage width height depth colortype with
        | .error e => .error e
        | .ok d =>
          .ok ({ inbuf := inbuf, inptr := 33, incnt := incnt - 33,
                 infile := input.drop BUFSZ, calc_crc := calc_crc,
                 file_offset := 33 }, d)

/-- The inner loop `while (chunklen > incnt)` of the first pass (lines
462-478).  `ret` is the branch that sets `error = haveEOF = TRUE`, with the
count of missing bytes it prints; `go` carries the reader and `chunklen`
after the loop. -/
def skipLoop : Nat → Reader → Nat → Flow Nat (Reader × Nat)
  | 0, _, _ => .starved
  | budget + 1, s, chunklen =>
    if chunklen > s.incnt then
      let calc_crc := crc32 s.calc_crc ((s.inbuf.drop s.inptr).take s.incnt)
      let chunklen1 := chunklen - s.incnt
      let file_offset := s.file_offset + s.incnt
      -- read more bytes into buffer
      let got := s.infile.take BUFSZ
      if got.length ≤ 0 then .ret chunklen1
      else
        skipLoop budget
          { inbuf := got, inptr := 0, incnt := got.length,
            infile := s.infile.drop BUFSZ, calc_crc := calc_crc,
            file_offset := file_offset } chunklen1
    else .go (s, chunklen)

/-- The reader after the statements behind the payload loop (`calc_crc =
crc32(calc_crc, inptr, chunklen); inptr += chunklen; incnt -= chunklen;
file_offset += chunklen;`), which consume the rest of the payload from the
window. -/
def afterPayload (s3 : Reader) (chunklen3 : Nat) : Reader :=
  { s3 with
    calc_crc := crc32 s3.calc_crc ((s3.inbuf.drop s3.inptr).take chunklen3)
    inptr := s3.inptr + chunklen3
    incnt := s3.incnt - chunklen3
    file_offset := s3.file_offset + chunklen3 }

/-- What the first pass hands to the second: `chunklen`, `chunktyp` and
`file_offset_IDATs` at the `break` of `if (chunktyp == IDAT)`. -/
structure Found where
  chunklen : Nat
  chunktyp : Nat
  file_offset_IDATs : Nat
  deriving DecidableEq, Repr

/-- The loop over the chunks after IHDR (lines 439-496).  `go` is the `break`
with `haveIDAT = TRUE`; `ret` is every other way out of the loop, with the
`stderr` lines printed inside the loop (the function then prints
`found no IDAT chunks` and returns 24). -/
def scanLoop : Nat → Reader → Flow (List Msg) Found
  | 0, _ => .starved
  | budget + 1, s =>
    match GET_U32 false s with
    | none => .ret []
    | some (chunklen, s1) =>
      match GET_U32 true { s1 with calc_crc := crc32 0 [] } with
      | none => .ret []
      | some (chunktyp, s2) =>
        if chunktyp = IDAT then
          .go { chunklen := chunklen, chunktyp := chunktyp,
                file_offset_IDATs := s2.file_offset - 8 }
        else
          match skipLoop (s2.infile.length + 1) s2 chunklen with
          | .starved => .starved
          | .ret missing => .ret [.eofMissing missing]
          | .go (s3, chunklen3) =>
            match GET_U32 false (afterPayload s3 chunklen3) with
            | none => .ret []
            | some (chunkcrc, s5) =>
              if s5.calc_crc ≠ chunkcrc then .ret [.badCrc chunktyp chunkcrc chunkcrc]
              else scanLoop budget s5

/-- The first copy loop (lines 580-595): `bytes_remaining` bytes from the
start of the input, at most `BUFSZ` per `fread`.  The result is what was
written and whether `error = haveEOF = TRUE` was set. -/
def copyHead : Nat → List Nat → Nat → List Nat → Option (List Nat × Bool)
  | 0, _, _, _ => none
  | budget + 1, src, bytes_remaining, out =>
    if bytes_remaining > 0 then
      let incnt := if bytes_remaining > BUFSZ then BUFSZ else bytes_remaining
      let got := src.take incnt
      if got.length ≤ 0 then some (out, true)
      else copyHead budget (src.drop incnt) (bytes_remaining - got.length) (out ++ got)
    else some (out, false)

/-- The last copy loop (lines 602-611): the rest of the input from the seek
position, `BUFSZ` bytes per `fread`, until `fread` delivers nothing. -/
def copyTail : Nat → List Nat → List Nat → Option (List Nat)
  | 0, _, _ => none
  | budget + 1, src, out =>
    let got := src.take BUFSZ
    if got.length ≤ 0 then some out
    else copyTail budget (src.drop BUFSZ) (out ++ got)

/-- The working buffer `cbuf` after `fread(cbuf, 1, chunklen+12, infile)`:
the bytes the file delivers from `file_offset_IDATs`, and behind them what
the block held before. -/
def readCbuf (env : Env) (input : List Nat) (f : Found) : List Nat :=
  let got := (input.drop f.file_offset_IDATs).take (f.chunklen + 12)
  got ++ (List.range (f.chunklen + 12 - got.length)).map
    (fun i => env.heap (got.length + i) % 256)

/-- Lines 548-567 on the working buffer: the two header bytes overwritten and
the recomputed CRC stored behind the payload. -/
def patchCbuf (cbuf : List Nat) (chunklen : Nat) : List Nat :=
  let cbuf1 := (cbuf.set 8 0x78).set 9 0x9c
  let calc_crc := crc32 (crc32 0 []) ((cbuf1.drop 4).take (chunklen + 4))
  let p := 4 + chunklen + 4
  (((cbuf1.set p ((calc_crc >>> 24) % 256)).set (p + 1) ((calc_crc >>> 16) &&& 0xff)).set
    (p + 2) ((calc_crc >>> 8) &&& 0xff)).set (p + 3) (calc_crc &&& 0xff)

/-- Lines 509-622: seek, allocate, read and check the first IDAT, patch it
and write the output in three parts. -/
def secondPass (env : Env) (input : List Nat) (f : Found) : Option Result :=
  if !env.seekOk then some ⟨25, none, [.cannotSeek]⟩
  else if !env.mallocOk then some ⟨26, none, [.cannotAllocate]⟩
  else
    let cbuf := readCbuf env input f
    let calc_crc := crc32 (crc32 0 []) ((cbuf.drop 4).take (f.chunklen + 4))
    let chunkcrc := U32 (cbuf.drop (4 + f.chunklen + 4))
    if calc_crc ≠ chunkcrc then some ⟨23, none, [.badCrc f.chunktyp chunkcrc chunkcrc]⟩
    else if cbuf.getD 8 0 ≠ 0x78 ∨ cbuf.getD 9 0 ≠ 0x9c then
      let cbuf2 := patchCbuf cbuf f.chunklen
      if !env.outOpens then some ⟨16, none, [.cannotOpenOut]⟩
      else
        match copyHead (f.file_offset_IDATs + 1) input f.file_offset_IDATs [] with
        | none => none
        | some (out1, true) =>
          -- haveEOF is set: the last loop is not entered
          some ⟨27, some (out1 ++ cbuf2), [.eofCopying]⟩
        | some (out1, false) =>
          let src := input.drop (f.file_offset_IDATs + f.chunklen + 12)
          match copyTail (src.length + 1) src (out1 ++ cbuf2) with
          | none => none
          | some out => some ⟨0, some out, []⟩
    else some ⟨0, none, [.noteSkipping]⟩

/-- The first pass: header checks and the scan for the first IDAT (lines
262-507). -/
def firstPass (input : List Nat) : Option (Except (Nat × List Msg) Found) :=
  match headerPass input with
  | .error (c, m) => some (.error (c, [m]))
  | .ok (s, _) =>
    match scanLoop (input.length + 1) s with
    | .starved => none
    | .ret msgs => some (.error (24, msgs ++ [.noIDAT]))
    | .go f => some (.ok f)

/-- The function `png_fix_IDAT_windowsize(filename, force, verbose)` on an
input file with content `input`.  `none` only if the recursion budget of a
loop ran out. -/
def png_fix_IDAT_windowsize (env : Env) (force : Bool) (input : List Nat) : Option Result :=
  if !env.inOpens then some ⟨2, none, [.cannotOpenIn]⟩
  else if !force && env.outExists then some ⟨15, none, [.existsNotOverwriting]⟩
  else
    match firstPass input with
    | none => none
    | some (.error (c, msgs)) => some ⟨c, none, msgs⟩
    | some (.ok f) => secondPass env input f

/-! ## pngsplit -/

/-- The static `FILE *outfile` of `write_chunk_to_file`. -/
inductive OutFile where
  /-- The value `NULL`. -/
  | null
  /-- A stream open for writing, with the `num` and `chunktyp` that named it
  and the bytes written to it so far. -/
  | writing (num chunktyp : Nat) (bytes : List Nat)
  /-- A non-`NULL` pointer to a stream that `fclose` has already closed (left
  behind by the branch `exists; not overwriting`). -/
  | stale
  deriving DecidableEq, Repr

/-- One output file that was written and closed. -/
structure OutUnit where
  num : Nat
  chunktyp : Nat
  bytes : List Nat
  deriving DecidableEq, Repr

/-- The state `write_chunk_to_file` keeps between calls, and the files it has
completed, in the order of their `fclose`. -/
structure Sink where
  outfile : OutFile
  closed : List OutUnit
  deriving DecidableEq, Repr

/-- What the surroundings of one `pngsplit` call decide. -/
structure SplitEnv where
  /-- The call `fopen(filename, "rb")` succeeds. -/
  inOpens : Bool
  /-- The output name made from `num` and `chunktyp` exists before the call. -/
  pre : Nat → Nat → Bool

/-- The function `write_chunk_to_file`; `buf` holds the `len` bytes at `buf`.
The result is the return value (0 = OK, 1 = warning, 2 = error), the state
afterwards and the `stderr` lines.  The calls `fopen(outname, "wb")` and
`fwrite` are taken to succeed, so the two `return 2` behind them (lines
453-457 and 500-505) are not part of the model.  For `fopen` this limits the
inputs as well as the surroundings: `outname` ends in the four type bytes of
the chunk, and a type byte such as `/` gives a name that an ordinary directory
cannot hold, so that the call fails and `pngsplit` returns 19.  Statements on
the complete splitting of a file therefore take chunk types made of letters
(`Chunk.LetterType`).  Writing through a `stale` pointer is undefined in C;
the model drops such bytes. -/
def write_chunk_to_file (pre : Nat → Nat → Bool) (num chunklen chunktyp chunkcrc : Nat)
    (buf : List Nat) (flags : Nat) (k : Sink) : Nat × Sink × List Msg :=
  let opened : Except (Nat × Sink × List Msg) Sink :=
    if flags &&& WR_OPEN ≠ 0 then
      if k.outfile ≠ .null then .error (2, k, [.logicStillOpen])
      else if flags &&& WR_FORCE = 0 ∧ pre num chunktyp = true then
        .error (1, { k with outfile := .stale }, [.existsNotOverwriting])
      else
        .ok { k with
              outfile := .writing num chunktyp
                (if num ≠ 0 then be32 chunklen ++ be32 chunktyp else []) }
    else .ok k
  match opened with
  | .error r => r
  | .ok k1 =>
    match k1.outfile with
    | .null => (2, k1, [.logicNoFile])
    | .stale =>
      if flags &&& WR_CLOSE ≠ 0 then (0, { k1 with outfile := .null }, [])
      else (0, k1, [])
    | .writing n t bytes =>
      let bytes1 := bytes ++ buf
      if flags &&& WR_CLOSE ≠ 0 then
        let bytes2 := if num ≠ 0 then bytes1 ++ be32 chunkcrc else bytes1
        (0, { outfile := .null, closed := k1.closed ++ [⟨n, t, bytes2⟩] }, [])
      else (0, { k1 with outfile := .writing n t bytes1 }, [])

/-- The inner loop `while (chunklen > incnt)` of `pngsplit` (lines 333-352).
`ret` is a `return` of `pngsplit` (20 or 21). -/
def feedLoop (pre : Nat → Nat → Bool) (force chunknum : Nat) :
    Nat → Reader → Nat → Sink → Flow (Nat × Sink × List Msg) (Reader × Nat × Sink)
  | 0, _, _, _ => .starved
  | budget + 1, s, chunklen, k =>
    if chunklen > s.incnt then
      let seg := (s.inbuf.drop s.inptr).take s.incnt
      let calc_crc := crc32 s.calc_crc seg
      match write_chunk_to_file pre chunknum 0 0 0 seg force k with
      | (error, k1, msgs) =>
        if error ≠ 0 then .ret (20, k1, msgs)
        else
          let chunklen1 := chunklen - s.incnt
          let file_offset := s.file_offset + s.incnt
          -- read more bytes into buffer
          let got := s.infile.take BUFSZ
          if got.length ≤ 0 then .ret (21, k1, msgs ++ [.eofMissing chunklen1])
          else
            feedLoop pre force chunknum budget
              { inbuf := got, inptr := 0, incnt := got.length,
                infile := s.infile.drop BUFSZ, calc_crc := calc_crc,
                file_offset := file_offset } chunklen1 k1
    else .go (s, chunklen, k)

/-- The loop over the chunks of `pngsplit` (lines 310-376) together with the
`return 0` behind it.  The result is the return value of `pngsplit`. -/
def chunkLoop (pre : Nat → Nat → Bool) (force : Nat) :
    Nat → Reader → Nat → Sink → Option (Nat × Sink × List Msg)
  | 0, _, _, _ => none
  | budget + 1, s, chunknum, k =>
    match GET_U32 false s with
    | none => some (0, k, [])
    | some (chunklen, s1) =>
      match GET_U32 true { s1 with calc_crc := crc32 0 [] } with
      | none => some (0, k, [])
      | some (chunktyp, s2) =>
        let chunknum1 := chunknum + 1
        match write_chunk_to_file pre chunknum1 chunklen chunktyp 0 [] (WR_OPEN ||| force) k with
        | (error, k1, msgs1) =>
          if error ≠ 0 then some (19, k1, msgs1)
          else
            match feedLoop pre force chunknum1 (s2.infile.length + 1) s2 chunklen k1 with
            | .starved => none
            | .ret r => some r
            | .go (s3, chunklen3, k3) =>
              let seg := (s3.inbuf.drop s3.inptr).take chunklen3
              match write_chunk_to_file pre chunknum1 0 0 0 seg force k3 with
              | (error, k4, msgs4) =>
                if error ≠ 0 then some (22, k4, msgs4)
                else
                  match GET_U32 false (afterPayload s3 chunklen3) with
                  | none => some (0, k4, [])
                  | some (chunkcrc, s5) =>
                    match write_chunk_to_file pre chunknum1 0 0 chunkcrc [] (WR_CLOSE ||| force) k4 with
                    | (error, k5, msgs5) =>
                      if error ≠ 0 then some (23, k5, msgs5)
                      else if s5.calc_crc ≠ chunkcrc then
                        some (24, k5, [.badCrc chunktyp s5.calc_crc chunkcrc])
                      else chunkLoop pre force budget s5 chunknum1 k5

/-- The function `pngsplit(filename, force, verbose)` on an input file with
content `input`, started with the sink state `k`.  The result is the return
value, the sink state afterwards and the `stderr` lines; `none` only if the
recursion budget of a loop ran out. -/
def pngsplit (env : SplitEnv) (force : Bool) (input : List Nat) (k : Sink) :
    Option (Nat × Sink × List Msg) :=
  let force : Nat := if force then WR_FORCE else 0
  if !env.inOpens then some (2, k, [.cannotOpenIn])
  else
    let inbuf := input.take BUFSZ
    let incnt := inbuf.length
    if incnt < MIN_PNG_SIZE ∨
        (inbuf.take 8 ≠ pngsig ∧ inbuf.take 8 ≠ mngsig ∧ inbuf.take 8 ≠ jngsig) then
      some (17, k, [.notPng])
    else
      let s : Reader :=
        { inbuf := inbuf, inptr := 8, incnt := incnt - 8, infile := input.drop BUFSZ,
          calc_crc := 0, file_offset := 8 }
      let flags := force ||| WR_OPEN ||| WR_CLOSE
      match write_chunk_to_file env.pre 0 0 0 0 (inbuf.take 8) flags k with
      | (error, k1, msgs) =>
        if error ≠ 0 then some (18, k1, msgs)
        else chunkLoop env.pre force (input.length + 1) s 0 k1


/-! ## Vocabulary of the properties -/

/-- The five legal colour types with their legal bit depths. -/
def LegalPair (colortype depth : Nat) : Prop :=
  (colortype = 0 ∧ (depth = 1 ∨ depth = 2 ∨ depth = 4 ∨ depth = 8 ∨ depth = 16)) ∨
  (colortype = 2 ∧ (depth = 8 ∨ depth = 16)) ∨
  (colortype = 3 ∧ (depth = 1 ∨ depth = 2 ∨ depth = 4 ∨ depth = 8)) ∨
  (colortype = 4 ∧ (depth = 8 ∨ depth = 16)) ∨
  (colortype = 6 ∧ (depth = 8 ∨ depth = 16))

/-- The colour type is one of 0, 2, 3, 4, 6. -/
def KnownColortype (colortype : Nat) : Prop :=
  colortype = 0 ∨ colortype = 2 ∨ colortype = 3 ∨ colortype = 4 ∨ colortype = 6

/-- Samples per pixel of a colour type: 1, 3, 1, 2, 4 for 0, 2, 3, 4, 6. -/
def channelsOf (colortype : Nat) : Nat :=
  if colortype = 0 then 1 else if colortype = 2 then 3 else if colortype = 3 then 1
  else if colortype = 4 then 2 else if colortype = 6 then 4 else 0

/-- Bytes of one row as a mathematical integer: the filter byte and the
pixel bits rounded up to whole bytes. -/
def rowBytes (width bitsperpixel : Nat) : Nat := 1 + (width * bitsperpixel + 7) / 8

/-- One of the products or sums of the size computation leaves the range of
a 64-bit `long` when done on mathematical integers. -/
def LongOverflow (width height bitsperpixel : Nat) : Prop :=
  2^63 ≤ width * bitsperpixel ∨ 2^63 ≤ width * bitsperpixel + 7 ∨
  2^63 ≤ rowBytes width bitsperpixel ∨
  2^63 ≤ rowBytes width bitsperpixel * height

/-- A reader that holds the whole unread stream of `s` in one window, so that
no read crosses a refill. -/
def Reader.contiguous (s : Reader) : Reader :=
  { inbuf := s.unread, inptr := 0, incnt := s.unread.length, infile := [],
    calc_crc := s.calc_crc, file_offset := s.file_offset }

/-- The reader sits at `file_offset` of `input`: what it has not consumed is
the input from that offset on. -/
def Reader.At (s : Reader) (input : List Nat) : Prop :=
  s.Consistent ∧ s.file_offset ≤ input.length ∧ s.unread = input.drop s.file_offset

/-- A chunk as it lies in a file: the four type bytes, the payload and the
stored trailing CRC (the length field is the payload's length). -/
structure Chunk where
  typ : List Nat
  data : List Nat
  crc : Nat
  deriving DecidableEq, Repr

/-- The bytes of a chunk: `length | type | payload | crc`, big-endian. -/
def Chunk.bytes (c : Chunk) : List Nat :=
  be32 c.data.length ++ c.typ ++ c.data ++ be32 c.crc

/-- The fields of a chunk fit their places: four type bytes, a payload
shorter than 2^32 bytes, a CRC below 2^32, all bytes below 256. -/
def Chunk.WellFormed (c : Chunk) : Prop :=
  c.typ.length = 4 ∧ IsBytes c.typ ∧ IsBytes c.data ∧ c.data.length < 2^32 ∧ c.crc < 2^32

/-- The four type bytes are ASCII letters, `A`-`Z` or `a`-`z`, as the PNG
format asks of a chunk type; the output name `pngsplit` makes of such a type
is a plain file name. -/
def Chunk.LetterType (c : Chunk) : Prop :=
  ∀ b ∈ c.typ, (65 ≤ b ∧ b ≤ 90) ∨ (97 ≤ b ∧ b ≤ 122)

/-- The stored CRC is the CRC-32 of the type bytes followed by the payload. -/
def Chunk.CrcOk (c : Chunk) : Prop :=
  c.crc = crc32 0 (c.typ ++ c.data)

/-- The bytes of a sequence of chunks. -/
def encode : List Chunk → List Nat
  | [] => []
  | c :: cs => c.bytes ++ encode cs

/-- The `len + 12` bytes of `l` from offset `off`: the place of a chunk with
a payload of `len` bytes. -/
def chunkAt (l : List Nat) (off len : Nat) : List Nat := (l.drop off).take (len + 12)

/-- The IHDR chunk with the given fields and the CRC that fits them. -/
def ihdrChunk (width height depth colortype compression filter interlace : Nat) : Chunk :=
  { typ := [73, 72, 68, 82]
    data := be32 width ++ be32 height ++ [depth, colortype, compression, filter, interlace]
    crc := crc32 0 ([73, 72, 68, 82] ++
      (be32 width ++ be32 height ++ [depth, colortype, compression, filter, interlace])) }

/-- A file laid out as 8 signature bytes, a header chunk, further chunks, an
IDAT chunk and whatever follows it. -/
def layout (sig8 : List Nat) (c0 : Chunk) (mids : List Chunk) (idat : Chunk)
    (tail : List Nat) : List Nat :=
  sig8 ++ c0.bytes ++ (encode mids ++ (idat.bytes ++ tail))

/-- The output units `pngsplit` is to make of a sequence of chunks when the
last unit number used is `num`: unit `num + 1` holds the bytes of the first
chunk, and so on. -/
def unitsFrom (num : Nat) : List Chunk → List OutUnit
  | [] => []
  | c :: cs => ⟨num + 1, U32 c.typ, c.bytes⟩ :: unitsFrom (num + 1) cs

/-- The bytes of a list of output units, one after the other. -/
def concatUnits : List OutUnit → List Nat
  | [] => []
  | u :: us => u.bytes ++ concatUnits us

/-- The reference CRC-32 of a byte string, computed in one pass over the whole
string: register preset to `0xFFFFFFFF`, one reflected division step per bit,
final complement. -/
def crcOneShot (bytes : List Nat) : Nat :=
  (bytes.foldl crcByte 0xFFFFFFFF) ^^^ 0xFFFFFFFF

/-- All bytes in the output files of a sink state: the completed units in the
order of their `fclose`, then what the unit still open has received. -/
def written (k : Sink) : List Nat :=
  concatUnits k.closed ++
    (match k.outfile with
     | .writing _ _ bytes => bytes
     | _ => [])

/-- The numbers of the output files of a sink state, in the same order. -/
def unitNums (k : Sink) : List Nat :=
  k.closed.map OutUnit.num ++
    (match k.outfile with
     | .writing n _ _ => [n]
     | _ => [])

/-! ## Sample files -/

/-- A 67-byte PNG (1 x 1, grey, depth 8) whose only IDAT starts with the zlib
header `0x68 0x81`. -/
def sampleNonCanonical : List Nat :=
  [137, 80, 78, 71, 13, 10, 26, 10,
   0, 0, 0, 13, 73, 72, 68, 82, 0, 0, 0, 1, 0, 0, 0, 1, 8, 0, 0, 0, 0, 58, 126, 155, 85,
   0, 0, 0, 10, 73, 68, 65, 84, 104, 129, 99, 96, 0, 0, 0, 2, 0, 1, 50, 142, 128, 191,
   0, 0, 0, 0, 73, 69, 78, 68, 174, 66, 96, 130]

/-- The same picture with the canonical zlib header `0x78 0x9C`. -/
def sampleCanonical : List Nat :=
  [137, 80, 78, 71, 13, 10, 26, 10,
   0, 0, 0, 13, 73, 72, 68, 82, 0, 0, 0, 1, 0, 0, 0, 1, 8, 0, 0, 0, 0, 58, 126, 155, 85,
   0, 0, 0, 10, 73, 68, 65, 84, 120, 156, 99, 96, 0, 0, 0, 2, 0, 1, 72, 175, 164, 113,
   0, 0, 0, 0, 73, 69, 78, 68, 174, 66, 96, 130]

/-- An 86-byte PNG with a `tEXt` chunk between IHDR and the non-canonical
IDAT. -/
def sampleWithText : List Nat :=
  [137, 80, 78, 71, 13, 10, 26, 10,
   0, 0, 0, 13, 73, 72, 68, 82, 0, 0, 0, 1, 0, 0, 0, 1, 8, 0, 0, 0, 0, 58, 126, 155, 85,
   0, 0, 0, 7, 116, 69, 88, 116, 84, 105, 116, 108, 101, 0, 120, 41, 126, 77, 58,
   0, 0, 0, 10, 73, 68, 65, 84, 104, 129, 99, 96, 0, 0, 0, 2, 0, 1, 50, 142, 128, 191,
   0, 0, 0, 0, 73, 69, 78, 68, 174, 66, 96, 130]

/-- A 67-byte file that ends right behind the length and type of its first
IDAT (declared length 2): signature, IHDR, a `tEXt` chunk, 8 bytes of IDAT. -/
def sampleTruncated : List Nat :=
  [137, 80, 78, 71, 13, 10, 26, 10,
   0, 0, 0, 13, 73, 72, 68, 82, 0, 0, 0, 1, 0, 0, 0, 1, 8, 0, 0, 0, 0, 58, 126, 155, 85,
   0, 0, 0, 14, 116, 69, 88, 116, 67, 111, 109, 109, 101, 110, 116, 0, 116, 114, 117, 110,
   99, 46, 22, 197, 243, 56,
   0, 0, 0, 2, 73, 68, 65, 84]

/-- What `png_fix_IDAT_windowsize` writes for `sampleTruncated` when the
allocated block holds `staleBlock`: 73 bytes. -/
def sampleTruncatedOutput : List Nat :=
  [137, 80, 78, 71, 13, 10, 26, 10,
   0, 0, 0, 13, 73, 72, 68, 82, 0, 0, 0, 1, 0, 0, 0, 1, 8, 0, 0, 0, 0, 58, 126, 155, 85,
   0, 0, 0, 14, 116, 69, 88, 116, 67, 111, 109, 109, 101, 110, 116, 0, 116, 114, 117, 110,
   99, 46, 22, 197, 243, 56,
   0, 0, 0, 2, 73, 68, 65, 84, 120, 156, 98, 164, 145, 43]

/-- A 79-byte PNG whose first IDAT is empty; the zlib stream, with the header
`0x68 0x81`, is in the second IDAT. -/
def sampleEmptyIdat : List Nat :=
  [137, 80, 78, 71, 13, 10, 26, 10,
   0, 0, 0, 13, 73, 72, 68, 82, 0, 0, 0, 1, 0, 0, 0, 1, 8, 0, 0, 0, 0, 58, 126, 155, 85,
   0, 0, 0, 0, 73, 68, 65, 84, 53, 175, 6, 30,
   0, 0, 0, 10, 73, 68, 65, 84, 104, 129, 99, 96, 0, 0, 0, 2, 0, 1, 50, 142, 128, 191,
   0, 0, 0, 0, 73, 69, 78, 68, 174, 66, 96, 130]

/-- A 67-byte PNG whose IDAT carries the trailing CRC `0x12345678`, which is
not the CRC-32 of its type and payload. -/
def sampleBadIdatCrc : List Nat :=
  [137, 80, 78, 71, 13, 10, 26, 10,
   0, 0, 0, 13, 73, 72, 68, 82, 0, 0, 0, 1, 0, 0, 0, 1, 8, 0, 0, 0, 0, 58, 126, 155, 85,
   0, 0, 0, 10, 73, 68, 65, 84, 104, 129, 99, 96, 0, 0, 0, 2, 0, 1, 18, 52, 86, 120,
   0, 0, 0, 0, 73, 69, 78, 68, 174, 66, 96, 130]

/-- Surroundings in which every call succeeds, no output exists, and the
allocated block holds zeros. -/
def envPlain : Env :=
  { inOpens := true, outExists := false, seekOk := true, mallocOk := true, outOpens := true,
    heap := fun _ => 0 }

/-- A block of 14 bytes that holds, from index 8 on, a 2-byte payload
`0x68 0x81` and the CRC-32 of `IDAT` followed by that payload. -/
def staleBlock : List Nat := [0, 0, 0, 0, 0, 0, 0, 0, 104, 129, 75, 96, 239, 163]

/-- Surroundings as `envPlain`, but the allocated block holds `staleBlock`. -/
def envStale : Env :=
  { inOpens := true, outExists := false, seekOk := true, mallocOk := true, outOpens := true,
    heap := fun i => staleBlock.getD i 0 }

/-- The IHDR chunk of the sample files: 1 x 1, depth 8, grey. -/
def sampleIhdr : Chunk := ihdrChunk 1 1 8 0 0 0 0

/-- The IDAT chunk of `sampleNonCanonical`. -/
def sampleIdat : Chunk :=
  { typ := [73, 68, 65, 84], data := [104, 129, 99, 96, 0, 0, 0, 2, 0, 1], crc := 0x328E80BF }

/-- The IDAT chunk of `sampleCanonical`. -/
def sampleIdatCanonical : Chunk :=
  { typ := [73, 68, 65, 84], data := [120, 156, 99, 96, 0, 0, 0, 2, 0, 1], crc := 0x48AFA471 }

/-- The IDAT chunk of `sampleBadIdatCrc`. -/
def sampleIdatBadCrc : Chunk :=
  { typ := [73, 68, 65, 84], data := [104, 129, 99, 96, 0, 0, 0, 2, 0, 1], crc := 0x12345678 }

/-- The IEND chunk that ends the sample files. -/
def sampleIend : Chunk := { typ := [73, 69, 78, 68], data := [], crc := 0xAE426082 }

/-- Surroundings of `pngsplit` in which the input opens and no output name is
taken. -/
def splitEnvFree : SplitEnv := { inOpens := true, pre := fun _ _ => false }

/-- The sink state of a fresh process: no stream open, nothing written. -/
def sinkFresh : Sink := { outfile := .null, closed := [] }

/-- The file `sampleNonCanonical` with the length field of its first chunk
changed from 13 to 14. -/
def sampleBadHeader : List Nat := sampleNonCanonical.set 11 14

/-- A `tEXt` chunk with a payload of 14 bytes and the right CRC. -/
def sampleText : Chunk :=
  { typ := [116, 69, 88, 116]
    data := [67, 111, 109, 109, 101, 110, 116, 0, 116, 114, 117, 110, 99, 46]
    crc := 0x16C5F338 }

/-- A 74-byte file without IDAT: signature, IHDR, `tEXt`, IEND and 3 stray
bytes, too few for a length field. -/
def sampleNoIdat : List Nat :=
  pngsig ++ sampleIhdr.bytes ++ (encode [sampleText, sampleIend] ++ [0, 0, 0])

/-- A 69-byte file that ends 2 bytes into the payload of a `tEXt` chunk with
the declared length 10: signature, IHDR, a complete `tEXt`, then the length
10, the type and 2 payload bytes. -/
def sampleCutPayload : List Nat :=
  pngsig ++ (encode [sampleIhdr, sampleText] ++ (be32 10 ++ ([116, 69, 88, 116] ++ [1, 2])))

/-- The file `sampleNonCanonical` followed by 2 stray bytes: the source ends
inside the length field of a fourth chunk. -/
def sampleCutLength : List Nat := sampleNonCanonical ++ [0, 0]

/-- The file `sampleNonCanonical` followed by a length field and 2 bytes of a
type field: the source ends inside the type field of a fourth chunk. -/
def sampleCutType : List Nat := sampleNonCanonical ++ [0, 0, 0, 0, 73, 69]

/-- The file `sampleWithText` without its last 2 bytes: the source ends
inside the CRC field of the IEND chunk (84 bytes). -/
def sampleCutCrc : List Nat := sampleWithText.take 84

/-- Surroundings of `pngsplit` in which the input opens and the output name
of unit 0, the signature, is taken. -/
def splitEnvSigTaken : SplitEnv := { inOpens := true, pre := fun n _ => decide (n = 0) }

/-- Surroundings of `pngsplit` in which the input opens and the output name
of unit 2 is taken. -/
def splitEnvUnit2Taken : SplitEnv := { inOpens := true, pre := fun n _ => decide (n = 2) }

/-- The file `sampleWithText` with the last byte of the CRC of its `tEXt`
chunk changed from `0x3A` to 0. -/
def sampleBadTextCrc : List Nat := sampleWithText.set 51 0

/-- A PNG whose IHDR declares width and height `0xFFFFFFFF`, depth 16 and
colour type 6, with the right CRC, followed by the IDAT and IEND chunks of
`sampleNonCanonical`. -/
def sampleHugeHeader : List Nat :=
  pngsig ++ encode [ihdrChunk 0xFFFFFFFF 0xFFFFFFFF 16 6 0 0 0, sampleIdat, sampleIend]

/-- A reader whose window ends two bytes into the type field of an IEND chunk:
the window holds the length field and `73, 69`, the rest of the chunk is still
in the file. -/
def sampleStraddle : Reader :=
  { inbuf := [0, 0, 0, 0, 73, 69], inptr := 0, incnt := 6,
    infile := [78, 68, 174, 66, 96, 130], calc_crc := 0, file_offset := 0 }

/-! ## IHDR interpretation -/

theorem wrapLong_of_range (x : Int) (h0 : -2^63 ≤ x) (h1 : x < 2^63) : wrapLong x = x := by
  unfold wrapLong; omega

theorem wrapLong_lt (x : Int) : wrapLong x < 2^63 := by
  unfold wrapLong; omega

theorem wrapLong_ge (x : Int) : -2^63 ≤ wrapLong x := by
  unfold wrapLong; omega

/-- The divide-back test on a wrapped product of positive factors fails
exactly when the product does not fit. -/
theorem divide_back (a b : Int) (ha : 0 < a) (hb : 0 < b) :
    (wrapLong (a * b)).tdiv a ≠ b ↔ 2^63 ≤ a * b := by
  constructor
  · intro h
    by_contra hlt
    have hp : 0 ≤ a * b := Int.mul_nonneg (le_of_lt ha) (le_of_lt hb)
    rw [wrapLong_of_range (a * b) (by omega) (by omega)] at h
    exact h (Int.mul_tdiv_cancel_left b (ne_of_gt ha))
  · intro h heq
    have hlt := wrapLong_lt (a * b)
    rcases lt_or_le (wrapLong (a * b)) 0 with hneg | hnn
    · have h1 : (-(-(wrapLong (a * b)))).tdiv a = -((-(wrapLong (a * b))).tdiv a) :=
        Int.neg_tdiv _ _
      rw [neg_neg] at h1
      have h2 : 0 ≤ (-(wrapLong (a * b))).tdiv a :=
        Int.tdiv_nonneg (by omega) (le_of_lt ha)
      omega
    · rw [Int.tdiv_eq_ediv hnn (le_of_lt ha)] at heq
      have h3 := Int.mul_ediv_self_le (x := wrapLong (a * b)) (ne_of_gt ha)
      rw [heq] at h3
      omega

theorem colortypeSwitch_legal (colortype depth : Nat) (h : LegalPair colortype depth) :
    colortypeSwitch colortype depth = some (channelsOf colortype, 0) := by
  rcases h with ⟨rfl, h | h | h | h | h⟩ | ⟨rfl, h | h⟩ | ⟨rfl, h | h | h | h⟩ |
    ⟨rfl, h | h⟩ | ⟨rfl, h | h⟩ <;> subst h <;> rfl

theorem bitsperpixel_le (colortype depth : Nat) (h : LegalPair colortype depth) :
    0 < depth * channelsOf colortype ∧ depth * channelsOf colortype ≤ 64 := by
  rcases h with ⟨rfl, h | h | h | h | h⟩ | ⟨rfl, h | h⟩ | ⟨rfl, h | h | h | h⟩ |
    ⟨rfl, h | h⟩ | ⟨rfl, h | h⟩ <;> subst h <;> decide

/-- The size computation of lines 379-381 on a 64-bit `long` for a width
below `2^32` and at most 64 bits per pixel: nothing wraps before the last
product. -/
theorem size_computation (width bpp : Nat) (hw : width < 2^32) (hb : bpp ≤ 64) :
    wrapLong ((width : Int) * (bpp : Int)) = ((width * bpp : Nat) : Int) ∧
    wrapLong (1 + (wrapLong (((width * bpp : Nat) : Int) + 7)).tdiv 8)
      = ((rowBytes width bpp : Nat) : Int) ∧
    rowBytes width bpp < 2^36 := by
  have hp : width * bpp ≤ 2^32 * 64 := Nat.mul_le_mul (le_of_lt hw) hb
  have e1 : wrapLong ((width : Int) * (bpp : Int)) = ((width * bpp : Nat) : Int) := by
    rw [← Nat.cast_mul]
    exact wrapLong_of_range _ (by omega) (by omega)
  have e2 : wrapLong (((width * bpp : Nat) : Int) + 7) = ((width * bpp : Nat) : Int) + 7 :=
    wrapLong_of_range _ (by omega) (by omega)
  have e3 : (((width * bpp : Nat) : Int) + 7).tdiv 8 = (((width * bpp + 7) / 8 : Nat) : Int) := by
    rw [Int.tdiv_eq_ediv (by omega) (by omega)]
    omega
  refine ⟨e1, ?_, ?_⟩
  · rw [e2, e3]
    unfold rowBytes
    rw [wrapLong_of_range _ (by omega) (by omega)]
    omega
  · unfold rowBytes
    omega

/-- The divide-back comparison never fires: where the product fits, the
quotient is the other factor; where it does not, the comparison is dropped. -/
theorem divideBack_false (a b : Int) (ha : a ≠ 0) : divideBack a b = false := by
  unfold divideBack
  split
  · rw [Int.mul_tdiv_cancel_left b ha]
    simp
  · rfl

/-- What `ihdrStage` computes for a legal pair and nonzero dimensions: the
header is accepted, whether or not the last product fits a `long`. -/
theorem ihdrStage_legal (width height depth colortype : Nat)
    (hw : width < 2^32) (hw0 : 0 < width) (hh0 : 0 < height)
    (hl : LegalPair colortype depth) :
    ihdrStage width height depth colortype =
      .ok { channels := channelsOf colortype
            bitsperpixel := depth * channelsOf colortype
            bitwidth := ((width * (depth * channelsOf colortype) : Nat) : Int)
            bytewidth := ((rowBytes width (depth * channelsOf colortype) : Nat) : Int)
            ucsize := wrapLong (((rowBytes width (depth * channelsOf colortype) : Nat) : Int)
              * (height : Int)) } := by
  obtain ⟨hb0, hb⟩ := bitsperpixel_le colortype depth hl
  obtain ⟨e1, e2, e3⟩ := size_computation width (depth * channelsOf colortype) hw hb
  have hpos : 0 < rowBytes width (depth * channelsOf colortype) := by unfold rowBytes; omega
  have hposI : (0 : Int) < ((rowBytes width (depth * channelsOf colortype) : Nat) : Int) := by
    exact_mod_cast hpos
  unfold ihdrStage
  rw [if_neg (by omega), colortypeSwitch_legal colortype depth hl]
  simp only [ne_eq, not_true_eq_false, if_false]
  rw [e1, e2, divideBack_false _ _ (by omega), divideBack_false _ _ (by omega), if_neg]
  intro hc
  rcases hc with hc | hc | hc
  · cases hc
  · omega
  · cases hc

/-- The last product of an accepted header whose size fits a `long` is
exact. -/
theorem ucsize_exact (width height bpp : Nat)
    (hov : ¬ 2^63 ≤ rowBytes width bpp * height) :
    wrapLong (((rowBytes width bpp : Nat) : Int) * (height : Int))
      = ((rowBytes width bpp * height : Nat) : Int) := by
  rw [← Nat.cast_mul]
  generalize rowBytes width bpp * height = P at hov
  exact wrapLong_of_range _ (by omega) (by omega)

theorem colortypeSwitch_unknown (colortype depth : Nat) (h : ¬ KnownColortype colortype) :
    colortypeSwitch colortype depth = none := by
  unfold KnownColortype at h
  rcases colortype with _ | _ | _ | _ | _ | _ | _ | n
  all_goals first | rfl | (exfalso; omega)

theorem colortypeSwitch_illegal (colortype depth : Nat) (hk : KnownColortype colortype)
    (h : ¬ LegalPair colortype depth) :
    colortypeSwitch colortype depth = some (channelsOf colortype, 1) := by
  unfold LegalPair at h
  rcases hk with rfl | rfl | rfl | rfl | rfl
  all_goals
    simp only [colortypeSwitch, channelsOf]
    rw [if_pos (by omega)]
    rfl

theorem legalPair_known (colortype depth : Nat) (h : LegalPair colortype depth) :
    KnownColortype colortype := by
  unfold LegalPair at h
  unfold KnownColortype
  omega

theorem ihdrStage_unknown (width height : Int) (depth colortype : Nat)
    (hw : 0 < width) (hh : 0 < height) (h : ¬ KnownColortype colortype) :
    ihdrStage width height depth colortype = .error (22, .invalidColortype colortype) := by
  unfold ihdrStage
  rw [if_neg (by omega), colortypeSwitch_unknown colortype depth h]

theorem ihdrStage_illegal (width height : Int) (depth colortype : Nat)
    (hw : 0 < width) (hh : 0 < height) (hk : KnownColortype colortype)
    (h : ¬ LegalPair colortype depth) :
    ihdrStage width height depth colortype = .error (23, .invalidDepth depth colortype) := by
  unfold ihdrStage
  rw [if_neg (by omega), colortypeSwitch_illegal colortype depth hk h]
  rfl

theorem ihdrStage_zero (width height : Int) (depth colortype : Nat)
    (h : width ≤ 0 ∨ height ≤ 0) :
    ihdrStage width height depth colortype = .error (20, .invalidDimensions) := by
  unfold ihdrStage
  rw [if_pos h]

theorem not_early_overflow (width bpp : Nat) (hw : width < 2^32) (hb : bpp ≤ 64) :
    ¬ (2^63 ≤ width * bpp ∨ 2^63 ≤ width * bpp + 7 ∨ 2^63 ≤ rowBytes width bpp) := by
  have hp : width * bpp ≤ 2^32 * 64 := Nat.mul_le_mul (le_of_lt hw) hb
  unfold rowBytes
  omega

theorem ihdrStage_ok_legal (width height : Int) (depth colortype : Nat) (d : Derived)
    (hok : ihdrStage width height depth colortype = .ok d) :
    0 < width ∧ 0 < height ∧ LegalPair colortype depth := by
  by_cases hz : width ≤ 0 ∨ height ≤ 0
  · rw [ihdrStage_zero _ _ _ _ hz] at hok; cases hok
  · refine ⟨by omega, by omega, ?_⟩
    by_contra hl
    by_cases hk : KnownColortype colortype
    · rw [ihdrStage_illegal _ _ _ _ (by omega) (by omega) hk hl] at hok; cases hok
    · rw [ihdrStage_unknown _ _ _ _ (by omega) (by omega) hk] at hok; cases hok

theorem ceil_div_eight (x : Nat) : ⌈((x : ℚ)) / 8⌉ = (((x + 7) / 8 : Nat) : Int) := by
  rw [Int.ceil_eq_iff]
  have h1 : 8 * ((x + 7) / 8) ≤ x + 7 := Nat.mul_div_le _ _
  have h3 : x ≤ 8 * ((x + 7) / 8) := by omega
  generalize (x + 7) / 8 = q at h1 h3 ⊢
  have h1q : (8 : ℚ) * (q : ℚ) ≤ (x : ℚ) + 7 := by exact_mod_cast h1
  have h3q : (x : ℚ) ≤ 8 * (q : ℚ) := by exact_mod_cast h3
  simp only [Int.cast_natCast]
  constructor <;> linarith

/-- The derived values of an accepted IHDR whose size fits a `long`:
`channels` is 1, 3, 1, 2, 4 for colour types 0, 2, 3, 4, 6, `bitsperpixel` is
`depth * channels` and at most 64, `bytewidth` is exactly
1 + ceil(width * bitsperpixel / 8), and `ucsize` is exactly
`bytewidth * height` as mathematical integers. -/
theorem derived_values_exact (width height depth colortype : Nat) (d : Derived)
    (hw : width < 2^32)
    (hov : ¬ 2^63 ≤ rowBytes width (depth * channelsOf colortype) * height)
    (hok : ihdrStage width height depth colortype = .ok d) :
    KnownColortype colortype ∧
    d.channels = channelsOf colortype ∧
    d.bitsperpixel = depth * d.channels ∧
    d.bitsperpixel ≤ 64 ∧
    d.bytewidth = 1 + ⌈((width * d.bitsperpixel : Nat) : ℚ) / 8⌉ ∧
    d.ucsize = d.bytewidth * (height : Int) := by
  obtain ⟨hw0, hh0, hl⟩ := ihdrStage_ok_legal _ _ _ _ _ hok
  obtain ⟨_, hb⟩ := bitsperpixel_le colortype depth hl
  rw [ihdrStage_legal width height depth colortype hw (by omega) (by omega) hl] at hok
  cases hok
  refine ⟨legalPair_known _ _ hl, rfl, rfl, hb, ?_, ?_⟩
  · show ((rowBytes width (depth * channelsOf colortype) : Nat) : Int) = _
    rw [ceil_div_eight]
    unfold rowBytes
    push_cast
    rfl
  · show wrapLong (((rowBytes width (depth * channelsOf colortype) : Nat) : Int)
      * (height : Int)) = _
    rw [ucsize_exact width height _ hov]
    push_cast
    rfl

/-! ## Byte order and CRC -/

theorem U32_four (a b c d : Nat) (t : List Nat) :
    U32 (a :: b :: c :: d :: t) = U32 [a, b, c, d] := rfl

theorem U32_congr (x y : List Nat) (h : ∀ i, i < 4 → x[i]? = y[i]?) : U32 x = U32 y := by
  unfold U32
  simp only [List.getD_eq_getElem?_getD]
  rw [h 0 (by omega), h 1 (by omega), h 2 (by omega), h 3 (by omega)]

theorem U32_eq (a b c d : Nat) (ha : a < 256) (hb : b < 256) (hc : c < 256) (hd : d < 256) :
    U32 [a, b, c, d] = a * 2^24 + b * 2^16 + c * 2^8 + d := by
  show (a <<< 24) ||| (b <<< 16) ||| (c <<< 8) ||| d = _
  simp only [Nat.shiftLeft_eq]
  have e1 : 2^8 * (a * 2^16 + b * 2^8 + c) + d = 2^8 * (a * 2^16 + b * 2^8 + c) ||| d :=
    Nat.mul_add_lt_is_or (by omega) _
  have e2 : 2^8 * (a * 2^8 + b) + c = 2^8 * (a * 2^8 + b) ||| c :=
    Nat.mul_add_lt_is_or (by omega) _
  have e3 : 2^8 * a + b = 2^8 * a ||| b := Nat.mul_add_lt_is_or (by omega) _
  have f3 : a * 2^24 ||| b * 2^16 = (a * 2^8 + b) * 2^16 := by
    have : 2^24 * a + b * 2^16 = 2^24 * a ||| b * 2^16 :=
      Nat.mul_add_lt_is_or (i := 24) (b := b * 2^16) (by omega) a
    rw [Nat.mul_comm a] ; omega
  have f2 : (a * 2^8 + b) * 2^16 ||| c * 2^8 = (a * 2^16 + b * 2^8 + c) * 2^8 := by
    have : 2^16 * (a * 2^8 + b) + c * 2^8 = 2^16 * (a * 2^8 + b) ||| c * 2^8 :=
      Nat.mul_add_lt_is_or (i := 16) (b := c * 2^8) (by omega) _
    rw [Nat.mul_comm (a * 2^8 + b)] ; omega
  rw [f3, f2, Nat.mul_comm _ (2^8), ← e1]
  omega

theorem U32_lt (a b c d : Nat) (ha : a < 256) (hb : b < 256) (hc : c < 256) (hd : d < 256) :
    U32 [a, b, c, d] < 2^32 := by
  rw [U32_eq a b c d ha hb hc hd]
  omega

theorem be32_eq (v : Nat) :
    be32 v = [v / 2^24 % 256, v / 2^16 % 256, v / 2^8 % 256, v % 256] := by
  unfold be32
  have h : ∀ x : Nat, x &&& 0xff = x % 256 := fun x => Nat.and_pow_two_sub_one_eq_mod x 8
  simp only [h, Nat.shiftRight_eq_div_pow]

theorem be32_length (v : Nat) : (be32 v).length = 4 := rfl

theorem be32_isBytes (v : Nat) : IsBytes (be32 v) := by
  rw [be32_eq]
  intro b hb
  simp only [List.mem_cons, List.mem_singleton, List.not_mem_nil, or_false] at hb
  rcases hb with h | h | h | h <;> subst h <;> omega

theorem be32_U32 (a b c d : Nat) (ha : a < 256) (hb : b < 256) (hc : c < 256) (hd : d < 256) :
    be32 (U32 [a, b, c, d]) = [a, b, c, d] := by
  rw [be32_eq, U32_eq a b c d ha hb hc hd]
  congr 1
  · omega
  congr 1
  · omega
  congr 1
  · omega
  congr 1
  omega

theorem U32_be32 (v : Nat) (hv : v < 2^32) : U32 (be32 v) = v := by
  rw [be32_eq, U32_eq _ _ _ _ (by omega) (by omega) (by omega) (by omega)]
  omega

theorem crc32_nil (c : Nat) : crc32 c [] = c := by
  unfold crc32
  simp only [List.foldl_nil, Nat.xor_assoc, Nat.xor_self, Nat.xor_zero]

theorem crc32_append (c : Nat) (a b : List Nat) :
    crc32 (crc32 c a) b = crc32 c (a ++ b) := by
  unfold crc32
  simp only [List.foldl_append, Nat.xor_assoc, Nat.xor_self, Nat.xor_zero]

theorem crcStep_lt (c : Nat) (h : c < 2^32) : crcStep c < 2^32 := by
  unfold crcStep
  have h1 : c >>> 1 < 2^32 := by rw [Nat.shiftRight_eq_div_pow]; omega
  split
  · exact Nat.xor_lt_two_pow h1 (by norm_num)
  · exact h1

theorem crcByte_lt (c b : Nat) (h : c < 2^32) (hb : b < 256) : crcByte c b < 2^32 := by
  unfold crcByte
  have h0 : c ^^^ b < 2^32 := Nat.xor_lt_two_pow h (by omega)
  exact crcStep_lt _ (crcStep_lt _ (crcStep_lt _ (crcStep_lt _ (crcStep_lt _
    (crcStep_lt _ (crcStep_lt _ (crcStep_lt _ h0)))))))

theorem foldl_crcByte_lt (buf : List Nat) (c : Nat) (h : c < 2^32) (hb : IsBytes buf) :
    buf.foldl crcByte c < 2^32 := by
  induction buf generalizing c with
  | nil => exact h
  | cons b t ih =>
    simp only [List.foldl_cons]
    exact ih _ (crcByte_lt c b h (hb b (List.mem_cons_self _ _)))
      (fun x hx => hb x (List.mem_cons_of_mem _ hx))

theorem crc32_lt (c : Nat) (buf : List Nat) (h : c < 2^32) (hb : IsBytes buf) :
    crc32 c buf < 2^32 := by
  unfold crc32
  exact Nat.xor_lt_two_pow (foldl_crcByte_lt buf _ (Nat.xor_lt_two_pow h (by norm_num)) hb)
    (by norm_num)

theorem IsBytes.append {a b : List Nat} (ha : IsBytes a) (hb : IsBytes b) : IsBytes (a ++ b) := by
  intro x hx
  rcases List.mem_append.mp hx with h | h
  · exact ha x h
  · exact hb x h

theorem IsBytes.left {a b : List Nat} (h : IsBytes (a ++ b)) : IsBytes a :=
  fun x hx => h x (List.mem_append.mpr (Or.inl hx))

theorem IsBytes.right {a b : List Nat} (h : IsBytes (a ++ b)) : IsBytes b :=
  fun x hx => h x (List.mem_append.mpr (Or.inr hx))

theorem IsBytes.take {a : List Nat} (h : IsBytes a) (n : Nat) : IsBytes (a.take n) :=
  fun x hx => h x (List.mem_of_mem_take hx)

theorem IsBytes.drop {a : List Nat} (h : IsBytes a) (n : Nat) : IsBytes (a.drop n) :=
  fun x hx => h x (List.mem_of_mem_drop hx)

/-! ## The read buffer -/

theorem Reader.unread_eq (s : Reader) (hc : s.Consistent) :
    s.unread = s.inbuf.drop s.inptr ++ s.infile := by
  unfold Reader.unread
  unfold Reader.Consistent at hc
  rw [List.take_of_length_le (by rw [List.length_drop]; omega)]

theorem window_length (s : Reader) (hc : s.Consistent) :
    (s.inbuf.drop s.inptr).length = s.incnt := by
  unfold Reader.Consistent at hc
  rw [List.length_drop]; omega

/-- Joining the first `n` bytes of a refill to the rest of the refilled
stream: the refill boundary at `BUFSZ` is invisible. -/
theorem refill_drop (l : List Nat) (n : Nat) (h : n ≤ (l.take BUFSZ).length) :
    (l.take BUFSZ).drop n ++ l.drop BUFSZ = l.drop n := by
  rw [← List.drop_append_of_le_length h, List.take_append_drop]

theorem refill_take (l : List Nat) (n : Nat) (h : n ≤ (l.take BUFSZ).length) :
    (l.take BUFSZ).take n = l.take n := by
  rw [List.take_take]
  rw [List.length_take] at h
  congr 1
  omega

/-- The effect of `GET_U32` on a consistent reader whose unread stream starts
with four bytes, on either path of the macro. -/
theorem GET_U32_some (docrc : Bool) (s : Reader) (hc : s.Consistent)
    (a b c d : Nat) (t : List Nat) (hu : s.unread = a :: b :: c :: d :: t) :
    ∃ s', GET_U32 docrc s = some (U32 [a, b, c, d], s') ∧
      s'.Consistent ∧ s'.unread = t ∧
      s'.calc_crc = (if docrc then crc32 s.calc_crc [a, b, c, d] else s.calc_crc) ∧
      s'.file_offset = s.file_offset + 4 ∧
      (s.incnt < 4 → s'.inbuf = s.infile.take BUFSZ ∧ s'.inptr = 4 - s.incnt) ∧
      (4 ≤ s.incnt → s'.inbuf = s.inbuf ∧ s'.inptr = s.inptr + 4 ∧ s'.infile = s.infile) := by
  have hw := window_length s hc
  rw [Reader.unread_eq s hc] at hu
  have hlen : (s.inbuf.drop s.inptr ++ s.infile).length = t.length + 4 := by rw [hu]; rfl
  rw [List.length_append, hw] at hlen
  by_cases hfast : s.incnt < 4
  · -- the boundary-crossing path
    have hgot : 4 - s.incnt ≤ (s.infile.take BUFSZ).length := by
      rw [List.length_take]; unfold BUFSZ; omega
    have htmp : (s.inbuf.drop s.inptr).take s.incnt ++ (s.infile.take BUFSZ).take (4 - s.incnt)
        = [a, b, c, d] := by
      rw [List.take_of_length_le (le_of_eq hw), refill_take _ _ hgot]
      have h4 : (s.inbuf.drop s.inptr ++ s.infile).take 4 = [a, b, c, d] := by rw [hu]; rfl
      rw [List.take_append_eq_append_take, hw,
        List.take_of_length_le (by rw [hw]; omega)] at h4
      exact h4
    have hrest : (s.infile.take BUFSZ).drop (4 - s.incnt) ++ s.infile.drop BUFSZ = t := by
      rw [refill_drop _ _ hgot]
      have h4 : (s.inbuf.drop s.inptr ++ s.infile).drop 4 = t := by rw [hu]; rfl
      rw [List.drop_append_eq_append_drop, hw,
        List.drop_of_length_le (by rw [hw]; omega), List.nil_append] at h4
      exact h4
    refine ⟨{ inbuf := s.infile.take BUFSZ
              inptr := 4 - s.incnt
              incnt := (s.infile.take BUFSZ).length - (4 - s.incnt)
              infile := s.infile.drop BUFSZ
              calc_crc := if docrc then crc32 s.calc_crc [a, b, c, d] else s.calc_crc
              file_offset := s.file_offset + 4 }, ?_, ?_, ?_, ?_, ?_, ?_, ?_⟩
    · unfold GET_U32
      rw [if_pos hfast]
      simp only []
      rw [if_neg (by omega), htmp]
    · show 4 - s.incnt + ((s.infile.take BUFSZ).length - (4 - s.incnt))
        = (s.infile.take BUFSZ).length
      omega
    · show ((s.infile.take BUFSZ).drop (4 - s.incnt)).take
        ((s.infile.take BUFSZ).length - (4 - s.incnt)) ++ s.infile.drop BUFSZ = t
      rw [List.take_of_length_le (by rw [List.length_drop])]
      exact hrest
    · rfl
    · rfl
    · intro _; exact ⟨rfl, rfl⟩
    · intro h; omega
  · -- the contiguous path
    have h4 : 4 ≤ (s.inbuf.drop s.inptr).length := by omega
    have hfour : (s.inbuf.drop s.inptr).take 4 = [a, b, c, d] := by
      have h := congrArg (List.take 4) hu
      rw [List.take_append_of_le_length h4] at h
      exact h
    have hrest : s.inbuf.drop (s.inptr + 4) ++ s.infile = t := by
      have h := congrArg (List.drop 4) hu
      rw [List.drop_append_of_le_length h4, List.drop_drop] at h
      exact h
    refine ⟨{ s with
              inptr := s.inptr + 4
              incnt := s.incnt - 4
              calc_crc := if docrc then crc32 s.calc_crc [a, b, c, d] else s.calc_crc
              file_offset := s.file_offset + 4 }, ?_, ?_, ?_, ?_, ?_, ?_, ?_⟩
    · unfold GET_U32
      rw [if_neg hfast]
      simp only []
      rw [hfour]
    · show s.inptr + 4 + (s.incnt - 4) = s.inbuf.length
      unfold Reader.Consistent at hc
      omega
    · show (s.inbuf.drop (s.inptr + 4)).take (s.incnt - 4) ++ s.infile = t
      rw [List.take_of_length_le (by rw [List.length_drop]; unfold Reader.Consistent at hc; omega)]
      exact hrest
    · rfl
    · rfl
    · intro h; omega
    · intro _; exact ⟨rfl, rfl, rfl⟩

/-- When fewer than four bytes are left `GET_U32` takes the branch
`haveEOF = TRUE; break;`. -/
theorem GET_U32_none (docrc : Bool) (s : Reader) (hc : s.Consistent)
    (h : s.unread.length < 4) : GET_U32 docrc s = none := by
  rw [Reader.unread_eq s hc, List.length_append, window_length s hc] at h
  unfold GET_U32
  rw [if_pos (by omega)]
  simp only []
  rw [if_pos (by rw [List.length_take]; omega)]

theorem four_of_length (l : List Nat) (h : 4 ≤ l.length) :
    ∃ a b c d t, l = a :: b :: c :: d :: t := by
  match l, h with
  | a :: b :: c :: d :: t, _ => exact ⟨a, b, c, d, t, rfl⟩

theorem Reader.contiguous_consistent (s : Reader) : s.contiguous.Consistent := by
  unfold Reader.contiguous Reader.Consistent
  simp

theorem Reader.contiguous_unread (s : Reader) : s.contiguous.unread = s.unread := by
  unfold Reader.contiguous
  show ((s.unread.drop 0).take s.unread.length) ++ [] = s.unread
  simp

/-- C10 (boundary-straddling read): on a reader with `k ≤ 3` unread bytes in
the window, if the source still holds `4 - k` bytes then `GET_U32` yields the
big-endian value of the next 4 bytes of the stream, the same value, CRC and
remaining stream as a reader that holds the stream in one contiguous window,
consumes exactly those 4 bytes, leaves the cursor `4 - k` bytes into the
refilled window, feeds exactly those 4 bytes to the CRC when `docrc` is set and
advances `file_offset` by 4; if the source holds fewer than `4 - k` bytes it
signals end of stream (`haveEOF`) and yields no value. -/
theorem GET_U32_straddle (docrc : Bool) (s : Reader) (hc : s.Consistent) (hk : s.incnt ≤ 3) :
    (4 - s.incnt ≤ s.infile.length →
      ∃ v s' t', GET_U32 docrc s = some (v, s') ∧
        GET_U32 docrc s.contiguous = some (v, t') ∧
        v = U32 (s.unread.take 4) ∧
        s'.unread = s.unread.drop 4 ∧
        t'.unread = s.unread.drop 4 ∧
        s'.inbuf = s.infile.take BUFSZ ∧
        s'.inptr = 4 - s.incnt ∧
        s'.calc_crc = (if docrc then crc32 s.calc_crc (s.unread.take 4) else s.calc_crc) ∧
        t'.calc_crc = s'.calc_crc ∧
        s'.file_offset = s.file_offset + 4 ∧
        s'.Consistent) ∧
    (s.infile.length < 4 - s.incnt → GET_U32 docrc s = none) := by
  have hlen : s.unread.length = s.incnt + s.infile.length := by
    rw [Reader.unread_eq s hc, List.length_append, window_length s hc]
  constructor
  · intro h
    obtain ⟨a, b, c, d, t, hu⟩ := four_of_length s.unread (by omega)
    obtain ⟨s', h1, h2, h3, h4, h5, h6, _⟩ := GET_U32_some docrc s hc a b c d t hu
    obtain ⟨t', g1, _, g3, g4, _, _, _⟩ :=
      GET_U32_some docrc s.contiguous s.contiguous_consistent a b c d t
        (by rw [Reader.contiguous_unread]; exact hu)
    have htake : s.unread.take 4 = [a, b, c, d] := by rw [hu]; rfl
    have hdrop : s.unread.drop 4 = t := by rw [hu]; rfl
    refine ⟨U32 [a, b, c, d], s', t', h1, g1, ?_, ?_, ?_, (h6 (by omega)).1, (h6 (by omega)).2,
      ?_, ?_, h5, h2⟩
    · rw [htake]
    · rw [hdrop]; exact h3
    · rw [hdrop]; exact g3
    · rw [htake]; exact h4
    · rw [g4, h4]; rfl
  · intro h
    exact GET_U32_none docrc s hc (by omega)

/-- C10 at a concrete state: three bytes `0 0 1` are left in the window, the
source continues with `44 9 9`; the assembled value is 300. -/
theorem GET_U32_straddle_witness :
    (4 - 3 ≤ 3 →
      ∃ v s' t', GET_U32 true ⟨[7, 7, 0, 0, 1], 2, 3, [44, 9, 9], 5, 40⟩ = some (v, s') ∧
        GET_U32 true (Reader.contiguous ⟨[7, 7, 0, 0, 1], 2, 3, [44, 9, 9], 5, 40⟩) = some (v, t') ∧
        v = U32 ((Reader.unread ⟨[7, 7, 0, 0, 1], 2, 3, [44, 9, 9], 5, 40⟩).take 4) ∧
        s'.unread = (Reader.unread ⟨[7, 7, 0, 0, 1], 2, 3, [44, 9, 9], 5, 40⟩).drop 4 ∧
        t'.unread = (Reader.unread ⟨[7, 7, 0, 0, 1], 2, 3, [44, 9, 9], 5, 40⟩).drop 4 ∧
        s'.inbuf = [44, 9, 9].take BUFSZ ∧
        s'.inptr = 4 - 3 ∧
        s'.calc_crc = (if true = true then
          crc32 5 ((Reader.unread ⟨[7, 7, 0, 0, 1], 2, 3, [44, 9, 9], 5, 40⟩).take 4) else 5) ∧
        t'.calc_crc = s'.calc_crc ∧
        s'.file_offset = 40 + 4 ∧
        s'.Consistent) ∧
    (3 < 4 - 3 → GET_U32 true ⟨[7, 7, 0, 0, 1], 2, 3, [44, 9, 9], 5, 40⟩ = none) :=
  GET_U32_straddle true ⟨[7, 7, 0, 0, 1], 2, 3, [44, 9, 9], 5, 40⟩
    (by unfold Reader.Consistent; rfl) (by decide)

/-! ## The payload loop of the first pass -/

theorem window_take (s : Reader) (hc : s.Consistent) :
    (s.inbuf.drop s.inptr).take s.incnt = s.inbuf.drop s.inptr :=
  List.take_of_length_le (le_of_eq (window_length s hc))

theorem refilled_consistent (l : List Nat) (c o : Nat) :
    Reader.Consistent { inbuf := l.take BUFSZ, inptr := 0, incnt := (l.take BUFSZ).length,
                        infile := l.drop BUFSZ, calc_crc := c, file_offset := o } := by
  unfold Reader.Consistent
  simp

theorem refilled_unread (l : List Nat) (c o : Nat) :
    Reader.unread { inbuf := l.take BUFSZ, inptr := 0, incnt := (l.take BUFSZ).length,
                    infile := l.drop BUFSZ, calc_crc := c, file_offset := o } = l := by
  unfold Reader.unread
  show ((l.take BUFSZ).drop 0).take (l.take BUFSZ).length ++ l.drop BUFSZ = l
  rw [List.drop_zero, List.take_of_length_le (le_refl _), List.take_append_drop]

/-- The loop `while (chunklen > incnt)` of the first pass: with enough bytes
in the source it ends with the rest of the payload inside the window, having
fed the bytes before it to the CRC; with too few it reports the number of
missing bytes. -/
theorem skipLoop_spec (budget : Nat) (s : Reader) (len : Nat) (hc : s.Consistent)
    (hb : s.infile.length < budget) :
    (len ≤ s.unread.length →
      ∃ s3 len3, skipLoop budget s len = .go (s3, len3) ∧ s3.Consistent ∧
        len3 ≤ s3.incnt ∧ len3 ≤ len ∧
        s3.unread = s.unread.drop (len - len3) ∧
        s3.calc_crc = crc32 s.calc_crc (s.unread.take (len - len3)) ∧
        s3.file_offset = s.file_offset + (len - len3)) ∧
    (s.unread.length < len → skipLoop budget s len = .ret (len - s.unread.length)) := by
  induction budget generalizing s len with
  | zero => omega
  | succ k ih =>
    have hw := window_length s hc
    have hu := Reader.unread_eq s hc
    have hul : s.unread.length = s.incnt + s.infile.length := by
      rw [hu, List.length_append, hw]
    unfold skipLoop
    by_cases hgt : len > s.incnt
    · rw [if_pos hgt]
      simp only []
      rw [window_take s hc]
      by_cases he : (s.infile.take BUFSZ).length ≤ 0
      · rw [if_pos he]
        have hnil : s.infile.length = 0 := by
          rw [List.length_take] at he; unfold BUFSZ at he; omega
        constructor
        · intro h; omega
        · intro _; congr 1; omega
      · rw [if_neg he]
        have hpos : 0 < s.infile.length := by
          rw [List.length_take] at he; omega
        have hdl : (s.infile.drop BUFSZ).length < k := by
          rw [List.length_drop]; unfold BUFSZ; omega
        obtain ⟨ih1, ih2⟩ := ih
          { inbuf := s.infile.take BUFSZ, inptr := 0, incnt := (s.infile.take BUFSZ).length,
            infile := s.infile.drop BUFSZ,
            calc_crc := crc32 s.calc_crc (s.inbuf.drop s.inptr),
            file_offset := s.file_offset + s.incnt } (len - s.incnt)
          (refilled_consistent _ _ _) hdl
        rw [refilled_unread] at ih1 ih2
        constructor
        · intro h
          obtain ⟨s3, len3, e, c3, l3, l3', u3, r3, o3⟩ := ih1 (by omega)
          refine ⟨s3, len3, e, c3, l3, by omega, ?_, ?_, ?_⟩
          · rw [u3, hu]
            have : len - len3 = (s.inbuf.drop s.inptr).length + (len - s.incnt - len3) := by
              rw [hw]; omega
            rw [this, List.drop_append]
          · rw [r3, hu]
            have : len - len3 = (s.inbuf.drop s.inptr).length + (len - s.incnt - len3) := by
              rw [hw]; omega
            rw [this, List.take_append]
            exact crc32_append _ _ _
          · rw [o3]
            show s.file_offset + s.incnt + (len - s.incnt - len3) = _
            omega
        · intro h
          rw [ih2 (by omega)]
          congr 1
          omega
    · rw [if_neg hgt]
      constructor
      · intro _
        refine ⟨s, len, rfl, hc, by omega, le_refl _, ?_, ?_, ?_⟩
        · rw [Nat.sub_self]; rfl
        · rw [Nat.sub_self, List.take_zero, crc32_nil]
        · rw [Nat.sub_self]; rfl
      · intro h; omega

/-- Payload loop and the statements behind it together: exactly `len` bytes
of the stream are consumed and fed to the CRC. -/
theorem skipPayload_spec (s : Reader) (len : Nat) (hc : s.Consistent)
    (h : len ≤ s.unread.length) :
    ∃ s3 len3, skipLoop (s.infile.length + 1) s len = .go (s3, len3) ∧
      (afterPayload s3 len3).Consistent ∧
      (afterPayload s3 len3).unread = s.unread.drop len ∧
      (afterPayload s3 len3).calc_crc = crc32 s.calc_crc (s.unread.take len) ∧
      (afterPayload s3 len3).file_offset = s.file_offset + len := by
  obtain ⟨s3, len3, e, c3, l3, l3', u3, r3, o3⟩ :=
    (skipLoop_spec (s.infile.length + 1) s len hc (by omega)).1 h
  have hw := window_length s3 c3
  have hu := Reader.unread_eq s3 c3
  refine ⟨s3, len3, e, ?_, ?_, ?_, ?_⟩
  · unfold afterPayload Reader.Consistent
    unfold Reader.Consistent at c3
    show s3.inptr + len3 + (s3.incnt - len3) = s3.inbuf.length
    omega
  · unfold afterPayload Reader.unread
    show (s3.inbuf.drop (s3.inptr + len3)).take (s3.incnt - len3) ++ s3.infile = _
    rw [List.take_of_length_le (by rw [List.length_drop]; unfold Reader.Consistent at c3; omega)]
    have h1 : s3.unread.drop len3 = s3.inbuf.drop (s3.inptr + len3) ++ s3.infile := by
      rw [hu, List.drop_append_of_le_length (by omega), List.drop_drop]
    rw [← h1, u3, List.drop_drop]
    congr 1
    omega
  · show crc32 s3.calc_crc ((s3.inbuf.drop s3.inptr).take len3) = _
    have h1 : (s3.inbuf.drop s3.inptr).take len3 = (s.unread.drop (len - len3)).take len3 := by
      rw [← u3, hu, List.take_append_of_le_length (by omega)]
    rw [h1, r3, crc32_append]
    congr 1
    have h2 := List.take_add s.unread (len - len3) len3
    rw [Nat.sub_add_cancel l3'] at h2
    exact h2.symm
  · show s3.file_offset + len3 = _
    omega

/-! ## The scan for the first IDAT -/

theorem GET_U32_inv (docrc : Bool) (s s' : Reader) (v : Nat) (hc : s.Consistent)
    (h : GET_U32 docrc s = some (v, s')) :
    4 ≤ s.unread.length ∧ v = U32 (s.unread.take 4) ∧ s'.Consistent ∧
    s'.unread = s.unread.drop 4 ∧
    s'.calc_crc = (if docrc then crc32 s.calc_crc (s.unread.take 4) else s.calc_crc) ∧
    s'.file_offset = s.file_offset + 4 := by
  by_cases hl : s.unread.length < 4
  · rw [GET_U32_none docrc s hc hl] at h; cases h
  · obtain ⟨a, b, c, d, t, hu⟩ := four_of_length s.unread (by omega)
    obtain ⟨s'', h1, h2, h3, h4, h5, _, _⟩ := GET_U32_some docrc s hc a b c d t hu
    rw [h1] at h
    simp only [Option.some.injEq, Prod.mk.injEq] at h
    obtain ⟨hv, hs⟩ := h
    subst hs
    have htake : s.unread.take 4 = [a, b, c, d] := by rw [hu]; rfl
    have hdrop : s.unread.drop 4 = t := by rw [hu]; rfl
    rw [htake, hdrop]
    exact ⟨by omega, hv.symm, h2, h3, h4, h5⟩


theorem Reader.At.resetCrc {s : Reader} {input : List Nat} (h : s.At input) (c : Nat) :
    Reader.At { s with calc_crc := c } input := h

/-- `GET_U32` keeps the reader in step with the input. -/
theorem GET_U32_at (docrc : Bool) (s s' : Reader) (v : Nat) (input : List Nat)
    (ha : s.At input) (h : GET_U32 docrc s = some (v, s')) :
    s'.At input ∧ s'.file_offset = s.file_offset + 4 ∧
    v = U32 ((input.drop s.file_offset).take 4) ∧
    s'.calc_crc = (if docrc then crc32 s.calc_crc ((input.drop s.file_offset).take 4)
      else s.calc_crc) := by
  obtain ⟨hc, hle, hu⟩ := ha
  obtain ⟨h1, h2, h3, h4, h5, h6⟩ := GET_U32_inv docrc s s' v hc h
  rw [hu] at h1 h2 h4 h5
  rw [List.length_drop] at h1
  refine ⟨⟨h3, by omega, ?_⟩, h6, h2, h5⟩
  rw [h4, h6, List.drop_drop, Nat.add_comm]

/-- The payload loop with the statements behind it keeps the reader in step
with the input. -/
theorem skipPayload_at (s s3 : Reader) (len len3 : Nat) (input : List Nat) (ha : s.At input)
    (h : skipLoop (s.infile.length + 1) s len = .go (s3, len3)) :
    (afterPayload s3 len3).At input ∧
    (afterPayload s3 len3).file_offset = s.file_offset + len ∧
    (afterPayload s3 len3).calc_crc
      = crc32 s.calc_crc ((input.drop s.file_offset).take len) := by
  obtain ⟨hc, hle, hu⟩ := ha
  have hspec := skipLoop_spec (s.infile.length + 1) s len hc (by omega)
  by_cases hl : len ≤ s.unread.length
  · obtain ⟨s3', len3', e, h1, h2, h3, h4⟩ := skipPayload_spec s len hc hl
    rw [e] at h
    simp only [Flow.go.injEq, Prod.mk.injEq] at h
    obtain ⟨rfl, rfl⟩ := h
    rw [hu] at h2 h3 hl
    rw [List.length_drop] at hl
    refine ⟨⟨h1, by omega, ?_⟩, h4, h3⟩
    rw [h2, h4, List.drop_drop, Nat.add_comm]
  · rw [hspec.2 (by omega)] at h
    cases h

/-- What the scan has found when it stops at an IDAT: the recorded offset
lies behind the start of the scan, the eight header bytes at that offset are
in the input, and they hold the recorded length and the type IDAT. -/
theorem scanLoop_go (budget : Nat) (s : Reader) (f : Found) (input : List Nat)
    (ha : s.At input) (h : scanLoop budget s = .go f) :
    s.file_offset ≤ f.file_offset_IDATs ∧
    f.file_offset_IDATs + 8 ≤ input.length ∧
    f.chunklen = U32 ((input.drop f.file_offset_IDATs).take 4) ∧
    f.chunktyp = IDAT ∧
    U32 ((input.drop (f.file_offset_IDATs + 4)).take 4) = IDAT := by
  induction budget generalizing s with
  | zero => unfold scanLoop at h; cases h
  | succ k ih =>
    unfold scanLoop at h
    cases h1 : GET_U32 false s with
    | none => rw [h1] at h; cases h
    | some r1 =>
      obtain ⟨chunklen, s1⟩ := r1
      rw [h1] at h
      simp only [] at h
      obtain ⟨a1, o1, v1, _⟩ := GET_U32_at false s s1 chunklen input ha h1
      cases h2 : GET_U32 true { s1 with calc_crc := crc32 0 [] } with
      | none => rw [h2] at h; cases h
      | some r2 =>
        obtain ⟨chunktyp, s2⟩ := r2
        rw [h2] at h
        simp only [] at h
        obtain ⟨a2, o2, v2, _⟩ := GET_U32_at true _ s2 chunktyp input (a1.resetCrc _) h2
        have o2' : s2.file_offset = s.file_offset + 8 := by
          rw [o2]; show s1.file_offset + 4 = _; omega
        by_cases hid : chunktyp = IDAT
        · rw [if_pos hid] at h
          simp only [Flow.go.injEq] at h
          subst h
          show s.file_offset ≤ s2.file_offset - 8 ∧ s2.file_offset - 8 + 8 ≤ input.length ∧
            chunklen = U32 ((input.drop (s2.file_offset - 8)).take 4) ∧ chunktyp = IDAT ∧
            U32 ((input.drop (s2.file_offset - 8 + 4)).take 4) = IDAT
          have e8 : s2.file_offset - 8 = s.file_offset := by omega
          have hle2 := a2.2.1
          rw [e8]
          refine ⟨le_refl _, by omega, v1, hid, ?_⟩
          rw [← hid, v2]
          show U32 ((input.drop (s.file_offset + 4)).take 4)
            = U32 ((input.drop s1.file_offset).take 4)
          rw [o1]
        · rw [if_neg hid] at h
          cases h3 : skipLoop (s2.infile.length + 1) s2 chunklen with
          | starved => rw [h3] at h; cases h
          | ret m => rw [h3] at h; cases h
          | go r3 =>
            obtain ⟨s3, len3⟩ := r3
            rw [h3] at h
            simp only [] at h
            obtain ⟨a4, o4, _⟩ := skipPayload_at s2 s3 chunklen len3 input a2 h3
            cases h5 : GET_U32 false (afterPayload s3 len3) with
            | none => rw [h5] at h; cases h
            | some r5 =>
              obtain ⟨chunkcrc, s5⟩ := r5
              rw [h5] at h
              simp only [] at h
              obtain ⟨a5, o5, _, _⟩ := GET_U32_at false _ s5 chunkcrc input a4 h5
              by_cases hcrc : s5.calc_crc ≠ chunkcrc
              · rw [if_pos hcrc] at h; cases h
              · rw [if_neg hcrc] at h
                obtain ⟨g1, g2⟩ := ih s5 a5 h
                exact ⟨by omega, g2⟩

/-! ## The header checks -/

/-- After the header checks the reader sits at offset 33 of the input. -/
theorem headerPass_at (input : List Nat) (s : Reader) (d : Derived)
    (h : headerPass input = .ok (s, d)) : s.At input ∧ s.file_offset = 33 := by
  unfold headerPass at h
  simp only [] at h
  by_cases h1 : (input.take BUFSZ).length < MIN_PNG_SIZE ∨ (input.take BUFSZ).take 8 ≠ pngsig
  · rw [if_pos h1] at h; cases h
  rw [if_neg h1] at h
  by_cases h2 : U32 ((input.take BUFSZ).drop 8) ≠ 13 ∨ U32 ((input.take BUFSZ).drop 12) ≠ IHDR
  · rw [if_pos h2] at h; cases h
  rw [if_neg h2] at h
  split at h
  · cases h
  · split at h
    · cases h
    · simp only [Except.ok.injEq, Prod.mk.injEq] at h
      obtain ⟨rfl, _⟩ := h
      have hlen : 67 ≤ (input.take BUFSZ).length := by
        have : ¬ (input.take BUFSZ).length < MIN_PNG_SIZE := fun hh => h1 (Or.inl hh)
        unfold MIN_PNG_SIZE at this
        omega
      have hlen2 : 67 ≤ input.length := by
        rw [List.length_take] at hlen; omega
      refine ⟨⟨?_, ?_, ?_⟩, rfl⟩
      · show 33 + ((input.take BUFSZ).length - 33) = (input.take BUFSZ).length
        omega
      · show 33 ≤ input.length
        omega
      · show ((input.take BUFSZ).drop 33).take ((input.take BUFSZ).length - 33)
          ++ input.drop BUFSZ = input.drop 33
        rw [List.take_of_length_le (by rw [List.length_drop])]
        exact refill_drop input 33 (by omega)

/-- What the first pass has found when it succeeds: an offset of at least 33
at which the input holds the recorded length and the type IDAT. -/
theorem firstPass_ok (input : List Nat) (f : Found) (h : firstPass input = some (.ok f)) :
    33 ≤ f.file_offset_IDATs ∧
    f.file_offset_IDATs + 8 ≤ input.length ∧
    f.chunklen = U32 ((input.drop f.file_offset_IDATs).take 4) ∧
    f.chunktyp = IDAT ∧
    U32 ((input.drop (f.file_offset_IDATs + 4)).take 4) = IDAT := by
  unfold firstPass at h
  cases hh : headerPass input with
  | error e =>
    rw [hh] at h
    obtain ⟨c, m⟩ := e
    simp only [Option.some.injEq] at h
    cases h
  | ok r =>
    obtain ⟨s, d⟩ := r
    rw [hh] at h
    simp only [] at h
    obtain ⟨ha, ho⟩ := headerPass_at input s d hh
    cases hs : scanLoop (input.length + 1) s with
    | starved => rw [hs] at h; cases h
    | ret m => rw [hs] at h; simp only [Option.some.injEq] at h; cases h
    | go f' =>
      rw [hs] at h
      simp only [Option.some.injEq, Except.ok.injEq] at h
      subst h
      obtain ⟨g1, g2⟩ := scanLoop_go _ s f' input ha hs
      exact ⟨by omega, g2⟩

/-- A run that ends with code 0 and an output file went through both passes. -/
theorem png_fix_patched (env : Env) (force : Bool) (input out : List Nat) (msgs : List Msg)
    (h : png_fix_IDAT_windowsize env force input = some ⟨0, some out, msgs⟩) :
    ∃ f, firstPass input = some (.ok f) ∧ secondPass env input f = some ⟨0, some out, msgs⟩ := by
  unfold png_fix_IDAT_windowsize at h
  by_cases h1 : (!env.inOpens) = true
  · rw [if_pos h1] at h; cases h
  rw [if_neg h1] at h
  by_cases h2 : (!force && env.outExists) = true
  · rw [if_pos h2] at h; cases h
  rw [if_neg h2] at h
  cases hf : firstPass input with
  | none => rw [hf] at h; cases h
  | some r =>
    cases r with
    | error e =>
      obtain ⟨c, m⟩ := e
      rw [hf] at h
      simp only [Option.some.injEq, Result.mk.injEq] at h
      obtain ⟨_, h', _⟩ := h
      cases h'
    | ok f =>
      rw [hf] at h
      exact ⟨f, rfl, h⟩

theorem U32_take (x : List Nat) : U32 (x.take 4) = U32 x := by
  apply U32_congr
  intro i hi
  exact List.getElem?_take_of_lt hi

theorem U32_append (q t : List Nat) (hq : q.length = 4) : U32 (q ++ t) = U32 q := by
  rw [← U32_take (q ++ t), List.take_left' hq]

/-- A read of `k` bytes at index `n` of the first window is a read of the
input. -/
theorem window_read (input : List Nat) (n k : Nat) (h : n + k ≤ BUFSZ) :
    ((input.take BUFSZ).drop n).take k = (input.drop n).take k := by
  rw [List.drop_take, List.take_take, Nat.min_eq_left (by omega)]

theorem window_U32 (input : List Nat) (n : Nat) (h : n + 4 ≤ BUFSZ) :
    U32 ((input.take BUFSZ).drop n) = U32 ((input.drop n).take 4) := by
  rw [← U32_take, window_read input n 4 h]

theorem window_getD (input : List Nat) (n : Nat) (h : n < BUFSZ) :
    (input.take BUFSZ).getD n 0 = input.getD n 0 := by
  simp only [List.getD_eq_getElem?_getD]
  rw [List.getElem?_take_of_lt h]

/-- The reader the header checks hand to the scan. -/
theorem headerPass_eq (input : List Nat) :
    headerPass input =
      if (input.take BUFSZ).length < MIN_PNG_SIZE ∨ input.take 8 ≠ pngsig then
        .error (17, .notPng)
      else if U32 ((input.drop 8).take 4) ≠ 13 ∨ U32 ((input.drop 12).take 4) ≠ IHDR then
        .error (18, .badIHDR)
      else if crc32 0 ((input.drop 12).take 17) ≠ U32 ((input.drop 29).take 4) then
        .error (19, .badIHDRcrc (crc32 0 ((input.drop 12).take 17))
          (U32 ((input.drop 29).take 4)))
      else
        match ihdrStage (U32 ((input.drop 16).take 4)) (U32 ((input.drop 20).take 4))
            (input.getD 24 0) (input.getD 25 0) with
        | .error e => .error e
        | .ok d =>
          .ok ({ inbuf := input.take BUFSZ, inptr := 33,
                 incnt := (input.take BUFSZ).length - 33,
                 infile := input.drop BUFSZ, calc_crc := crc32 0 ((input.drop 12).take 17),
                 file_offset := 33 }, d) := by
  have e8 : (input.take BUFSZ).take 8 = input.take 8 := by
    rw [List.take_take]; rfl
  unfold headerPass
  simp only []
  rw [e8, window_U32 input 8 (by decide), window_U32 input 12 (by decide)]
  by_cases h1 : (input.take BUFSZ).length < MIN_PNG_SIZE ∨ input.take 8 ≠ pngsig
  · rw [if_pos h1, if_pos h1]
  rw [if_neg h1, if_neg h1]
  by_cases h2 : U32 ((input.drop 8).take 4) ≠ 13 ∨ U32 ((input.drop 12).take 4) ≠ IHDR
  · rw [if_pos h2, if_pos h2]
  rw [if_neg h2, if_neg h2]
  have h13 : U32 ((input.drop 8).take 4) = 13 := by
    by_contra hh; exact h2 (Or.inl hh)
  rw [h13, crc32_nil, window_read input 12 (4 + 13) (by decide),
    window_U32 input (16 + 13) (by decide), window_U32 input 16 (by decide),
    window_U32 input 20 (by decide), window_getD input 24 (by decide),
    window_getD input 25 (by decide)]

theorem ihdrStage_error_code (width height : Int) (depth colortype c : Nat) (m : Msg)
    (h : ihdrStage width height depth colortype = .error (c, m)) : c ≠ 0 := by
  unfold ihdrStage at h
  split at h
  · cases h; decide
  split at h
  · cases h; decide
  split at h
  · cases h; decide
  simp only [] at h
  split at h
  · cases h; decide
  · cases h

/-- Every error of the header checks carries a nonzero code. -/
theorem headerPass_error_code (input : List Nat) (c : Nat) (m : Msg)
    (h : headerPass input = .error (c, m)) : c ≠ 0 := by
  rw [headerPass_eq] at h
  split at h
  · cases h; decide
  split at h
  · cases h; decide
  split at h
  · cases h; decide
  split at h
  · rename_i e he
    cases h
    exact ihdrStage_error_code _ _ _ _ _ _ he
  · cases h

/-! ## The scan on a sequence of chunks -/

theorem list_of_length_four (q : List Nat) (h : q.length = 4) :
    ∃ a b c d, q = [a, b, c, d] := by
  match q, h with
  | [a, b, c, d], _ => exact ⟨a, b, c, d, rfl⟩

/-- `GET_U32` on a reader whose unread stream starts with the four bytes `q`. -/
theorem GET_U32_four (docrc : Bool) (s : Reader) (hc : s.Consistent) (q t : List Nat)
    (hq : q.length = 4) (hu : s.unread = q ++ t) :
    ∃ s', GET_U32 docrc s = some (U32 q, s') ∧ s'.Consistent ∧ s'.unread = t ∧
      s'.calc_crc = (if docrc then crc32 s.calc_crc q else s.calc_crc) ∧
      s'.file_offset = s.file_offset + 4 := by
  obtain ⟨a, b, c, d, rfl⟩ := list_of_length_four q hq
  obtain ⟨s', h1, h2, h3, h4, h5, _, _⟩ := GET_U32_some docrc s hc a b c d t hu
  exact ⟨s', h1, h2, h3, h4, h5⟩

/-- `GET_U32` on a reader whose unread stream starts with the big-endian
bytes of `v`. -/
theorem GET_U32_be32 (docrc : Bool) (s : Reader) (hc : s.Consistent) (v : Nat) (t : List Nat)
    (hv : v < 2^32) (hu : s.unread = be32 v ++ t) :
    ∃ s', GET_U32 docrc s = some (v, s') ∧ s'.Consistent ∧ s'.unread = t ∧
      s'.calc_crc = (if docrc then crc32 s.calc_crc (be32 v) else s.calc_crc) ∧
      s'.file_offset = s.file_offset + 4 := by
  obtain ⟨s', h1, h2⟩ := GET_U32_four docrc s hc (be32 v) t (be32_length v) hu
  rw [U32_be32 v hv] at h1
  exact ⟨s', h1, h2⟩

theorem resetCrc_consistent (s : Reader) (c : Nat) (h : s.Consistent) :
    Reader.Consistent { s with calc_crc := c } := h

theorem resetCrc_unread (s : Reader) (c : Nat) :
    Reader.unread { s with calc_crc := c } = s.unread := rfl

theorem resetCrc_offset (s : Reader) (c : Nat) :
    Reader.file_offset { s with calc_crc := c } = s.file_offset := rfl

theorem resetCrc_crc (s : Reader) (c : Nat) :
    Reader.calc_crc { s with calc_crc := c } = c := rfl

theorem Chunk.bytes_length (c : Chunk) (h : c.typ.length = 4) :
    c.bytes.length = c.data.length + 12 := by
  unfold Chunk.bytes
  simp only [List.length_append, be32_length, h]
  omega

/-- One turn of the scan loop on a chunk that is not an IDAT: a CRC mismatch
ends the scan with the `bad CRC` line, otherwise the scan goes on behind the
chunk. -/
theorem scanLoop_step (s : Reader) (m : Chunk) (r : List Nat) (hc : s.Consistent)
    (hm : m.WellFormed) (ht : U32 m.typ ≠ IDAT) (hu : s.unread = m.bytes ++ r) :
    ∃ s5 : Reader, s5.Consistent ∧ s5.unread = r ∧
      s5.file_offset = s.file_offset + m.bytes.length ∧
      ∀ k, scanLoop (k + 1) s =
        if crc32 0 (m.typ ++ m.data) ≠ m.crc then .ret [.badCrc (U32 m.typ) m.crc m.crc]
        else scanLoop k s5 := by
  obtain ⟨hm1, hm2, hm3, hm4, hm5⟩ := hm
  have hu1 : s.unread = be32 m.data.length ++ (m.typ ++ (m.data ++ (be32 m.crc ++ r))) := by
    rw [hu]; unfold Chunk.bytes; simp only [List.append_assoc]
  obtain ⟨s1, e1, c1, u1, _, o1⟩ := GET_U32_be32 false s hc _ _ hm4 hu1
  obtain ⟨s2, e2, c2, u2, r2, o2⟩ :=
    GET_U32_four true { s1 with calc_crc := crc32 0 [] } (resetCrc_consistent s1 _ c1) m.typ _ hm1
      ((resetCrc_unread s1 _).trans u1)
  rw [resetCrc_crc] at r2
  rw [resetCrc_offset] at o2
  have hlen : m.data.length ≤ s2.unread.length := by
    rw [u2, List.length_append]; omega
  obtain ⟨s3, len3, e3, c4, u4, r4, o4⟩ := skipPayload_spec s2 m.data.length c2 hlen
  rw [u2, List.drop_left] at u4
  rw [u2, List.take_left] at r4
  obtain ⟨s5, e5, c5, u5, r5, o5⟩ := GET_U32_be32 false _ c4 _ _ hm5 u4
  refine ⟨s5, c5, u5, ?_, ?_⟩
  · rw [o5, o4, o2, Chunk.bytes_length m hm1, o1]; omega
  · intro k
    have hcrc : s5.calc_crc = crc32 0 (m.typ ++ m.data) := by
      rw [r5]
      simp only [Bool.false_eq_true, if_false]
      rw [r4, r2]
      simp only [if_true]
      rw [crc32_nil, crc32_append]
    conv => lhs; unfold scanLoop
    rw [e1]
    simp only []
    rw [e2]
    simp only []
    rw [if_neg ht, e3]
    simp only []
    rw [e5]
    simp only []
    rw [hcrc]

/-- The turn of the scan loop that meets the IDAT header. -/
theorem scanLoop_idat (s : Reader) (n : Nat) (t4 r : List Nat) (hc : s.Consistent)
    (hn : n < 2^32) (ht4 : t4.length = 4) (ht : U32 t4 = IDAT)
    (hu : s.unread = be32 n ++ (t4 ++ r)) (k : Nat) :
    scanLoop (k + 1) s = .go ⟨n, IDAT, s.file_offset⟩ := by
  obtain ⟨s1, e1, c1, u1, _, o1⟩ := GET_U32_be32 false s hc _ _ hn hu
  obtain ⟨s2, e2, c2, u2, r2, o2⟩ :=
    GET_U32_four true { s1 with calc_crc := crc32 0 [] } (resetCrc_consistent s1 _ c1) t4 _ ht4
      ((resetCrc_unread s1 _).trans u1)
  rw [resetCrc_offset] at o2
  unfold scanLoop
  rw [e1]
  simp only []
  rw [e2]
  simp only []
  rw [if_pos ht, ht, o2, o1]
  congr 2

/-- The scan over chunks that are not IDATs, followed by an IDAT header: if
all their CRCs are right the scan records the IDAT's length and offset; if
one is wrong the scan ends without an IDAT. -/
theorem scanLoop_chunks (mids : List Chunk) (n : Nat) (t4 r : List Nat) (budget : Nat)
    (s : Reader) (hc : s.Consistent)
    (hm : ∀ m ∈ mids, m.WellFormed ∧ U32 m.typ ≠ IDAT)
    (hn : n < 2^32) (ht4 : t4.length = 4) (ht : U32 t4 = IDAT)
    (hu : s.unread = encode mids ++ (be32 n ++ (t4 ++ r))) (hb : mids.length < budget) :
    ((∀ m ∈ mids, m.CrcOk) →
      scanLoop budget s = .go ⟨n, IDAT, s.file_offset + (encode mids).length⟩) ∧
    ((∃ m ∈ mids, ¬ m.CrcOk) → ∃ msgs, scanLoop budget s = .ret msgs) := by
  induction mids generalizing budget s with
  | nil =>
    obtain ⟨k, rfl⟩ : ∃ k, budget = k + 1 := ⟨budget - 1, by omega⟩
    constructor
    · intro _
      exact scanLoop_idat s n t4 r hc hn ht4 ht hu k
    · intro ⟨m, hmem, _⟩
      cases hmem
  | cons m rest ih =>
    obtain ⟨k, rfl⟩ : ∃ k, budget = k + 1 := ⟨budget - 1, by omega⟩
    have hm0 := hm m (List.mem_cons_self _ _)
    have hu' : s.unread = m.bytes ++ (encode rest ++ (be32 n ++ (t4 ++ r))) := by
      rw [hu]; show (m.bytes ++ encode rest) ++ _ = _; rw [List.append_assoc]
    obtain ⟨s5, c5, u5, o5, step⟩ := scanLoop_step s m _ hc hm0.1 hm0.2 hu'
    obtain ⟨ih1, ih2⟩ := ih k s5 c5 (fun x hx => hm x (List.mem_cons_of_mem _ hx)) u5
      (by simp only [List.length_cons] at hb; omega)
    rw [step k]
    by_cases hcrc : crc32 0 (m.typ ++ m.data) ≠ m.crc
    · rw [if_pos hcrc]
      constructor
      · intro hall
        exact absurd (hall m (List.mem_cons_self _ _)).symm hcrc
      · intro _
        exact ⟨_, rfl⟩
    · rw [if_neg hcrc]
      constructor
      · intro hall
        rw [ih1 (fun x hx => hall x (List.mem_cons_of_mem _ hx)), o5]
        show _ = Flow.go ⟨n, IDAT, s.file_offset + (m.bytes ++ encode rest).length⟩
        rw [List.length_append, Nat.add_assoc]
      · intro ⟨x, hx, hbad⟩
        rcases List.mem_cons.mp hx with rfl | hx'
        · exact absurd (not_not.mp hcrc).symm hbad
        · exact ih2 ⟨x, hx', hbad⟩

/-! ## Reading a chunk that lies at a known offset -/

/-- The parts of a chunk that lies at offset `off` of a file. -/
theorem chunk_reads (a : List Nat) (c : Chunk) (r : List Nat) (off : Nat)
    (ha : a.length = off) (ht : c.typ.length = 4) :
    (a ++ c.bytes ++ r).drop off = c.bytes ++ r ∧
    ((a ++ c.bytes ++ r).drop off).take 4 = be32 c.data.length ∧
    ((a ++ c.bytes ++ r).drop (off + 4)).take 4 = c.typ ∧
    ((a ++ c.bytes ++ r).drop (off + 4)).take (4 + c.data.length) = c.typ ++ c.data ∧
    (a ++ c.bytes ++ r).drop (off + 8) = c.data ++ (be32 c.crc ++ r) ∧
    ((a ++ c.bytes ++ r).drop (off + (8 + c.data.length))).take 4 = be32 c.crc ∧
    (a ++ c.bytes ++ r).drop (off + c.data.length + 12) = r ∧
    ((a ++ c.bytes ++ r).drop off).take (c.data.length + 12) = c.bytes := by
  have h0 : (a ++ c.bytes ++ r).drop off = c.bytes ++ r := by
    subst ha; rw [List.append_assoc, List.drop_left]
  have hb : c.bytes ++ r = be32 c.data.length ++ (c.typ ++ (c.data ++ (be32 c.crc ++ r))) := by
    unfold Chunk.bytes; simp only [List.append_assoc]
  have h4 : (a ++ c.bytes ++ r).drop (off + 4) = c.typ ++ (c.data ++ (be32 c.crc ++ r)) := by
    rw [← List.drop_drop, h0, hb]
    exact List.drop_left' (be32_length _)
  have h8 : (a ++ c.bytes ++ r).drop (off + 8) = c.data ++ (be32 c.crc ++ r) := by
    have : off + 8 = off + 4 + 4 := by omega
    rw [this, ← List.drop_drop, h4]
    exact List.drop_left' ht
  have hd : (a ++ c.bytes ++ r).drop (off + (8 + c.data.length)) = be32 c.crc ++ r := by
    rw [← Nat.add_assoc, ← List.drop_drop, h8]
    exact List.drop_left' rfl
  refine ⟨h0, ?_, ?_, ?_, h8, ?_, ?_, ?_⟩
  · rw [h0, hb]; exact List.take_left' (be32_length _)
  · rw [h4]; exact List.take_left' ht
  · rw [h4, ← List.append_assoc]
    exact List.take_left' (by rw [List.length_append, ht])
  · rw [hd]; exact List.take_left' (be32_length _)
  · have : off + c.data.length + 12 = off + (8 + c.data.length) + 4 := by omega
    rw [this, ← List.drop_drop, hd]
    exact List.drop_left' (be32_length _)
  · rw [h0]
    exact List.take_left' (by rw [Chunk.bytes_length c ht])

theorem Chunk.crc_region (c : Chunk) (ht : c.typ.length = 4) :
    (c.bytes.drop 4).take (c.data.length + 4) = c.typ ++ c.data := by
  have h := (chunk_reads [] c [] 0 rfl ht).2.2.2.1
  rw [List.nil_append, List.append_nil, Nat.zero_add] at h
  rw [Nat.add_comm]
  exact h

theorem Chunk.crc_tail (c : Chunk) (ht : c.typ.length = 4) :
    c.bytes.drop (4 + c.data.length + 4) = be32 c.crc := by
  have h := (chunk_reads [] c [] 0 rfl ht).2.2.2.2.1
  rw [List.nil_append, List.append_nil, Nat.zero_add] at h
  have e : 4 + c.data.length + 4 = 8 + c.data.length := by omega
  rw [e, ← List.drop_drop, h]
  exact List.drop_left' rfl

theorem encode_cons (c : Chunk) (t : List Chunk) : encode (c :: t) = c.bytes ++ encode t := rfl

theorem encode_length_ge (cs : List Chunk) (h : ∀ c ∈ cs, c.typ.length = 4) :
    cs.length ≤ (encode cs).length := by
  induction cs with
  | nil => exact Nat.le_refl _
  | cons c t ih =>
    rw [encode_cons, List.length_append, Chunk.bytes_length c (h c (List.mem_cons_self _ _)),
      List.length_cons]
    have := ih (fun x hx => h x (List.mem_cons_of_mem _ hx))
    omega

/-! ## The second pass of png_fix_IDAT_windowsize -/

theorem copyHead_eq (budget : Nat) (src : List Nat) (n : Nat) (out : List Nat)
    (hb : n < budget) :
    copyHead budget src n out = some (out ++ src.take n, decide (src.length < n)) := by
  induction budget generalizing src n out with
  | zero => omega
  | succ k ih =>
    unfold copyHead
    by_cases hn : n > 0
    · rw [if_pos hn]
      simp only []
      by_cases hbig : n > BUFSZ
      · rw [if_pos hbig]
        by_cases he : (src.take BUFSZ).length ≤ 0
        · rw [if_pos he]
          have hs : src = [] := by
            rw [List.length_take] at he
            unfold BUFSZ at he
            have : src.length = 0 := by omega
            exact List.length_eq_zero.mp this
          subst hs
          simp; omega
        · rw [if_neg he]
          rw [ih _ _ _ (by omega)]
          rw [List.length_take] at he ⊢
          unfold BUFSZ at he hbig ⊢
          congr 1
          rw [List.append_assoc]
          congr 1
          · congr 1
            by_cases hl : src.length ≤ 4096
            · rw [List.take_of_length_le hl, List.drop_of_length_le hl, List.take_nil,
                List.append_nil, List.take_of_length_le (by omega)]
            · rw [Nat.min_eq_left (by omega)]
              have := List.take_add src 4096 (n - 4096)
              rw [Nat.add_sub_cancel' (by omega)] at this
              exact this.symm
          · simp only [List.length_drop, decide_eq_decide]
            omega
      · rw [if_neg hbig]
        by_cases he : (src.take n).length ≤ 0
        · rw [if_pos he]
          have hs : src = [] := by
            rw [List.length_take] at he
            have : src.length = 0 := by omega
            exact List.length_eq_zero.mp this
          subst hs
          simp; omega
        · rw [if_neg he]
          rw [ih _ _ _ (by omega)]
          rw [List.length_take] at he ⊢
          congr 1
          rw [List.append_assoc]
          congr 1
          · congr 1
            by_cases hl : src.length ≤ n
            · rw [List.drop_of_length_le hl, List.take_nil, List.append_nil]
            · rw [Nat.min_eq_left (by omega), Nat.sub_self, List.take_zero, List.append_nil]
          · simp only [List.length_drop, decide_eq_decide]
            omega
    · rw [if_neg hn]
      have : n = 0 := by omega
      subst this
      simp

theorem copyTail_eq (budget : Nat) (src out : List Nat) (hb : src.length < budget) :
    copyTail budget src out = some (out ++ src) := by
  induction budget generalizing src out with
  | zero => omega
  | succ k ih =>
    unfold copyTail
    simp only []
    by_cases he : (src.take BUFSZ).length ≤ 0
    · rw [if_pos he]
      have hs : src = [] := by
        rw [List.length_take] at he
        unfold BUFSZ at he
        have : src.length = 0 := by omega
        exact List.length_eq_zero.mp this
      subst hs
      simp
    · rw [if_neg he]
      rw [List.length_take] at he
      unfold BUFSZ at he
      rw [ih _ _ (by rw [List.length_drop]; unfold BUFSZ; omega)]
      rw [List.append_assoc, List.take_append_drop]

theorem readCbuf_length (env : Env) (input : List Nat) (f : Found) :
    (readCbuf env input f).length = f.chunklen + 12 := by
  unfold readCbuf
  simp only [List.length_append, List.length_map, List.length_range, List.length_take,
    List.length_drop]
  omega

theorem readCbuf_complete (env : Env) (input : List Nat) (f : Found)
    (h : f.file_offset_IDATs + f.chunklen + 12 ≤ input.length) :
    readCbuf env input f = (input.drop f.file_offset_IDATs).take (f.chunklen + 12) := by
  unfold readCbuf
  simp only []
  have : ((input.drop f.file_offset_IDATs).take (f.chunklen + 12)).length = f.chunklen + 12 := by
    rw [List.length_take, List.length_drop]; omega
  rw [this, Nat.sub_self]
  simp

theorem readCbuf_isBytes (env : Env) (input : List Nat) (f : Found) (hi : IsBytes input) :
    IsBytes (readCbuf env input f) := by
  unfold readCbuf
  apply IsBytes.append
  · exact (hi.drop _).take _
  · intro b hb
    rw [List.mem_map] at hb
    obtain ⟨i, _, rfl⟩ := hb
    exact Nat.mod_lt _ (by norm_num)

theorem patchCbuf_length (cbuf : List Nat) (len : Nat) :
    (patchCbuf cbuf len).length = cbuf.length := by
  unfold patchCbuf
  simp only [List.length_set]

theorem patchCbuf_getElem (cbuf : List Nat) (len i : Nat) (h8 : i ≠ 8) (h9 : i ≠ 9)
    (hc : ¬ (len + 8 ≤ i ∧ i < len + 12)) :
    (patchCbuf cbuf len)[i]? = cbuf[i]? := by
  unfold patchCbuf
  simp only []
  rw [List.getElem?_set_ne (by omega), List.getElem?_set_ne (by omega),
    List.getElem?_set_ne (by omega), List.getElem?_set_ne (by omega),
    List.getElem?_set_ne (by omega), List.getElem?_set_ne (by omega)]

/-- The bytes the recomputed CRC covers are the same before and after the CRC
is stored. -/
theorem patchCbuf_region (cbuf : List Nat) (len : Nat) :
    ((patchCbuf cbuf len).drop 4).take (len + 4)
      = (((cbuf.set 8 0x78).set 9 0x9c).drop 4).take (len + 4) := by
  apply List.ext_getElem?
  intro j
  rw [List.getElem?_take, List.getElem?_take]
  split
  · rw [List.getElem?_drop, List.getElem?_drop]
    unfold patchCbuf
    simp only []
    rw [List.getElem?_set_ne (by omega), List.getElem?_set_ne (by omega),
      List.getElem?_set_ne (by omega), List.getElem?_set_ne (by omega)]
  · rfl

/-- The four bytes behind the payload hold the recomputed CRC, big-endian. -/
theorem patchCbuf_tail (cbuf : List Nat) (len : Nat) (hl : cbuf.length = len + 12) :
    (patchCbuf cbuf len).drop (len + 8)
      = be32 (crc32 (crc32 0 []) ((((cbuf.set 8 0x78).set 9 0x9c).drop 4).take (len + 4))) := by
  have hand : ∀ x : Nat, x % 256 = x &&& 0xff := fun x =>
    (Nat.and_pow_two_sub_one_eq_mod x 8).symm
  apply List.ext_getElem?
  intro j
  rw [List.getElem?_drop]
  unfold patchCbuf
  simp only []
  have hlen : ((cbuf.set 8 0x78).set 9 0x9c).length = len + 12 := by
    simp only [List.length_set]; exact hl
  generalize crc32 (crc32 0 []) ((((cbuf.set 8 0x78).set 9 0x9c).drop 4).take (len + 4)) = c
  generalize (cbuf.set 8 0x78).set 9 0x9c = l at hlen
  rcases j with _ | _ | _ | _ | j
  · have e : len + 8 + 0 = 4 + len + 4 := by omega
    rw [e, List.getElem?_set_ne (by omega), List.getElem?_set_ne (by omega),
      List.getElem?_set_ne (by omega), List.getElem?_set_self (by omega), hand]
    rfl
  · have e : len + 8 + (0 + 1) = 4 + len + 4 + 1 := by omega
    rw [e, List.getElem?_set_ne (by omega), List.getElem?_set_ne (by omega),
      List.getElem?_set_self (by simp only [List.length_set]; omega)]
    rfl
  · have e : len + 8 + (0 + 1 + 1) = 4 + len + 4 + 2 := by omega
    rw [e, List.getElem?_set_ne (by omega),
      List.getElem?_set_self (by simp only [List.length_set]; omega)]
    rfl
  · have e : len + 8 + (0 + 1 + 1 + 1) = 4 + len + 4 + 3 := by omega
    rw [e, List.getElem?_set_self (by simp only [List.length_set]; omega)]
    rfl
  · rw [List.getElem?_eq_none (by simp only [List.length_set]; omega)]
    rw [List.getElem?_eq_none (by rw [be32_length]; omega)]

theorem isBytes_set (l : List Nat) (i v : Nat) (hl : IsBytes l) (hv : v < 256) :
    IsBytes (l.set i v) := by
  intro b hb
  rcases List.mem_or_eq_of_mem_set hb with h | h
  · exact hl b h
  · omega

/-- C4 core: after the patch the stored CRC is the CRC-32 of the type and
payload bytes as they stand in the buffer. -/
theorem patchCbuf_crc (cbuf : List Nat) (len : Nat) (hl : cbuf.length = len + 12)
    (hb : IsBytes cbuf) :
    U32 ((patchCbuf cbuf len).drop (4 + len + 4))
      = crc32 0 (((patchCbuf cbuf len).drop 4).take (len + 4)) := by
  have e : 4 + len + 4 = len + 8 := by omega
  rw [e, patchCbuf_tail cbuf len hl, patchCbuf_region, crc32_nil]
  apply U32_be32
  apply crc32_lt _ _ (by norm_num)
  exact ((isBytes_set _ _ _ (isBytes_set _ _ _ hb (by norm_num)) (by norm_num)).drop _).take _

/-- What a successful, output-writing run of the second pass has done. -/
theorem secondPass_patched (env : Env) (input : List Nat) (f : Found) (out : List Nat)
    (msgs : List Msg) (h : secondPass env input f = some ⟨0, some out, msgs⟩) :
    f.file_offset_IDATs ≤ input.length ∧
    out = input.take f.file_offset_IDATs ++ patchCbuf (readCbuf env input f) f.chunklen
      ++ input.drop (f.file_offset_IDATs + f.chunklen + 12) ∧
    crc32 0 (((readCbuf env input f).drop 4).take (f.chunklen + 4))
      = U32 ((readCbuf env input f).drop (4 + f.chunklen + 4)) ∧
    ((readCbuf env input f).getD 8 0 ≠ 0x78 ∨ (readCbuf env input f).getD 9 0 ≠ 0x9c) := by
  unfold secondPass at h
  by_cases h1 : (!env.seekOk) = true
  · rw [if_pos h1] at h; cases h
  rw [if_neg h1] at h
  by_cases h2 : (!env.mallocOk) = true
  · rw [if_pos h2] at h; cases h
  rw [if_neg h2] at h
  simp only [] at h
  by_cases h3 : crc32 (crc32 0 []) (((readCbuf env input f).drop 4).take (f.chunklen + 4))
      ≠ U32 ((readCbuf env input f).drop (4 + f.chunklen + 4))
  · rw [if_pos h3] at h; cases h
  rw [if_neg h3] at h
  by_cases h4 : (readCbuf env input f).getD 8 0 ≠ 0x78 ∨ (readCbuf env input f).getD 9 0 ≠ 0x9c
  · rw [if_pos h4] at h
    by_cases h5 : (!env.outOpens) = true
    · rw [if_pos h5] at h; cases h
    rw [if_neg h5] at h
    rw [copyHead_eq _ _ _ _ (by omega)] at h
    by_cases h6 : input.length < f.file_offset_IDATs
    · rw [decide_eq_true h6] at h
      simp only [] at h
      cases h
    · rw [decide_eq_false h6] at h
      simp only [] at h
      rw [copyTail_eq _ _ _ (by omega)] at h
      simp only [List.nil_append, Option.some.injEq, Result.mk.injEq, true_and] at h
      refine ⟨by omega, h.1.symm, ?_, h4⟩
      rw [crc32_nil] at h3
      exact not_not.mp h3
  · rw [if_neg h4] at h; cases h

/-! ## The patched output -/

/-- The place of the chunk in a three-part output holds the middle part. -/
theorem chunkAt_middle (a p r : List Nat) (off len : Nat) (ha : a.length = off)
    (hp : p.length = len + 12) : chunkAt (a ++ p ++ r) off len = p := by
  unfold chunkAt
  rw [List.append_assoc, ← ha, List.drop_left, ← hp, List.take_left]

theorem readCbuf_getElem (env : Env) (input : List Nat) (f : Found) (i : Nat)
    (h : f.file_offset_IDATs + i < input.length) (hi : i < f.chunklen + 12) :
    (readCbuf env input f)[i]? = input[f.file_offset_IDATs + i]? := by
  unfold readCbuf
  simp only []
  rw [List.getElem?_append_left (by rw [List.length_take, List.length_drop]; omega),
    List.getElem?_take_of_lt hi, List.getElem?_drop]

/-- The output of a patching run, in terms of the first pass's record: the
input up to the recorded offset, the patched working buffer, and the input
from behind the chunk. -/
theorem png_fix_output (env : Env) (force : Bool) (input out : List Nat) (msgs : List Msg)
    (h : png_fix_IDAT_windowsize env force input = some ⟨0, some out, msgs⟩) :
    ∃ f, firstPass input = some (.ok f) ∧
      33 ≤ f.file_offset_IDATs ∧ f.file_offset_IDATs + 8 ≤ input.length ∧
      f.chunklen = U32 ((input.drop f.file_offset_IDATs).take 4) ∧
      U32 ((input.drop (f.file_offset_IDATs + 4)).take 4) = IDAT ∧
      out = input.take f.file_offset_IDATs ++ patchCbuf (readCbuf env input f) f.chunklen
        ++ input.drop (f.file_offset_IDATs + f.chunklen + 12) ∧
      chunkAt out f.file_offset_IDATs f.chunklen
        = patchCbuf (readCbuf env input f) f.chunklen := by
  obtain ⟨f, hf, hs⟩ := png_fix_patched env force input out msgs h
  obtain ⟨g1, g2, g3, _, g5⟩ := firstPass_ok input f hf
  obtain ⟨s1, s2, _, _⟩ := secondPass_patched env input f out msgs hs
  refine ⟨f, hf, g1, g2, g3, g5, s2, ?_⟩
  rw [s2]
  exact chunkAt_middle _ _ _ _ _ (by rw [List.length_take]; omega)
    (by rw [patchCbuf_length, readCbuf_length])

/-- C4 (patched chunk has a valid checksum): whenever
`png_fix_IDAT_windowsize` ends with code 0 and an output file, the output
holds, at the offset the first pass recorded for the first IDAT, a chunk of the
recorded length with type IDAT whose 4 trailing bytes are the big-endian
CRC-32 of its type bytes followed by its payload as they stand in the
output. -/
theorem patched_chunk_crc_valid (env : Env) (force : Bool) (input out : List Nat)
    (msgs : List Msg) (hb : IsBytes input)
    (h : png_fix_IDAT_windowsize env force input = some ⟨0, some out, msgs⟩) :
    ∃ f, firstPass input = some (.ok f) ∧
      (chunkAt out f.file_offset_IDATs f.chunklen).length = f.chunklen + 12 ∧
      U32 (chunkAt out f.file_offset_IDATs f.chunklen) = f.chunklen ∧
      U32 ((chunkAt out f.file_offset_IDATs f.chunklen).drop 4) = IDAT ∧
      (chunkAt out f.file_offset_IDATs f.chunklen).drop (f.chunklen + 8)
        = be32 (crc32 0 (((chunkAt out f.file_offset_IDATs f.chunklen).drop 4).take
            (4 + f.chunklen))) ∧
      U32 ((chunkAt out f.file_offset_IDATs f.chunklen).drop (f.chunklen + 8))
        = crc32 0 (((chunkAt out f.file_offset_IDATs f.chunklen).drop 4).take
            (4 + f.chunklen)) := by
  obtain ⟨f, hf, g1, g2, g3, g5, _, hc⟩ := png_fix_output env force input out msgs h
  have hl := readCbuf_length env input f
  have hbytes := readCbuf_isBytes env input f hb
  refine ⟨f, hf, ?_, ?_, ?_, ?_, ?_⟩
  · rw [hc, patchCbuf_length, hl]
  · rw [hc, g3]
    apply U32_congr
    intro i hi
    rw [patchCbuf_getElem _ _ _ (by omega) (by omega) (by omega),
      readCbuf_getElem env input f i (by omega) (by omega),
      List.getElem?_take_of_lt hi, List.getElem?_drop]
  · rw [hc, ← g5]
    apply U32_congr
    intro i hi
    rw [List.getElem?_drop, patchCbuf_getElem _ _ _ (by omega) (by omega) (by omega),
      readCbuf_getElem env input f (4 + i) (by omega) (by omega),
      List.getElem?_take_of_lt hi, List.getElem?_drop]
    congr 1
    omega
  · rw [hc, patchCbuf_tail _ _ hl, Nat.add_comm 4 f.chunklen, patchCbuf_region, crc32_nil]
  · have e := patchCbuf_crc _ f.chunklen hl hbytes
    have e1 : 4 + f.chunklen + 4 = f.chunklen + 8 := by omega
    rw [e1] at e
    rw [hc, e, Nat.add_comm 4 f.chunklen]

theorem drop_behind (a p r : List Nat) (n : Nat) (h : (a ++ p).length = n) :
    (a ++ p ++ r).drop n = r := by
  subst h
  exact List.drop_left _ _

/-- Patch locality on complete chunks: whenever `png_fix_IDAT_windowsize`
ends with code 0 and an output file, the output agrees with the input before
the recorded offset of the first IDAT and behind that chunk; and if the input
holds the whole chunk (`offset + length + 12` bytes), the output has the
length of the input and differs from it at most at bytes 8 and 9 of the chunk
and at its 4 trailing CRC bytes. -/
theorem patch_locality_complete (env : Env) (force : Bool) (input out : List Nat)
    (msgs : List Msg)
    (h : png_fix_IDAT_windowsize env force input = some ⟨0, some out, msgs⟩) :
    ∃ f, firstPass input = some (.ok f) ∧
      out.take f.file_offset_IDATs = input.take f.file_offset_IDATs ∧
      out.drop (f.file_offset_IDATs + f.chunklen + 12)
        = input.drop (f.file_offset_IDATs + f.chunklen + 12) ∧
      (f.file_offset_IDATs + f.chunklen + 12 ≤ input.length →
        out.length = input.length ∧
        ∀ i, i ≠ f.file_offset_IDATs + 8 → i ≠ f.file_offset_IDATs + 9 →
          ¬ (f.file_offset_IDATs + f.chunklen + 8 ≤ i ∧
             i < f.file_offset_IDATs + f.chunklen + 12) →
          out[i]? = input[i]?) := by
  obtain ⟨f, hf, g1, g2, _, _, ho, _⟩ := png_fix_output env force input out msgs h
  have hl := readCbuf_length env input f
  have hpl : (patchCbuf (readCbuf env input f) f.chunklen).length = f.chunklen + 12 := by
    rw [patchCbuf_length, hl]
  have hal : (input.take f.file_offset_IDATs).length = f.file_offset_IDATs := by
    rw [List.length_take]; omega
  refine ⟨f, hf, ?_, ?_, ?_⟩
  · rw [ho, List.append_assoc, List.take_append_of_le_length (by omega),
      List.take_of_length_le (by omega)]
  · rw [ho]
    exact drop_behind _ _ _ _ (by rw [List.length_append, hal, hpl]; omega)
  · intro hcomp
    constructor
    · rw [ho]
      simp only [List.length_append, List.length_drop, hal, hpl]
      omega
    · intro i h8 h9 hc
      rw [ho, List.append_assoc]
      by_cases hi : i < f.file_offset_IDATs
      · rw [List.getElem?_append_left (by omega), List.getElem?_take_of_lt hi]
      · rw [List.getElem?_append_right (by omega), hal]
        by_cases hi2 : i - f.file_offset_IDATs < f.chunklen + 12
        · rw [List.getElem?_append_left (by omega),
            patchCbuf_getElem _ _ _ (by omega) (by omega) (by omega),
            readCbuf_getElem env input f _ (by omega) hi2]
          congr 1
          omega
        · rw [List.getElem?_append_right (by omega), hpl, List.getElem?_drop]
          congr 1
          omega

/-- Canonical header on chunks of at least 2 bytes: whenever
`png_fix_IDAT_windowsize` ends with code 0 and an output file and the first
IDAT's recorded length is at least 2, bytes 8 and 9 of the chunk in the
output, its first two payload bytes, are `0x78 0x9C`. -/
theorem patched_header_canonical (env : Env) (force : Bool) (input out : List Nat)
    (msgs : List Msg)
    (h : png_fix_IDAT_windowsize env force input = some ⟨0, some out, msgs⟩) :
    ∃ f, firstPass input = some (.ok f) ∧
      (2 ≤ f.chunklen →
        (((chunkAt out f.file_offset_IDATs f.chunklen).drop 8).take f.chunklen).take 2
          = [0x78, 0x9c]) := by
  obtain ⟨f, hf, _, _, _, _, _, hc⟩ := png_fix_output env force input out msgs h
  have hl := readCbuf_length env input f
  refine ⟨f, hf, ?_⟩
  intro h2
  rw [hc, List.take_take, Nat.min_eq_left h2]
  apply List.ext_getElem?
  intro j
  rw [List.getElem?_take, List.getElem?_drop]
  unfold patchCbuf
  simp only []
  rcases j with _ | _ | j
  · rw [if_pos (by omega), List.getElem?_set_ne (by omega), List.getElem?_set_ne (by omega),
      List.getElem?_set_ne (by omega), List.getElem?_set_ne (by omega),
      List.getElem?_set_ne (by omega), List.getElem?_set_self (by omega)]
    rfl
  · rw [if_pos (by omega), List.getElem?_set_ne (by omega), List.getElem?_set_ne (by omega),
      List.getElem?_set_ne (by omega), List.getElem?_set_ne (by omega),
      List.getElem?_set_self (by rw [List.length_set]; omega)]
    rfl
  · rw [if_neg (by omega)]
    rfl

/-! ## Runs on the sample files -/

set_option maxRecDepth 1000000 in
theorem run_sampleNonCanonical :
    png_fix_IDAT_windowsize envPlain false sampleNonCanonical
      = some ⟨0, some sampleCanonical, []⟩ := by rfl

set_option maxRecDepth 1000000 in
theorem isBytes_sampleNonCanonical : IsBytes sampleNonCanonical := by
  unfold IsBytes; decide

set_option maxRecDepth 1000000 in
/-- C1 at the failing input: `sampleTruncated` ends behind the 8 header bytes
of its first IDAT; with `staleBlock` in the allocated block the function
returns 0 and writes 73 bytes for an input of 67. -/
theorem truncated_idat_patched :
    png_fix_IDAT_windowsize envStale false sampleTruncated
      = some ⟨0, some sampleTruncatedOutput, []⟩ ∧
    sampleTruncated.length = 67 ∧ sampleTruncatedOutput.length = 73 ∧
    firstPass sampleTruncated = some (.ok ⟨2, IDAT, 59⟩) := by
  refine ⟨by rfl, by rfl, by rfl, by rfl⟩

set_option maxRecDepth 1000000 in
/-- C5 at the failing input: the first IDAT of `sampleEmptyIdat` has length
0; the function returns 0 and writes an output equal to the input, in which
that chunk has no payload and the zlib header `0x68 0x81` of the second IDAT
is untouched. -/
theorem empty_idat_patched :
    png_fix_IDAT_windowsize envPlain false sampleEmptyIdat
      = some ⟨0, some sampleEmptyIdat, []⟩ ∧
    firstPass sampleEmptyIdat = some (.ok ⟨0, IDAT, 33⟩) ∧
    chunkAt sampleEmptyIdat 33 0 = [0, 0, 0, 0, 73, 68, 65, 84, 53, 175, 6, 30] ∧
    (sampleEmptyIdat.drop 53).take 2 = [0x68, 0x81] := by
  refine ⟨by rfl, by rfl, by rfl, by rfl⟩

/-! ## Files laid out as chunks -/

/-- What the header checks have established when they succeed. -/
theorem headerPass_ok_inv (input : List Nat) (s : Reader) (d : Derived)
    (h : headerPass input = .ok (s, d)) :
    67 ≤ input.length ∧ input.take 8 = pngsig ∧
    U32 ((input.drop 8).take 4) = 13 ∧ U32 ((input.drop 12).take 4) = IHDR ∧
    crc32 0 ((input.drop 12).take 17) = U32 ((input.drop 29).take 4) ∧
    ihdrStage (U32 ((input.drop 16).take 4)) (U32 ((input.drop 20).take 4))
      (input.getD 24 0) (input.getD 25 0) = .ok d := by
  rw [headerPass_eq] at h
  by_cases h1 : (input.take BUFSZ).length < MIN_PNG_SIZE ∨ input.take 8 ≠ pngsig
  · rw [if_pos h1] at h; cases h
  rw [if_neg h1] at h
  by_cases h2 : U32 ((input.drop 8).take 4) ≠ 13 ∨ U32 ((input.drop 12).take 4) ≠ IHDR
  · rw [if_pos h2] at h; cases h
  rw [if_neg h2] at h
  by_cases h3 : crc32 0 ((input.drop 12).take 17) ≠ U32 ((input.drop 29).take 4)
  · rw [if_pos h3] at h; cases h
  rw [if_neg h3] at h
  have hlen : 67 ≤ input.length := by
    have : ¬ (input.take BUFSZ).length < MIN_PNG_SIZE := fun hh => h1 (Or.inl hh)
    rw [List.length_take] at this
    unfold MIN_PNG_SIZE at this
    omega
  refine ⟨hlen, ?_, ?_, ?_, not_not.mp h3, ?_⟩
  · by_contra hh; exact h1 (Or.inr hh)
  · by_contra hh; exact h2 (Or.inl hh)
  · by_contra hh; exact h2 (Or.inr hh)
  · split at h
    · cases h
    · rename_i d' hd
      simp only [Except.ok.injEq, Prod.mk.injEq] at h
      rw [hd, h.2]

/-- The scan on a file laid out as chunks, once the header checks have
succeeded: the header chunk has the right CRC and 13 bytes of payload; if all
chunks before the IDAT have the right CRC the IDAT's length and offset are
recorded, otherwise the scan ends without an IDAT. -/
theorem scan_layout (sig8 : List Nat) (c0 : Chunk) (mids : List Chunk) (idat : Chunk)
    (tail : List Nat) (hs : sig8.length = 8) (h0 : c0.WellFormed)
    (hm : ∀ m ∈ mids, m.WellFormed ∧ U32 m.typ ≠ IDAT)
    (hi : idat.WellFormed) (hit : U32 idat.typ = IDAT) (s : Reader) (d : Derived)
    (hh : headerPass (layout sig8 c0 mids idat tail) = .ok (s, d)) :
    c0.CrcOk ∧ c0.data.length = 13 ∧
    ((∀ m ∈ mids, m.CrcOk) →
      scanLoop ((layout sig8 c0 mids idat tail).length + 1) s
        = .go ⟨idat.data.length, IDAT, 33 + (encode mids).length⟩) ∧
    ((∃ m ∈ mids, ¬ m.CrcOk) →
      ∃ msgs, scanLoop ((layout sig8 c0 mids idat tail).length + 1) s = .ret msgs) := by
  obtain ⟨h01, _, _, h04, h05⟩ := h0
  obtain ⟨hi1, _, _, hi4, _⟩ := hi
  obtain ⟨⟨hc, _, hu⟩, ho⟩ := headerPass_at _ s d hh
  obtain ⟨_, _, g13, _, gcrc, _⟩ := headerPass_ok_inv _ s d hh
  obtain ⟨_, r1, _, r3, _, r5, r6, _⟩ :=
    chunk_reads sig8 c0 (encode mids ++ (idat.bytes ++ tail)) 8 hs h01
  have hlay : layout sig8 c0 mids idat tail
      = sig8 ++ c0.bytes ++ (encode mids ++ (idat.bytes ++ tail)) := rfl
  rw [← hlay] at r1 r3 r5 r6
  rw [r1, U32_be32 _ h04] at g13
  rw [g13] at r3 r5 r6
  have e12 : 8 + 4 = 12 := rfl
  have e29 : 8 + (8 + 13) = 29 := rfl
  have e33 : 8 + 13 + 12 = 33 := rfl
  have e17 : 4 + 13 = 17 := rfl
  rw [e12, e17] at r3
  rw [e29] at r5
  rw [e33] at r6
  rw [r3, r5, U32_be32 _ h05] at gcrc
  have hcrc0 : c0.CrcOk := gcrc.symm
  rw [ho, r6] at hu
  have hu' : s.unread = encode mids ++ (be32 idat.data.length ++
      (idat.typ ++ (idat.data ++ (be32 idat.crc ++ tail)))) := by
    rw [hu]; unfold Chunk.bytes; simp only [List.append_assoc]
  have hbud : mids.length < (layout sig8 c0 mids idat tail).length + 1 := by
    have := encode_length_ge mids (fun c hc => (hm c hc).1.1)
    rw [hlay]
    simp only [List.length_append]
    omega
  obtain ⟨sc1, sc2⟩ := scanLoop_chunks mids idat.data.length idat.typ _ _ s hc hm hi4 hi1 hit
    hu' hbud
  rw [ho] at sc1
  exact ⟨hcrc0, g13, sc1, sc2⟩

/-- The first pass on a file laid out as chunks: it fails with a nonzero
code, or the header chunk and all chunks before the IDAT have the right CRC
and the IDAT's length and offset are recorded. -/
theorem firstPass_layout (sig8 : List Nat) (c0 : Chunk) (mids : List Chunk) (idat : Chunk)
    (tail : List Nat) (hs : sig8.length = 8) (h0 : c0.WellFormed)
    (hm : ∀ m ∈ mids, m.WellFormed ∧ U32 m.typ ≠ IDAT)
    (hi : idat.WellFormed) (hit : U32 idat.typ = IDAT) :
    (∃ c msgs, firstPass (layout sig8 c0 mids idat tail) = some (.error (c, msgs)) ∧ c ≠ 0) ∨
    (c0.CrcOk ∧ (∀ m ∈ mids, m.CrcOk) ∧ c0.data.length = 13 ∧
      firstPass (layout sig8 c0 mids idat tail)
        = some (.ok ⟨idat.data.length, IDAT, 33 + (encode mids).length⟩)) := by
  unfold firstPass
  cases hh : headerPass (layout sig8 c0 mids idat tail) with
  | error e =>
    obtain ⟨c, m⟩ := e
    left
    exact ⟨c, [m], rfl, headerPass_error_code _ c m hh⟩
  | ok r =>
    obtain ⟨s, d⟩ := r
    simp only []
    obtain ⟨hcrc0, g13, sc1, sc2⟩ := scan_layout sig8 c0 mids idat tail hs h0 hm hi hit s d hh
    by_cases hall : ∀ m ∈ mids, m.CrcOk
    · right
      rw [sc1 hall]
      exact ⟨hcrc0, hall, g13, rfl⟩
    · left
      have hex : ∃ m ∈ mids, ¬ m.CrcOk := by
        by_contra hne
        apply hall
        intro m hmem
        by_contra hbad
        exact hne ⟨m, hmem, hbad⟩
      obtain ⟨msgs, hret⟩ := sc2 hex
      rw [hret]
      exact ⟨24, msgs ++ [.noIDAT], rfl, by decide⟩

theorem layout_idat_reads (sig8 : List Nat) (c0 : Chunk) (mids : List Chunk) (idat : Chunk)
    (tail : List Nat) (hs : sig8.length = 8) (h0 : c0.typ.length = 4)
    (h13 : c0.data.length = 13) (hi : idat.typ.length = 4) :
    (layout sig8 c0 mids idat tail).length
      = 33 + (encode mids).length + idat.data.length + 12 + tail.length ∧
    ((layout sig8 c0 mids idat tail).drop (33 + (encode mids).length)).take
      (idat.data.length + 12) = idat.bytes ∧
    (layout sig8 c0 mids idat tail).drop (33 + (encode mids).length + 8)
      = idat.data ++ (be32 idat.crc ++ tail) := by
  have hlay : layout sig8 c0 mids idat tail
      = (sig8 ++ c0.bytes ++ encode mids) ++ idat.bytes ++ tail := by
    unfold layout; simp only [List.append_assoc]
  have hal : (sig8 ++ c0.bytes ++ encode mids).length = 33 + (encode mids).length := by
    rw [List.length_append, List.length_append, hs, Chunk.bytes_length c0 h0, h13]
  obtain ⟨_, _, _, _, r8, _, _, r⟩ := chunk_reads _ idat tail _ hal hi
  rw [← hlay] at r r8
  refine ⟨?_, r, r8⟩
  rw [hlay, List.length_append, List.length_append, hal, Chunk.bytes_length idat hi]
  omega

theorem readCbuf_layout (env : Env) (sig8 : List Nat) (c0 : Chunk) (mids : List Chunk)
    (idat : Chunk) (tail : List Nat) (hs : sig8.length = 8) (h0 : c0.typ.length = 4)
    (h13 : c0.data.length = 13) (hi : idat.typ.length = 4) :
    readCbuf env (layout sig8 c0 mids idat tail)
      ⟨idat.data.length, IDAT, 33 + (encode mids).length⟩ = idat.bytes := by
  obtain ⟨hl, hr, _⟩ := layout_idat_reads sig8 c0 mids idat tail hs h0 h13 hi
  rw [readCbuf_complete env _ _ (by show 33 + (encode mids).length + idat.data.length + 12 ≤ _
                                    rw [hl]; omega)]
  exact hr

/-- The second pass on a complete IDAT whose stored CRC is wrong: no output,
a nonzero code. -/
theorem secondPass_badCrc (env : Env) (sig8 : List Nat) (c0 : Chunk) (mids : List Chunk)
    (idat : Chunk) (tail : List Nat) (hs : sig8.length = 8) (h0 : c0.typ.length = 4)
    (h13 : c0.data.length = 13) (hi : idat.WellFormed) (hbad : ¬ idat.CrcOk) :
    ∃ r, secondPass env (layout sig8 c0 mids idat tail)
        ⟨idat.data.length, IDAT, 33 + (encode mids).length⟩ = some r ∧
      r.code ≠ 0 ∧ r.outfile = none := by
  obtain ⟨hi1, _, _, _, hi5⟩ := hi
  unfold secondPass
  by_cases h1 : (!env.seekOk) = true
  · rw [if_pos h1]; exact ⟨_, rfl, by decide, rfl⟩
  rw [if_neg h1]
  by_cases h2 : (!env.mallocOk) = true
  · rw [if_pos h2]; exact ⟨_, rfl, by decide, rfl⟩
  rw [if_neg h2]
  simp only []
  rw [readCbuf_layout env sig8 c0 mids idat tail hs h0 h13 hi1, crc32_nil,
    Chunk.crc_region idat hi1, Chunk.crc_tail idat hi1, U32_be32 _ hi5]
  rw [if_pos (fun h => hbad h.symm)]
  exact ⟨_, rfl, by simp, rfl⟩

/-- The second pass on a complete IDAT with the right CRC whose payload
starts with `0x78 0x9C`: the no-op. -/
theorem secondPass_canonical (env : Env) (sig8 : List Nat) (c0 : Chunk) (mids : List Chunk)
    (idat : Chunk) (tail rest : List Nat) (hs : sig8.length = 8) (h0 : c0.typ.length = 4)
    (h13 : c0.data.length = 13) (hi : idat.WellFormed) (hok : idat.CrcOk)
    (hd : idat.data = 0x78 :: 0x9c :: rest)
    (hseek : env.seekOk = true) (hmalloc : env.mallocOk = true) :
    secondPass env (layout sig8 c0 mids idat tail)
        ⟨idat.data.length, IDAT, 33 + (encode mids).length⟩
      = some ⟨0, none, [.noteSkipping]⟩ := by
  obtain ⟨hi1, _, _, _, hi5⟩ := hi
  unfold secondPass
  rw [hseek, hmalloc]
  simp only [Bool.not_true, Bool.false_eq_true, if_false]
  rw [readCbuf_layout env sig8 c0 mids idat tail hs h0 h13 hi1, crc32_nil,
    Chunk.crc_region idat hi1, Chunk.crc_tail idat hi1, U32_be32 _ hi5]
  rw [if_neg (fun h => h hok.symm)]
  have h8 := (chunk_reads [] idat [] 0 rfl hi1).2.2.2.2.1
  rw [List.nil_append, List.append_nil, Nat.zero_add, hd] at h8
  have g8 : idat.bytes.getD 8 0 = 0x78 := by
    have := congrArg (fun l => l[0]?) h8
    simp only [List.getElem?_drop] at this
    simp only [List.getD_eq_getElem?_getD]
    rw [this]; rfl
  have g9 : idat.bytes.getD 9 0 = 0x9c := by
    have := congrArg (fun l => l[1]?) h8
    simp only [List.getElem?_drop] at this
    simp only [List.getD_eq_getElem?_getD]
    rw [this]
    simp
  rw [g8, g9]
  rfl

/-- The header checks on a file that starts with the PNG signature and an
IHDR chunk with the right CRC: the outcome is that of the checks on the IHDR
fields. -/
theorem headerPass_ihdr (width height depth colortype cm fm il : Nat) (rest : List Nat)
    (hw : width < 2^32) (hh : height < 2^32) (hd : depth < 256) (hct : colortype < 256)
    (hcm : cm < 256) (hfm : fm < 256) (hil : il < 256)
    (hlen : 67 ≤ (pngsig ++ (ihdrChunk width height depth colortype cm fm il).bytes ++ rest).length) :
    headerPass (pngsig ++ (ihdrChunk width height depth colortype cm fm il).bytes ++ rest)
      = match ihdrStage width height depth colortype with
        | .error e => .error e
        | .ok d =>
          .ok ({ inbuf := (pngsig ++ (ihdrChunk width height depth colortype cm fm il).bytes ++ rest).take BUFSZ
                 inptr := 33
                 incnt := ((pngsig ++ (ihdrChunk width height depth colortype cm fm il).bytes ++ rest).take BUFSZ).length - 33
                 infile := (pngsig ++ (ihdrChunk width height depth colortype cm fm il).bytes ++ rest).drop BUFSZ
                 calc_crc := (ihdrChunk width height depth colortype cm fm il).crc
                 file_offset := 33 }, d) := by
  generalize hc0 : ihdrChunk width height depth colortype cm fm il = c0 at hlen ⊢
  have htyp : c0.typ = [73, 72, 68, 82] := by rw [← hc0]; rfl
  have hdata : c0.data = be32 width ++ be32 height ++ [depth, colortype, cm, fm, il] := by
    rw [← hc0]; rfl
  have hcrc : c0.crc = crc32 0 (c0.typ ++ c0.data) := by rw [← hc0]; rfl
  have h13 : c0.data.length = 13 := by rw [hdata]; rfl
  have ht4 : c0.typ.length = 4 := by rw [htyp]; rfl
  have hbytes : IsBytes (c0.typ ++ c0.data) := by
    rw [htyp, hdata]
    apply IsBytes.append
    · unfold IsBytes; decide
    · apply IsBytes.append (IsBytes.append (be32_isBytes _) (be32_isBytes _))
      intro b hb
      simp only [List.mem_cons, List.mem_singleton, List.not_mem_nil, or_false] at hb
      rcases hb with h | h | h | h | h <;> subst h <;> assumption
  have hcrclt : c0.crc < 2^32 := by rw [hcrc]; exact crc32_lt _ _ (by norm_num) hbytes
  obtain ⟨_, r1, r2, r3, r8, r5, _, _⟩ :=
    chunk_reads pngsig c0 rest 8 rfl ht4
  rw [h13] at r1 r3 r5
  have e12 : 8 + 4 = 12 := rfl
  have e29 : 8 + (8 + 13) = 29 := rfl
  have e17 : 4 + 13 = 17 := rfl
  have e16 : 8 + 8 = 16 := rfl
  rw [e12] at r2
  rw [e12, e17] at r3
  rw [e29] at r5
  rw [e16, hdata] at r8
  have t8 : (pngsig ++ c0.bytes ++ rest).take 8 = pngsig := by
    rw [List.append_assoc]; exact List.take_left' rfl
  have w16 : ((pngsig ++ c0.bytes ++ rest).drop 16).take 4 = be32 width := by
    rw [r8, List.append_assoc, List.append_assoc]; exact List.take_left' rfl
  have w20 : ((pngsig ++ c0.bytes ++ rest).drop 20).take 4 = be32 height := by
    have : (20 : Nat) = 16 + 4 := rfl
    rw [this, ← List.drop_drop, r8, List.append_assoc, List.append_assoc,
      List.drop_left' (be32_length width)]
    exact List.take_left' rfl
  have g24 : (pngsig ++ c0.bytes ++ rest).getD 24 0 = depth := by
    have := congrArg (fun l => l[8]?) r8
    simp only [List.getElem?_drop] at this
    simp only [List.getD_eq_getElem?_getD]
    rw [this]; rfl
  have g25 : (pngsig ++ c0.bytes ++ rest).getD 25 0 = colortype := by
    have := congrArg (fun l => l[9]?) r8
    simp only [List.getElem?_drop] at this
    simp only [List.getD_eq_getElem?_getD]
    rw [this]; rfl
  rw [headerPass_eq, t8, r1, r2, r3, r5, w16, w20, g24, g25, U32_be32 _ hw, U32_be32 _ hh,
    U32_be32 _ hcrclt, U32_be32 13 (by norm_num), htyp]
  rw [if_neg, if_neg, if_neg]
  · rw [← htyp, ← hcrc]
  · rw [← htyp, ← hcrc]; exact fun h => h rfl
  · intro h
    rcases h with h | h
    · exact h rfl
    · exact h rfl
  · intro h
    rcases h with h | h
    · rw [List.length_take] at h
      unfold MIN_PNG_SIZE BUFSZ at h
      omega
    · exact h rfl

/-! ## Whole runs of png_fix_IDAT_windowsize -/

theorem ihdrChunk_wellFormed (width height depth colortype cm fm il : Nat)
    (hd : depth < 256) (hct : colortype < 256) (hcm : cm < 256) (hfm : fm < 256)
    (hil : il < 256) : (ihdrChunk width height depth colortype cm fm il).WellFormed := by
  have hdata : IsBytes (be32 width ++ be32 height ++ [depth, colortype, cm, fm, il]) := by
    apply IsBytes.append (IsBytes.append (be32_isBytes _) (be32_isBytes _))
    intro b hb
    simp only [List.mem_cons, List.mem_singleton, List.not_mem_nil, or_false] at hb
    rcases hb with h | h | h | h | h <;> subst h <;> assumption
  have htyp : IsBytes [73, 72, 68, 82] := by unfold IsBytes; decide
  refine ⟨rfl, htyp, hdata, ?_, ?_⟩
  · show (13 : Nat) < 2^32
    norm_num
  · exact crc32_lt _ _ (by norm_num) (IsBytes.append htyp hdata)

/-- C3 (CRC mismatch is fatal for the patcher): on every file laid out as
8 signature bytes, a header chunk, chunks that are not IDATs, an IDAT chunk
and a rest, if the header chunk, one of the chunks before the IDAT, or the
IDAT itself has a stored CRC that is not the CRC-32 of its type and payload,
`png_fix_IDAT_windowsize` returns a nonzero code and writes no output file. -/
theorem crc_mismatch_fatal (env : Env) (force : Bool) (sig8 : List Nat) (c0 : Chunk)
    (mids : List Chunk) (idat : Chunk) (tail : List Nat)
    (hs : sig8.length = 8) (h0 : c0.WellFormed)
    (hm : ∀ m ∈ mids, m.WellFormed ∧ U32 m.typ ≠ IDAT)
    (hi : idat.WellFormed) (hit : U32 idat.typ = IDAT)
    (hbad : ¬ c0.CrcOk ∨ (∃ m ∈ mids, ¬ m.CrcOk) ∨ ¬ idat.CrcOk) :
    ∃ r, png_fix_IDAT_windowsize env force (layout sig8 c0 mids idat tail) = some r ∧
      r.code ≠ 0 ∧ r.outfile = none := by
  unfold png_fix_IDAT_windowsize
  by_cases h1 : (!env.inOpens) = true
  · rw [if_pos h1]; exact ⟨_, rfl, by decide, rfl⟩
  rw [if_neg h1]
  by_cases h2 : (!force && env.outExists) = true
  · rw [if_pos h2]; exact ⟨_, rfl, by decide, rfl⟩
  rw [if_neg h2]
  rcases firstPass_layout sig8 c0 mids idat tail hs h0 hm hi hit with
    ⟨c, msgs, hf, hc⟩ | ⟨hc0, hall, h13, hf⟩
  · rw [hf]
    exact ⟨_, rfl, hc, rfl⟩
  · rw [hf]
    simp only []
    have hib : ¬ idat.CrcOk := by
      rcases hbad with hb | ⟨m, hmem, hb⟩ | hb
      · exact absurd hc0 hb
      · exact absurd (hall m hmem) hb
      · exact hb
    exact secondPass_badCrc env sig8 c0 mids idat tail hs h0.1 h13 hi hib

/-- C6 (already-canonical no-op): on every file made of the PNG signature, an
IHDR chunk with legal fields and the right CRC, chunks that are not IDATs with
the right CRCs, and an IDAT chunk with the right CRC whose payload starts with
`0x78 0x9C`, if the input opens, the output name is not refused by the
overwrite policy and seek and allocation succeed, `png_fix_IDAT_windowsize`
returns 0, prints the `skipping` note and neither creates nor writes an output
file. -/
theorem already_canonical_noop (env : Env) (force : Bool)
    (width height depth colortype cm fm il : Nat) (mids : List Chunk) (idat : Chunk)
    (tail rest : List Nat)
    (hopen : env.inOpens = true) (hpol : force = true ∨ env.outExists = false)
    (hseek : env.seekOk = true) (hmalloc : env.mallocOk = true)
    (hw0 : 0 < width) (hw : width < 2^32) (hh0 : 0 < height) (hh : height < 2^32)
    (hcm : cm < 256) (hfm : fm < 256) (hil : il < 256)
    (hl : LegalPair colortype depth)
    (hov : ¬ LongOverflow width height (depth * channelsOf colortype))
    (hm : ∀ m ∈ mids, m.WellFormed ∧ U32 m.typ ≠ IDAT ∧ m.CrcOk)
    (hi : idat.WellFormed) (hit : U32 idat.typ = IDAT) (hok : idat.CrcOk)
    (hd : idat.data = 0x78 :: 0x9c :: rest)
    (hlen : 67 ≤ (layout pngsig (ihdrChunk width height depth colortype cm fm il) mids idat
      tail).length) :
    png_fix_IDAT_windowsize env force
        (layout pngsig (ihdrChunk width height depth colortype cm fm il) mids idat tail)
      = some ⟨0, none, [.noteSkipping]⟩ := by
  have hd256 : depth < 256 := by unfold LegalPair at hl; omega
  have hct256 : colortype < 256 := by unfold LegalPair at hl; omega
  have hstage := ihdrStage_legal width height depth colortype hw hw0 hh0 hl
  have hhead := headerPass_ihdr width height depth colortype cm fm il
    (encode mids ++ (idat.bytes ++ tail)) hw hh hd256 hct256 hcm hfm hil hlen
  rw [hstage] at hhead
  simp only [] at hhead
  have h0wf := ihdrChunk_wellFormed width height depth colortype cm fm il hd256 hct256 hcm hfm hil
  have hlay : layout pngsig (ihdrChunk width height depth colortype cm fm il) mids idat tail
      = pngsig ++ (ihdrChunk width height depth colortype cm fm il).bytes
        ++ (encode mids ++ (idat.bytes ++ tail)) := rfl
  rw [← hlay] at hhead
  obtain ⟨_, h13, sc1, _⟩ := scan_layout pngsig _ mids idat tail rfl h0wf
    (fun m hmem => ⟨(hm m hmem).1, (hm m hmem).2.1⟩) hi hit _ _ hhead
  unfold png_fix_IDAT_windowsize
  rw [hopen]
  have hpol' : (!force && env.outExists) = false := by
    rcases hpol with h | h <;> rw [h] <;> simp
  rw [hpol']
  simp only [Bool.not_true, Bool.false_eq_true, if_false]
  unfold firstPass
  rw [hhead]
  simp only []
  rw [sc1 (fun m hmem => (hm m hmem).2.2)]
  simp only []
  exact secondPass_canonical env pngsig _ mids idat tail rest rfl rfl h13 hi hok hd hseek hmalloc

/-! ## Colour type and depth in whole runs -/

/-- No result of the second pass looks like a colour-type or sample-depth
error: its code is not 22 and its `stderr` is not the `invalid sample depth`
line. -/
theorem secondPass_not_header_error (env : Env) (input : List Nat) (f : Found) (r : Result)
    (h : secondPass env input f = some r) :
    r.code ≠ 22 ∧ ∀ d c, r.stderr ≠ [.invalidDepth d c] := by
  unfold secondPass at h
  by_cases h1 : (!env.seekOk) = true
  · rw [if_pos h1] at h; cases h; exact ⟨by decide, fun _ _ => by simp⟩
  rw [if_neg h1] at h
  by_cases h2 : (!env.mallocOk) = true
  · rw [if_pos h2] at h; cases h; exact ⟨by decide, fun _ _ => by simp⟩
  rw [if_neg h2] at h
  simp only [] at h
  split at h
  · cases h; exact ⟨by simp, fun _ _ => by simp⟩
  split at h
  · by_cases h5 : (!env.outOpens) = true
    · rw [if_pos h5] at h; cases h; exact ⟨by decide, fun _ _ => by simp⟩
    rw [if_neg h5] at h
    rw [copyHead_eq _ _ _ _ (by omega)] at h
    by_cases h6 : input.length < f.file_offset_IDATs
    · rw [decide_eq_true h6] at h
      simp only [] at h
      cases h; exact ⟨by simp, fun _ _ => by simp⟩
    · rw [decide_eq_false h6] at h
      simp only [] at h
      rw [copyTail_eq _ _ _ (by omega)] at h
      cases h; exact ⟨by simp, fun _ _ => by simp⟩
  · cases h; exact ⟨by simp, fun _ _ => by simp⟩

/-- Once the header checks have succeeded, no result of the function looks
like a colour-type or sample-depth error. -/
theorem after_header_not_header_error (env : Env) (force : Bool) (input : List Nat)
    (s : Reader) (d : Derived) (hh : headerPass input = .ok (s, d)) (r : Result)
    (h : png_fix_IDAT_windowsize env force input = some r) :
    r.code ≠ 22 ∧ ∀ dp c, r.stderr ≠ [.invalidDepth dp c] := by
  unfold png_fix_IDAT_windowsize at h
  by_cases h1 : (!env.inOpens) = true
  · rw [if_pos h1] at h; cases h; exact ⟨by decide, fun _ _ => by simp⟩
  rw [if_neg h1] at h
  by_cases h2 : (!force && env.outExists) = true
  · rw [if_pos h2] at h; cases h; exact ⟨by decide, fun _ _ => by simp⟩
  rw [if_neg h2] at h
  unfold firstPass at h
  rw [hh] at h
  simp only [] at h
  cases hs : scanLoop (input.length + 1) s with
  | starved => rw [hs] at h; cases h
  | ret msgs =>
    rw [hs] at h
    simp only [Option.some.injEq] at h
    subst h
    refine ⟨by simp, fun dp c => ?_⟩
    show msgs ++ [Msg.noIDAT] ≠ [Msg.invalidDepth dp c]
    intro he
    cases msgs with
    | nil => cases he
    | cons a t =>
      have hl := congrArg List.length he
      simp only [List.cons_append, List.length_cons, List.length_append, List.length_nil] at hl
      omega
  | go f =>
    rw [hs] at h
    exact secondPass_not_header_error env input f r h

/-- C8 (colour-type / depth validation): on every file that starts with the
PNG signature and an IHDR chunk with the right CRC and nonzero width and
height, when the input opens and the output name is not refused,
`png_fix_IDAT_windowsize` ends with the colour-type error (code 22, line
`invalid colortype`) iff the colour type is not one of 0, 2, 3, 4, 6, and
with the sample-depth error (code 23, line `invalid sample depth`) iff the
colour type is one of those five and the depth is outside its legal set; for
every legal pair the header checks leave only the dimension error 20 or
success. -/
theorem colortype_depth_validation (env : Env) (force : Bool)
    (width height depth colortype cm fm il : Nat) (rest : List Nat)
    (hopen : env.inOpens = true) (hpol : force = true ∨ env.outExists = false)
    (hw0 : width ≠ 0) (hw : width < 2^32) (hh0 : height ≠ 0) (hh : height < 2^32)
    (hd : depth < 256) (hct : colortype < 256)
    (hcm : cm < 256) (hfm : fm < 256) (hil : il < 256)
    (hlen : 67 ≤ (pngsig ++ (ihdrChunk width height depth colortype cm fm il).bytes
      ++ rest).length) :
    (png_fix_IDAT_windowsize env force
        (pngsig ++ (ihdrChunk width height depth colortype cm fm il).bytes ++ rest)
        = some ⟨22, none, [.invalidColortype colortype]⟩
      ↔ ¬ KnownColortype colortype) ∧
    (png_fix_IDAT_windowsize env force
        (pngsig ++ (ihdrChunk width height depth colortype cm fm il).bytes ++ rest)
        = some ⟨23, none, [.invalidDepth depth colortype]⟩
      ↔ (KnownColortype colortype ∧ ¬ LegalPair colortype depth)) ∧
    (LegalPair colortype depth →
      (∃ s d, headerPass
          (pngsig ++ (ihdrChunk width height depth colortype cm fm il).bytes ++ rest)
          = .ok (s, d)) ∨
      headerPass (pngsig ++ (ihdrChunk width height depth colortype cm fm il).bytes ++ rest)
        = .error (20, .invalidDimensions)) := by
  have hhead := headerPass_ihdr width height depth colortype cm fm il rest hw hh hd hct hcm hfm
    hil hlen
  have hpol' : (!force && env.outExists) = false := by
    rcases hpol with h | h <;> rw [h] <;> simp
  have hrun : ∀ c m, headerPass
      (pngsig ++ (ihdrChunk width height depth colortype cm fm il).bytes ++ rest)
        = .error (c, m) →
      png_fix_IDAT_windowsize env force
        (pngsig ++ (ihdrChunk width height depth colortype cm fm il).bytes ++ rest)
        = some ⟨c, none, [m]⟩ := by
    intro c m he
    unfold png_fix_IDAT_windowsize
    rw [hopen, hpol']
    simp only [Bool.not_true, Bool.false_eq_true, if_false]
    unfold firstPass
    rw [he]
  have hwpos : (0 : Int) < (width : Int) := by omega
  have hhpos : (0 : Int) < (height : Int) := by omega
  by_cases hk : KnownColortype colortype
  · by_cases hl : LegalPair colortype depth
    · -- a legal pair: the header checks succeed
      have hstage := ihdrStage_legal width height depth colortype hw (by omega) (by omega) hl
      rw [hstage] at hhead
      simp only [] at hhead
      refine ⟨⟨fun h => ?_, fun h => absurd hk h⟩, ⟨fun h => ?_, fun h => absurd hl h.2⟩,
        fun _ => Or.inl ⟨_, _, hhead⟩⟩
      · exact absurd rfl (after_header_not_header_error env force _ _ _ hhead _ h).1
      · exact absurd rfl
          ((after_header_not_header_error env force _ _ _ hhead _ h).2 depth colortype)
    · -- a known colour type with an illegal depth
      rw [ihdrStage_illegal _ _ _ _ hwpos hhpos hk hl] at hhead
      simp only [] at hhead
      rw [hrun _ _ hhead]
      refine ⟨⟨fun h => ?_, fun h => absurd hk h⟩, ⟨fun _ => ⟨hk, hl⟩, fun _ => rfl⟩,
        fun h => absurd h hl⟩
      simp at h
  · -- an unknown colour type
    rw [ihdrStage_unknown _ _ _ _ hwpos hhpos hk] at hhead
    simp only [] at hhead
    rw [hrun _ _ hhead]
    refine ⟨⟨fun _ => hk, fun _ => rfl⟩, ⟨fun h => ?_, fun h => absurd h.1 hk⟩,
      fun h => absurd (legalPair_known _ _ h) hk⟩
    simp at h

/-! ## pngsplit -/

/-- The flag value `pngsplit` passes for `force`. -/
theorem force_cases (force : Bool) :
    (if force then WR_FORCE else 0) = 0 ∨ (if force then WR_FORCE else 0) = 1 := by
  cases force
  · left; rfl
  · right; rfl

/-- The flag tests of `write_chunk_to_file` on the flag words `pngsplit`
passes. -/
theorem flag_facts :
    ((0 : Nat) &&& 1 = 0) ∧
    ((0 : Nat) &&& 2 = 0) ∧
    ((0 : Nat) &&& 4 = 0) ∧
    ((1 : Nat) &&& 1 = 1) ∧
    ((1 : Nat) &&& 2 = 0) ∧
    ((1 : Nat) &&& 4 = 0) ∧
    ((2 : Nat) &&& 1 = 0) ∧
    ((2 : Nat) &&& 2 = 2) ∧
    ((2 : Nat) &&& 4 = 0) ∧
    ((3 : Nat) &&& 1 = 1) ∧
    ((3 : Nat) &&& 2 = 2) ∧
    ((3 : Nat) &&& 4 = 0) ∧
    ((4 : Nat) &&& 1 = 0) ∧
    ((4 : Nat) &&& 2 = 0) ∧
    ((4 : Nat) &&& 4 = 4) ∧
    ((5 : Nat) &&& 1 = 1) ∧
    ((5 : Nat) &&& 2 = 0) ∧
    ((5 : Nat) &&& 4 = 4) ∧
    ((6 : Nat) &&& 1 = 0) ∧
    ((6 : Nat) &&& 2 = 2) ∧
    ((6 : Nat) &&& 4 = 4) ∧
    ((7 : Nat) &&& 1 = 1) ∧
    ((7 : Nat) &&& 2 = 2) ∧
    ((7 : Nat) &&& 4 = 4) := by
  decide

/-- Opening the unit of a chunk when no sink is open and the name is free (or
overwriting is forced): the 8 header bytes are written. -/
theorem write_open (pre : Nat → Nat → Bool) (fl num chunklen chunktyp : Nat) (k : Sink)
    (hfl : fl = 0 ∨ fl = 1) (hk : k.outfile = .null)
    (hfree : fl = 1 ∨ pre (num + 1) chunktyp = false) :
    write_chunk_to_file pre (num + 1) chunklen chunktyp 0 [] (WR_OPEN ||| fl) k
      = (0, { k with outfile := .writing (num + 1) chunktyp (be32 chunklen ++ be32 chunktyp) },
         []) := by
  unfold write_chunk_to_file
  rcases hfl with rfl | rfl
  · have hp : pre (num + 1) chunktyp = false := by
      rcases hfree with h | h
      · cases h
      · exact h
    simp [hk, hp, WR_OPEN, WR_FORCE, WR_CLOSE, flag_facts]
  · simp [hk, WR_OPEN, WR_FORCE, WR_CLOSE, flag_facts]

/-- Writing payload bytes to the open unit. -/
theorem write_data (pre : Nat → Nat → Bool) (fl num : Nat) (buf : List Nat) (k : Sink)
    (n t : Nat) (bytes : List Nat)
    (hfl : fl = 0 ∨ fl = 1) (hk : k.outfile = .writing n t bytes) :
    write_chunk_to_file pre num 0 0 0 buf fl k
      = (0, { k with outfile := .writing n t (bytes ++ buf) }, []) := by
  unfold write_chunk_to_file
  rcases hfl with rfl | rfl
  · simp [hk, WR_OPEN, WR_FORCE, WR_CLOSE, flag_facts]
  · simp [hk, WR_OPEN, WR_FORCE, WR_CLOSE, flag_facts]

/-- Closing the unit of a chunk: the stored CRC is written and the unit is
complete. -/
theorem write_close (pre : Nat → Nat → Bool) (fl num chunkcrc : Nat) (k : Sink)
    (n t : Nat) (bytes : List Nat)
    (hfl : fl = 0 ∨ fl = 1) (hk : k.outfile = .writing n t bytes) :
    write_chunk_to_file pre (num + 1) 0 0 chunkcrc [] (WR_CLOSE ||| fl) k
      = (0, { outfile := .null, closed := k.closed ++ [⟨n, t, bytes ++ be32 chunkcrc⟩] },
         []) := by
  unfold write_chunk_to_file
  rcases hfl with rfl | rfl
  · simp [hk, WR_OPEN, WR_FORCE, WR_CLOSE, flag_facts]
  · simp [hk, WR_OPEN, WR_FORCE, WR_CLOSE, flag_facts]

/-- The unit of the signature: opened, written and closed in one call, with
no framing. -/
theorem write_sig (pre : Nat → Nat → Bool) (fl : Nat) (buf : List Nat) (k : Sink)
    (hfl : fl = 0 ∨ fl = 1) (hk : k.outfile = .null)
    (hfree : fl = 1 ∨ pre 0 0 = false) :
    write_chunk_to_file pre 0 0 0 0 buf (fl ||| WR_OPEN ||| WR_CLOSE) k
      = (0, { outfile := .null, closed := k.closed ++ [⟨0, 0, buf⟩] }, []) := by
  unfold write_chunk_to_file
  rcases hfl with rfl | rfl
  · have hp : pre 0 0 = false := by
      rcases hfree with h | h
      · cases h
      · exact h
    simp [hk, hp, WR_OPEN, WR_FORCE, WR_CLOSE, flag_facts]
  · simp [hk, WR_OPEN, WR_FORCE, WR_CLOSE, flag_facts]

/-- The payload loop of `pngsplit` reads like the payload loop of the first
pass and appends every window it consumes to the open unit. -/
theorem feedLoop_eq (pre : Nat → Nat → Bool) (fl num : Nat) (budget : Nat) (s : Reader)
    (len : Nat) (k : Sink) (n t : Nat) (bytes : List Nat)
    (hfl : fl = 0 ∨ fl = 1) (hk : k.outfile = .writing n t bytes)
    (hc : s.Consistent) (hb : s.infile.length < budget) (hlen : len ≤ s.unread.length) :
    ∃ s3 len3, skipLoop budget s len = .go (s3, len3) ∧
      feedLoop pre fl num budget s len k
        = .go (s3, len3,
            { k with outfile := .writing n t (bytes ++ s.unread.take (len - len3)) }) := by
  induction budget generalizing s len k bytes with
  | zero => omega
  | succ b ih =>
    have hw := window_length s hc
    have hu := Reader.unread_eq s hc
    have hul : s.unread.length = s.incnt + s.infile.length := by
      rw [hu, List.length_append, hw]
    unfold skipLoop feedLoop
    by_cases hgt : len > s.incnt
    · rw [if_pos hgt, if_pos hgt]
      simp only []
      rw [window_take s hc, write_data pre fl num _ k n t bytes hfl hk]
      simp only [ne_eq, not_true_eq_false, if_false]
      have hne : ¬ (s.infile.take BUFSZ).length ≤ 0 := by
        rw [List.length_take]; unfold BUFSZ; omega
      rw [if_neg hne, if_neg hne]
      have hdl : (s.infile.drop BUFSZ).length < b := by
        rw [List.length_drop]; unfold BUFSZ; omega
      obtain ⟨s3, len3, e1, e2⟩ := ih
        { inbuf := s.infile.take BUFSZ, inptr := 0, incnt := (s.infile.take BUFSZ).length,
          infile := s.infile.drop BUFSZ,
          calc_crc := crc32 s.calc_crc (s.inbuf.drop s.inptr),
          file_offset := s.file_offset + s.incnt } (len - s.incnt)
        { k with outfile := .writing n t (bytes ++ s.inbuf.drop s.inptr) }
        (bytes ++ s.inbuf.drop s.inptr) rfl
        (refilled_consistent _ _ _) hdl (by rw [refilled_unread]; omega)
      rw [refilled_unread] at e2
      have hl3 : len3 ≤ len - s.incnt := by
        obtain ⟨s3', len3', e, _, _, l3', _⟩ :=
          (skipLoop_spec b _ (len - s.incnt) (refilled_consistent s.infile
            (crc32 s.calc_crc (s.inbuf.drop s.inptr)) (s.file_offset + s.incnt)) hdl).1
            (by rw [refilled_unread]; omega)
        rw [e1] at e
        simp only [Flow.go.injEq, Prod.mk.injEq] at e
        omega
      refine ⟨s3, len3, e1, ?_⟩
      rw [e2]
      congr 3
      rw [hu, List.append_assoc]
      congr 1
      have : len - len3 = (s.inbuf.drop s.inptr).length + (len - s.incnt - len3) := by
        rw [hw]; omega
      rw [this, List.take_append]
    · rw [if_neg hgt, if_neg hgt]
      refine ⟨s, len, rfl, ?_⟩
      rw [Nat.sub_self, List.take_zero, List.append_nil]
      cases k
      simp only at hk
      subst hk
      rfl

theorem be32_U32_typ (typ : List Nat) (h4 : typ.length = 4) (hb : IsBytes typ) :
    be32 (U32 typ) = typ := by
  obtain ⟨a, b, c, d, rfl⟩ := list_of_length_four typ h4
  exact be32_U32 a b c d (hb a (by simp)) (hb b (by simp)) (hb c (by simp)) (hb d (by simp))

/-- One turn of the chunk loop of `pngsplit` on a complete chunk, with no sink
open and the unit's name free: the unit `chunknum + 1` receives exactly the
bytes of the chunk; a CRC mismatch then ends the run with code 24, otherwise
the loop goes on behind the chunk. -/
theorem chunkLoop_step (pre : Nat → Nat → Bool) (fl : Nat) (s : Reader) (m : Chunk)
    (r : List Nat) (num : Nat) (k : Sink)
    (hfl : fl = 0 ∨ fl = 1) (hfree : fl = 1 ∨ ∀ n t, pre n t = false)
    (hk : k.outfile = .null) (hc : s.Consistent) (hm : m.WellFormed)
    (hu : s.unread = m.bytes ++ r) :
    ∃ s5 : Reader, s5.Consistent ∧ s5.unread = r ∧
      ∀ b, chunkLoop pre fl (b + 1) s num k =
        if crc32 0 (m.typ ++ m.data) ≠ m.crc then
          some (24, { outfile := .null,
                      closed := k.closed ++ [⟨num + 1, U32 m.typ, m.bytes⟩] },
                [.badCrc (U32 m.typ) (crc32 0 (m.typ ++ m.data)) m.crc])
        else
          chunkLoop pre fl b s5 (num + 1)
            { outfile := .null, closed := k.closed ++ [⟨num + 1, U32 m.typ, m.bytes⟩] } := by
  obtain ⟨hm1, hm2, hm3, hm4, hm5⟩ := hm
  have hu1 : s.unread = be32 m.data.length ++ (m.typ ++ (m.data ++ (be32 m.crc ++ r))) := by
    rw [hu]; unfold Chunk.bytes; simp only [List.append_assoc]
  obtain ⟨s1, e1, c1, u1, _, _⟩ := GET_U32_be32 false s hc _ _ hm4 hu1
  obtain ⟨s2, e2, c2, u2, r2, _⟩ :=
    GET_U32_four true { s1 with calc_crc := crc32 0 [] } (resetCrc_consistent s1 _ c1) m.typ _ hm1
      ((resetCrc_unread s1 _).trans u1)
  rw [resetCrc_crc] at r2
  have hlen : m.data.length ≤ s2.unread.length := by
    rw [u2, List.length_append]; omega
  have hopen := write_open pre fl num m.data.length (U32 m.typ) k hfl hk
    (by rcases hfree with h | h
        · exact Or.inl h
        · exact Or.inr (h _ _))
  obtain ⟨s3, len3, e3, e3'⟩ := feedLoop_eq pre fl (num + 1) (s2.infile.length + 1) s2
    m.data.length
    (Sink.mk (OutFile.writing (num + 1) (U32 m.typ) (be32 m.data.length ++ be32 (U32 m.typ)))
      k.closed)
    (num + 1) (U32 m.typ) (be32 m.data.length ++ be32 (U32 m.typ)) hfl rfl c2 (by omega) hlen
  obtain ⟨s3', len3', e3s, c3, l3, l3', u3, _, _⟩ :=
    (skipLoop_spec (s2.infile.length + 1) s2 m.data.length c2 (by omega)).1 hlen
  rw [e3] at e3s
  simp only [Flow.go.injEq, Prod.mk.injEq] at e3s
  obtain ⟨rfl, rfl⟩ := e3s
  obtain ⟨s3'', len3'', e4s, c4, u4, r4, _⟩ := skipPayload_spec s2 m.data.length c2 hlen
  rw [e3] at e4s
  simp only [Flow.go.injEq, Prod.mk.injEq] at e4s
  obtain ⟨rfl, rfl⟩ := e4s
  rw [u2, List.drop_left] at u4
  rw [u2, List.take_left] at r4
  obtain ⟨s5, e5, c5, u5, r5, _⟩ := GET_U32_be32 false _ c4 _ _ hm5 u4
  have hseg : s2.unread.take (m.data.length - len3) ++ (s3.inbuf.drop s3.inptr).take len3
      = m.data := by
    have hw3 := window_length s3 c3
    have h1 : (s3.inbuf.drop s3.inptr).take len3 = (s2.unread.drop (m.data.length - len3)).take len3 := by
      rw [← u3, Reader.unread_eq s3 c3, List.take_append_of_le_length (by omega)]
    rw [h1]
    have h2 := List.take_add s2.unread (m.data.length - len3) len3
    rw [Nat.sub_add_cancel l3'] at h2
    rw [← h2, u2, List.take_left]
  have hcrc : s5.calc_crc = crc32 0 (m.typ ++ m.data) := by
    rw [r5]
    simp only [Bool.false_eq_true, if_false]
    rw [r4, r2]
    simp only [if_true]
    rw [crc32_nil, crc32_append]
  have hunit : be32 m.data.length ++ be32 (U32 m.typ) ++ m.data ++ be32 m.crc = m.bytes := by
    rw [be32_U32_typ m.typ hm1 hm2]; rfl
  refine ⟨s5, c5, u5, ?_⟩
  intro b
  conv => lhs; unfold chunkLoop
  rw [e1]
  simp only []
  rw [e2]
  simp only []
  rw [hopen]
  simp only [ne_eq, not_true_eq_false, if_false]
  rw [e3']
  simp only []
  rw [write_data pre fl (num + 1) _ _ (num + 1) (U32 m.typ) _ hfl rfl]
  simp only [ne_eq, not_true_eq_false, if_false]
  rw [e5]
  simp only []
  rw [write_close pre fl num m.crc _ (num + 1) (U32 m.typ) _ hfl rfl]
  simp only [ne_eq, not_true_eq_false, if_false]
  rw [hcrc, List.append_assoc (be32 m.data.length ++ be32 (U32 m.typ)), hseg, hunit]

/-- The chunk loop of `pngsplit` on a sequence of complete chunks with right
CRCs that ends with the source: every chunk becomes one unit, in order, and
the function returns 0. -/
theorem chunkLoop_chunks (pre : Nat → Nat → Bool) (fl : Nat) (chunks : List Chunk)
    (budget : Nat) (s : Reader) (num : Nat) (k : Sink)
    (hfl : fl = 0 ∨ fl = 1) (hfree : fl = 1 ∨ ∀ n t, pre n t = false)
    (hk : k.outfile = .null) (hc : s.Consistent)
    (hwf : ∀ c ∈ chunks, c.WellFormed ∧ c.CrcOk)
    (hu : s.unread = encode chunks) (hb : chunks.length < budget) :
    chunkLoop pre fl budget s num k
      = some (0, { outfile := .null, closed := k.closed ++ unitsFrom num chunks }, []) := by
  induction chunks generalizing budget s num k with
  | nil =>
    obtain ⟨b, rfl⟩ : ∃ b, budget = b + 1 := ⟨budget - 1, by omega⟩
    unfold chunkLoop
    rw [GET_U32_none false s hc (by rw [hu]; exact Nat.zero_lt_succ _)]
    simp only []
    cases k
    simp only at hk
    subst hk
    show _ = some (0, { outfile := OutFile.null, closed := _ ++ [] }, [])
    rw [List.append_nil]
  | cons m rest ih =>
    obtain ⟨b, rfl⟩ : ∃ b, budget = b + 1 := ⟨budget - 1, by omega⟩
    have hm0 := hwf m (List.mem_cons_self _ _)
    obtain ⟨s5, c5, u5, step⟩ := chunkLoop_step pre fl s m (encode rest) num k hfl hfree hk hc
      hm0.1 (by rw [hu, encode_cons])
    rw [step b, if_neg (fun h => h hm0.2.symm)]
    rw [ih b s5 (num + 1) _ rfl c5 (fun c hc => hwf c (List.mem_cons_of_mem _ hc)) u5
      (by simp only [List.length_cons] at hb; omega)]
    show _ = some (0, Sink.mk OutFile.null
      (k.closed ++ (⟨num + 1, U32 m.typ, m.bytes⟩ :: unitsFrom (num + 1) rest)), [])
    rw [List.append_assoc]
    rfl

/-- The reader `pngsplit` starts the chunk loop with: the first window, the
cursor behind the signature. -/
theorem startReader_facts (input : List Nat) (hlen : 67 ≤ input.length) :
    Reader.Consistent
        { inbuf := input.take BUFSZ, inptr := 8, incnt := (input.take BUFSZ).length - 8,
          infile := input.drop BUFSZ, calc_crc := 0, file_offset := 8 } ∧
    Reader.unread
        { inbuf := input.take BUFSZ, inptr := 8, incnt := (input.take BUFSZ).length - 8,
          infile := input.drop BUFSZ, calc_crc := 0, file_offset := 8 } = input.drop 8 := by
  have hin : (input.take BUFSZ).length ≥ 67 := by
    rw [List.length_take]; unfold BUFSZ; omega
  constructor
  · show 8 + ((input.take BUFSZ).length - 8) = (input.take BUFSZ).length
    omega
  · show ((input.take BUFSZ).drop 8).take ((input.take BUFSZ).length - 8)
          ++ input.drop BUFSZ = input.drop 8
    rw [List.take_of_length_le (by rw [List.length_drop]), refill_drop _ 8 (by omega)]

/-- The function `pngsplit` on an input that opens and passes the signature
test: the signature unit is written, then the chunk loop runs. -/
theorem pngsplit_accept (env : SplitEnv) (force : Bool) (input : List Nat) (k : Sink)
    (hopen : env.inOpens = true) (hlen : 67 ≤ input.length)
    (hsig : input.take 8 = pngsig ∨ input.take 8 = mngsig ∨ input.take 8 = jngsig) :
    pngsplit env force input k =
      match write_chunk_to_file env.pre 0 0 0 0 (input.take 8)
          ((if force then WR_FORCE else 0) ||| WR_OPEN ||| WR_CLOSE) k with
      | (error, k1, msgs) =>
        if error ≠ 0 then some (18, k1, msgs)
        else chunkLoop env.pre (if force then WR_FORCE else 0) (input.length + 1)
          { inbuf := input.take BUFSZ, inptr := 8, incnt := (input.take BUFSZ).length - 8,
            infile := input.drop BUFSZ, calc_crc := 0, file_offset := 8 } 0 k1 := by
  have hin : (input.take BUFSZ).length ≥ 67 := by
    rw [List.length_take]; unfold BUFSZ; omega
  have ht8 : (input.take BUFSZ).take 8 = input.take 8 := by
    rw [List.take_take]; rfl
  unfold pngsplit
  simp only []
  rw [hopen]
  simp only [Bool.not_true, Bool.false_eq_true, if_false]
  rw [if_neg, ht8]
  rw [ht8]
  unfold MIN_PNG_SIZE
  intro h
  rcases h with h | ⟨h1, h2, h3⟩
  · omega
  · rcases hsig with h | h | h
    · exact h1 h
    · exact h2 h
    · exact h3 h


theorem concatUnits_unitsFrom (num : Nat) (cs : List Chunk) :
    concatUnits (unitsFrom num cs) = encode cs := by
  induction cs generalizing num with
  | nil => rfl
  | cons c t ih =>
    show c.bytes ++ concatUnits (unitsFrom (num + 1) t) = c.bytes ++ encode t
    rw [ih]

theorem unitsFrom_num (num : Nat) (cs : List Chunk) :
    (unitsFrom num cs).map OutUnit.num = List.range' (num + 1) cs.length := by
  induction cs generalizing num with
  | nil => rfl
  | cons c t ih =>
    show (num + 1) :: (unitsFrom (num + 1) t).map OutUnit.num = _
    rw [ih]
    rfl

theorem unitsFrom_bytes (num : Nat) (cs : List Chunk) :
    (unitsFrom num cs).map OutUnit.bytes = cs.map Chunk.bytes := by
  induction cs generalizing num with
  | nil => rfl
  | cons c t ih =>
    show c.bytes :: (unitsFrom (num + 1) t).map OutUnit.bytes = c.bytes :: t.map Chunk.bytes
    rw [ih]

/-- C2 (split round trip): for every input of at least 67 bytes that consists
of a PNG, MNG or JNG signature followed by complete chunks with right CRCs
whose types are made of letters, with no sink open at the start and
overwriting permitted or no output name taken, `pngsplit` returns 0 with no
sink left open and has written units numbered 0, 1, ..., n in stream order,
unit 0 the 8 signature bytes and unit k the bytes `length|type|payload|crc`
of the k-th chunk, whose concatenation in that order is the input.  The
chunk types enter the output names; with letters every name is a plain file
name, which `fopen(outname, "wb")` is taken to open. -/
theorem split_round_trip (env : SplitEnv) (force : Bool) (sig8 : List Nat)
    (chunks : List Chunk) (k : Sink)
    (hopen : env.inOpens = true)
    (hsig : sig8 = pngsig ∨ sig8 = mngsig ∨ sig8 = jngsig)
    (hwf : ∀ c ∈ chunks, c.WellFormed ∧ c.CrcOk)
    (hty : ∀ c ∈ chunks, c.LetterType)
    (hlen : 67 ≤ (sig8 ++ encode chunks).length)
    (hk : k.outfile = .null)
    (hpol : force = true ∨ ∀ n t, env.pre n t = false) :
    ∃ units, pngsplit env force (sig8 ++ encode chunks) k
        = some (0, { outfile := .null, closed := k.closed ++ units }, []) ∧
      units.map OutUnit.num = List.range' 0 (chunks.length + 1) ∧
      units.map OutUnit.bytes = sig8 :: chunks.map Chunk.bytes ∧
      concatUnits units = sig8 ++ encode chunks := by
  have hs8 : sig8.length = 8 := by
    rcases hsig with h | h | h <;> rw [h] <;> rfl
  refine ⟨⟨0, 0, sig8⟩ :: unitsFrom 0 chunks, ?_, ?_, ?_, ?_⟩
  · have hfl := force_cases force
    have hfree : (if force then WR_FORCE else 0) = 1 ∨ ∀ n t, env.pre n t = false := by
      rcases hpol with h | h
      · left; rw [h]; rfl
      · right; exact h
    have ht8 : (sig8 ++ encode chunks).take 8 = sig8 := List.take_left' hs8
    have hd8 : (sig8 ++ encode chunks).drop 8 = encode chunks := List.drop_left' hs8
    obtain ⟨hcons, hunread⟩ := startReader_facts (sig8 ++ encode chunks) hlen
    rw [hd8] at hunread
    have hbud : chunks.length < (sig8 ++ encode chunks).length + 1 := by
      have := encode_length_ge chunks (fun c hc => (hwf c hc).1.1)
      rw [List.length_append]
      omega
    rw [pngsplit_accept env force _ k hopen hlen (by rw [ht8]; exact hsig), ht8]
    generalize (if force then WR_FORCE else 0) = fl at hfl hfree
    rw [write_sig env.pre fl sig8 k hfl hk
      (by rcases hfree with h | h
          · exact Or.inl h
          · exact Or.inr (h _ _))]
    simp only [ne_eq, not_true_eq_false, if_false]
    rw [chunkLoop_chunks env.pre fl chunks ((sig8 ++ encode chunks).length + 1) _ 0
      { outfile := .null, closed := k.closed ++ [⟨0, 0, sig8⟩] } hfl hfree rfl hcons hwf
      hunread hbud]
    show _ = some (0, Sink.mk OutFile.null (k.closed ++ (⟨0, 0, sig8⟩ :: unitsFrom 0 chunks)), [])
    rw [List.append_assoc]
    rfl
  · show 0 :: (unitsFrom 0 chunks).map OutUnit.num = _
    rw [unitsFrom_num]
    rfl
  · show sig8 :: (unitsFrom 0 chunks).map OutUnit.bytes = _
    rw [unitsFrom_bytes]
  · show sig8 ++ concatUnits (unitsFrom 0 chunks) = _
    rw [concatUnits_unitsFrom]
/-! ## Instances on the sample files -/

set_option maxRecDepth 1000000 in
theorem sampleChunks_ok :
    ∀ c ∈ [sampleIhdr, sampleIdat, sampleIend], c.WellFormed ∧ c.CrcOk := by
  simp only [List.forall_mem_cons, List.not_mem_nil, false_implies, implies_true, and_true]
  unfold Chunk.WellFormed Chunk.CrcOk IsBytes
  decide

set_option maxRecDepth 1000000 in
theorem sampleChunks_letters :
    ∀ c ∈ [sampleIhdr, sampleIdat, sampleIend], c.LetterType := by
  simp only [List.forall_mem_cons, List.not_mem_nil, false_implies, implies_true, and_true]
  unfold Chunk.LetterType
  decide

set_option maxRecDepth 1000000 in
theorem sampleIdatCanonical_ok : sampleIdatCanonical.WellFormed ∧ sampleIdatCanonical.CrcOk := by
  unfold Chunk.WellFormed Chunk.CrcOk IsBytes
  decide

set_option maxRecDepth 1000000 in
theorem sampleIdatBadCrc_bad : sampleIdatBadCrc.WellFormed ∧ ¬ sampleIdatBadCrc.CrcOk := by
  unfold Chunk.WellFormed Chunk.CrcOk IsBytes
  decide

set_option maxRecDepth 1000000 in
/-- Instance of C2: the three chunks of `sampleNonCanonical` behind the PNG
signature. -/
theorem split_round_trip_witness :
    ∃ units, pngsplit splitEnvFree false (pngsig ++ encode [sampleIhdr, sampleIdat, sampleIend])
          sinkFresh
        = some (0, { outfile := .null, closed := sinkFresh.closed ++ units }, []) ∧
      units.map OutUnit.num = List.range' 0 ([sampleIhdr, sampleIdat, sampleIend].length + 1) ∧
      units.map OutUnit.bytes = pngsig :: [sampleIhdr, sampleIdat, sampleIend].map Chunk.bytes ∧
      concatUnits units = pngsig ++ encode [sampleIhdr, sampleIdat, sampleIend] :=
  split_round_trip splitEnvFree false pngsig [sampleIhdr, sampleIdat, sampleIend] sinkFresh
    rfl (Or.inl rfl) sampleChunks_ok sampleChunks_letters (by decide) rfl
    (Or.inr (fun _ _ => rfl))

set_option maxRecDepth 1000000 in
/-- Instance of C3: `sampleBadIdatCrc`, whose IDAT carries a wrong CRC. -/
theorem crc_mismatch_fatal_witness :
    ∃ r, png_fix_IDAT_windowsize envPlain false
        (layout pngsig sampleIhdr [] sampleIdatBadCrc sampleIend.bytes) = some r ∧
      r.code ≠ 0 ∧ r.outfile = none :=
  crc_mismatch_fatal envPlain false pngsig sampleIhdr [] sampleIdatBadCrc sampleIend.bytes
    rfl (sampleChunks_ok sampleIhdr (by simp)).1 (fun _ h => absurd h (List.not_mem_nil _))
    sampleIdatBadCrc_bad.1 (by rfl) (Or.inr (Or.inr sampleIdatBadCrc_bad.2))

set_option maxRecDepth 1000000 in
/-- Instance of C4: `sampleNonCanonical`, patched to `sampleCanonical`. -/
theorem patched_chunk_crc_valid_witness :
    ∃ f, firstPass sampleNonCanonical = some (.ok f) ∧
      (chunkAt sampleCanonical f.file_offset_IDATs f.chunklen).length = f.chunklen + 12 ∧
      U32 (chunkAt sampleCanonical f.file_offset_IDATs f.chunklen) = f.chunklen ∧
      U32 ((chunkAt sampleCanonical f.file_offset_IDATs f.chunklen).drop 4) = IDAT ∧
      (chunkAt sampleCanonical f.file_offset_IDATs f.chunklen).drop (f.chunklen + 8)
        = be32 (crc32 0 (((chunkAt sampleCanonical f.file_offset_IDATs f.chunklen).drop 4).take
            (4 + f.chunklen))) ∧
      U32 ((chunkAt sampleCanonical f.file_offset_IDATs f.chunklen).drop (f.chunklen + 8))
        = crc32 0 (((chunkAt sampleCanonical f.file_offset_IDATs f.chunklen).drop 4).take
            (4 + f.chunklen)) :=
  patched_chunk_crc_valid envPlain false sampleNonCanonical sampleCanonical []
    isBytes_sampleNonCanonical run_sampleNonCanonical

set_option maxRecDepth 1000000 in
/-- Instance of C6: `sampleCanonical`. -/
theorem already_canonical_noop_witness :
    png_fix_IDAT_windowsize envPlain false
        (layout pngsig (ihdrChunk 1 1 8 0 0 0 0) [] sampleIdatCanonical sampleIend.bytes)
      = some ⟨0, none, [.noteSkipping]⟩ :=
  already_canonical_noop envPlain false 1 1 8 0 0 0 0 [] sampleIdatCanonical sampleIend.bytes
    [99, 96, 0, 0, 0, 2, 0, 1] rfl (Or.inr rfl) rfl rfl (by decide) (by decide) (by decide)
    (by decide) (by decide) (by decide) (by decide) (by unfold LegalPair; decide)
    (by unfold LongOverflow rowBytes channelsOf; decide)
    (fun _ h => absurd h (List.not_mem_nil _))
    sampleIdatCanonical_ok.1 (by rfl) sampleIdatCanonical_ok.2 rfl (by decide)

set_option maxRecDepth 1000000 in
/-- Instance of C8: the header of the sample files with colour type 5 and
depth 8. -/
theorem colortype_depth_validation_witness :
    (png_fix_IDAT_windowsize envPlain false
        (pngsig ++ (ihdrChunk 1 1 8 5 0 0 0).bytes ++ encode [sampleIdat, sampleIend])
        = some ⟨22, none, [.invalidColortype 5]⟩
      ↔ ¬ KnownColortype 5) ∧
    (png_fix_IDAT_windowsize envPlain false
        (pngsig ++ (ihdrChunk 1 1 8 5 0 0 0).bytes ++ encode [sampleIdat, sampleIend])
        = some ⟨23, none, [.invalidDepth 8 5]⟩
      ↔ (KnownColortype 5 ∧ ¬ LegalPair 5 8)) ∧
    (LegalPair 5 8 →
      (∃ s d, headerPass
          (pngsig ++ (ihdrChunk 1 1 8 5 0 0 0).bytes ++ encode [sampleIdat, sampleIend])
          = .ok (s, d)) ∨
      headerPass (pngsig ++ (ihdrChunk 1 1 8 5 0 0 0).bytes ++ encode [sampleIdat, sampleIend])
        = .error (20, .invalidDimensions)) :=
  colortype_depth_validation envPlain false 1 1 8 5 0 0 0 (encode [sampleIdat, sampleIend])
    rfl (Or.inr rfl) (by decide) (by decide) (by decide) (by decide) (by decide) (by decide)
    (by decide) (by decide) (by decide) (by decide)

set_option maxRecDepth 1000000 in
/-- Instance of patch locality: `sampleNonCanonical`, patched to
`sampleCanonical`. -/
theorem patch_locality_complete_witness :
    ∃ f, firstPass sampleNonCanonical = some (.ok f) ∧
      sampleCanonical.take f.file_offset_IDATs = sampleNonCanonical.take f.file_offset_IDATs ∧
      sampleCanonical.drop (f.file_offset_IDATs + f.chunklen + 12)
        = sampleNonCanonical.drop (f.file_offset_IDATs + f.chunklen + 12) ∧
      (f.file_offset_IDATs + f.chunklen + 12 ≤ sampleNonCanonical.length →
        sampleCanonical.length = sampleNonCanonical.length ∧
        ∀ i, i ≠ f.file_offset_IDATs + 8 → i ≠ f.file_offset_IDATs + 9 →
          ¬ (f.file_offset_IDATs + f.chunklen + 8 ≤ i ∧
             i < f.file_offset_IDATs + f.chunklen + 12) →
          sampleCanonical[i]? = sampleNonCanonical[i]?) :=
  patch_locality_complete envPlain false sampleNonCanonical sampleCanonical []
    run_sampleNonCanonical

set_option maxRecDepth 1000000 in
/-- Instance of the canonical header: `sampleNonCanonical`, patched to
`sampleCanonical`. -/
theorem patched_header_canonical_witness :
    ∃ f, firstPass sampleNonCanonical = some (.ok f) ∧
      (2 ≤ f.chunklen →
        (((chunkAt sampleCanonical f.file_offset_IDATs f.chunklen).drop 8).take f.chunklen).take 2
          = [0x78, 0x9c]) :=
  patched_header_canonical envPlain false sampleNonCanonical sampleCanonical []
    run_sampleNonCanonical

/-! ## Runs of complete chunks and truncated payloads -/

/-- The chunk loop of `pngsplit` over a run of complete chunks with right
CRCs, whatever follows them: every chunk becomes one unit, and the loop goes
on behind the run. -/
theorem chunkLoop_prefix (pre : Nat → Nat → Bool) (fl : Nat) (chunks : List Chunk)
    (r : List Nat) (s : Reader) (num : Nat) (k : Sink)
    (hfl : fl = 0 ∨ fl = 1) (hfree : fl = 1 ∨ ∀ n t, pre n t = false)
    (hk : k.outfile = .null) (hc : s.Consistent)
    (hwf : ∀ c ∈ chunks, c.WellFormed ∧ c.CrcOk)
    (hu : s.unread = encode chunks ++ r) :
    ∃ s' : Reader, s'.Consistent ∧ s'.unread = r ∧
      ∀ b, chunkLoop pre fl (chunks.length + b) s num k
        = chunkLoop pre fl b s' (num + chunks.length)
            { outfile := .null, closed := k.closed ++ unitsFrom num chunks } := by
  induction chunks generalizing s num k with
  | nil =>
    refine ⟨s, hc, hu, ?_⟩
    intro b
    cases k
    simp only at hk
    subst hk
    show chunkLoop pre fl (0 + b) s num _ = chunkLoop pre fl b s (num + 0) (Sink.mk _ (_ ++ []))
    rw [Nat.zero_add, Nat.add_zero, List.append_nil]
  | cons m rest ih =>
    have hm0 := hwf m (List.mem_cons_self _ _)
    obtain ⟨s5, c5, u5, step⟩ := chunkLoop_step pre fl s m (encode rest ++ r) num k hfl hfree hk
      hc hm0.1 (by rw [hu, encode_cons, List.append_assoc])
    obtain ⟨s', c', u', loop⟩ := ih s5 (num + 1)
      { outfile := .null, closed := k.closed ++ [⟨num + 1, U32 m.typ, m.bytes⟩] } rfl c5
      (fun c hc => hwf c (List.mem_cons_of_mem _ hc)) u5
    refine ⟨s', c', u', ?_⟩
    intro b
    have e : (m :: rest).length + b = (rest.length + b) + 1 := by
      simp only [List.length_cons]; omega
    rw [e, step (rest.length + b), if_neg (fun h => h hm0.2.symm), loop b]
    have e2 : num + 1 + rest.length = num + (m :: rest).length := by
      simp only [List.length_cons]; omega
    rw [e2]
    show chunkLoop pre fl b s' _ (Sink.mk OutFile.null (k.closed ++ [_] ++ unitsFrom (num + 1) rest))
      = chunkLoop pre fl b s' _ (Sink.mk OutFile.null
          (k.closed ++ (⟨num + 1, U32 m.typ, m.bytes⟩ :: unitsFrom (num + 1) rest)))
    rw [List.append_assoc]
    rfl

/-- The first-pass loop over a run of complete chunks that are not IDATs and
have right CRCs, whatever follows them: the loop goes on behind the run. -/
theorem scanLoop_prefix (mids : List Chunk) (r : List Nat) (s : Reader) (hc : s.Consistent)
    (hm : ∀ m ∈ mids, m.WellFormed ∧ U32 m.typ ≠ IDAT ∧ m.CrcOk)
    (hu : s.unread = encode mids ++ r) :
    ∃ s' : Reader, s'.Consistent ∧ s'.unread = r ∧
      s'.file_offset = s.file_offset + (encode mids).length ∧
      ∀ b, scanLoop (mids.length + b) s = scanLoop b s' := by
  induction mids generalizing s with
  | nil =>
    refine ⟨s, hc, hu, rfl, ?_⟩
    intro b
    show scanLoop (0 + b) s = _
    rw [Nat.zero_add]
  | cons m rest ih =>
    have hm0 := hm m (List.mem_cons_self _ _)
    obtain ⟨s5, c5, u5, o5, step⟩ := scanLoop_step s m (encode rest ++ r) hc hm0.1 hm0.2.1
      (by rw [hu, encode_cons, List.append_assoc])
    obtain ⟨s', c', u', o', loop⟩ := ih s5 c5 (fun c hc => hm c (List.mem_cons_of_mem _ hc)) u5
    refine ⟨s', c', u', ?_, ?_⟩
    · rw [o', o5, encode_cons, List.length_append]; omega
    · intro b
      have e : (m :: rest).length + b = (rest.length + b) + 1 := by
        simp only [List.length_cons]; omega
      rw [e, step (rest.length + b), if_neg (fun h => h hm0.2.2.symm), loop b]

/-- The payload loop of `pngsplit` on a source that ends inside the payload:
every byte left is appended to the open unit, then the function returns 21
with the count of missing bytes. -/
theorem feedLoop_trunc (pre : Nat → Nat → Bool) (fl num : Nat) (budget : Nat) (s : Reader)
    (len : Nat) (k : Sink) (n t : Nat) (bytes : List Nat)
    (hfl : fl = 0 ∨ fl = 1) (hk : k.outfile = .writing n t bytes)
    (hc : s.Consistent) (hb : s.infile.length < budget) (hlen : s.unread.length < len) :
    feedLoop pre fl num budget s len k
      = .ret (21, { k with outfile := .writing n t (bytes ++ s.unread) },
          [.eofMissing (len - s.unread.length)]) := by
  induction budget generalizing s len k bytes with
  | zero => omega
  | succ b ih =>
    have hw := window_length s hc
    have hu := Reader.unread_eq s hc
    have hul : s.unread.length = s.incnt + s.infile.length := by
      rw [hu, List.length_append, hw]
    unfold feedLoop
    have hgt : len > s.incnt := by omega
    rw [if_pos hgt]
    simp only []
    rw [window_take s hc, write_data pre fl num _ k n t bytes hfl hk]
    simp only [ne_eq, not_true_eq_false, if_false]
    by_cases he : (s.infile.take BUFSZ).length ≤ 0
    · rw [if_pos he]
      have hnil : s.infile = [] := by
        rw [List.length_take] at he; unfold BUFSZ at he
        exact List.eq_nil_of_length_eq_zero (by omega)
      rw [hu, hnil, List.append_nil, List.nil_append, hw]
    · rw [if_neg he]
      have hdl : (s.infile.drop BUFSZ).length < b := by
        rw [List.length_take] at he
        rw [List.length_drop]; unfold BUFSZ; unfold BUFSZ at he; omega
      rw [ih (Reader.mk (s.infile.take BUFSZ) 0 (s.infile.take BUFSZ).length
          (s.infile.drop BUFSZ) (crc32 s.calc_crc (s.inbuf.drop s.inptr))
          (s.file_offset + s.incnt)) (len - s.incnt)
        { k with outfile := .writing n t (bytes ++ s.inbuf.drop s.inptr) }
        (bytes ++ s.inbuf.drop s.inptr) rfl
        (refilled_consistent _ _ _) hdl (by rw [refilled_unread]; omega)]
      rw [refilled_unread, hu, List.length_append, hw, List.append_assoc]
      have e : len - s.incnt - s.infile.length = len - (s.incnt + s.infile.length) := by omega
      rw [e]

/-! ## The loops of `pngsplit` on arbitrary input -/

/-- Whatever `write_chunk_to_file` is asked to do, the list of completed
units only grows. -/
theorem write_chunk_mono (pre : Nat → Nat → Bool) (num chunklen chunktyp chunkcrc : Nat)
    (buf : List Nat) (flags : Nat) (k : Sink) :
    ∃ more, (write_chunk_to_file pre num chunklen chunktyp chunkcrc buf flags k).2.1.closed
      = k.closed ++ more := by
  obtain ⟨o, cl⟩ := k
  unfold write_chunk_to_file
  by_cases h1 : flags &&& WR_OPEN ≠ 0
  · rw [if_pos h1]
    by_cases h2 : o ≠ .null
    · rw [if_pos h2]
      exact ⟨[], (List.append_nil _).symm⟩
    · rw [if_neg h2]
      by_cases h3 : (flags &&& WR_FORCE = 0 ∧ pre num chunktyp = true)
      · rw [if_pos h3]
        exact ⟨[], (List.append_nil _).symm⟩
      · rw [if_neg h3]
        simp only []
        by_cases h4 : flags &&& WR_CLOSE ≠ 0
        · rw [if_pos h4]
          exact ⟨_, rfl⟩
        · rw [if_neg h4]
          exact ⟨[], (List.append_nil _).symm⟩
  · rw [if_neg h1]
    simp only []
    by_cases h4 : flags &&& WR_CLOSE ≠ 0
    · cases o
      · exact ⟨[], (List.append_nil _).symm⟩
      · simp only []
        rw [if_pos h4]
        exact ⟨_, rfl⟩
      · simp only []
        rw [if_pos h4]
        exact ⟨[], (List.append_nil _).symm⟩
    · cases o
      · exact ⟨[], (List.append_nil _).symm⟩
      · simp only []
        rw [if_neg h4]
        exact ⟨[], (List.append_nil _).symm⟩
      · simp only []
        rw [if_neg h4]
        exact ⟨[], (List.append_nil _).symm⟩


/-- The payload loop of `pngsplit` always ends: with a `return` of 20 or 21,
or with the rest of the payload inside the window. -/
theorem feedLoop_total (pre : Nat → Nat → Bool) (fl num : Nat) (budget : Nat) (s : Reader)
    (len : Nat) (k : Sink) (hc : s.Consistent) (hb : s.infile.length < budget) :
    (∃ c k1 msgs more, feedLoop pre fl num budget s len k = .ret (c, k1, msgs) ∧
      (c = 20 ∨ c = 21) ∧ k1.closed = k.closed ++ more) ∨
    (∃ s3 len3 k3 more, feedLoop pre fl num budget s len k = .go (s3, len3, k3) ∧
      s3.Consistent ∧ len3 ≤ s3.incnt ∧ s3.unread.length ≤ s.unread.length ∧
      k3.closed = k.closed ++ more) := by
  induction budget generalizing s len k with
  | zero => omega
  | succ b ih =>
    have hw := window_length s hc
    have hu := Reader.unread_eq s hc
    have hul : s.unread.length = s.incnt + s.infile.length := by
      rw [hu, List.length_append, hw]
    unfold feedLoop
    by_cases hgt : len > s.incnt
    · rw [if_pos hgt]
      simp only []
      obtain ⟨more1, hm1⟩ := write_chunk_mono pre num 0 0 0
        ((s.inbuf.drop s.inptr).take s.incnt) fl k
      generalize write_chunk_to_file pre num 0 0 0
        ((s.inbuf.drop s.inptr).take s.incnt) fl k = w at hm1
      obtain ⟨e, k1, m1⟩ := w
      simp only [] at hm1
      simp only []
      by_cases he0 : e ≠ 0
      · rw [if_pos he0]
        exact Or.inl ⟨20, k1, m1, more1, rfl, Or.inl rfl, hm1⟩
      · rw [if_neg he0]
        by_cases he : (s.infile.take BUFSZ).length ≤ 0
        · rw [if_pos he]
          exact Or.inl ⟨21, k1, _, more1, rfl, Or.inr rfl, hm1⟩
        · rw [if_neg he]
          have hdl : (s.infile.drop BUFSZ).length < b := by
            rw [List.length_take] at he
            rw [List.length_drop]; unfold BUFSZ; unfold BUFSZ at he; omega
          rcases ih (Reader.mk (s.infile.take BUFSZ) 0 (s.infile.take BUFSZ).length
              (s.infile.drop BUFSZ)
              (crc32 s.calc_crc ((s.inbuf.drop s.inptr).take s.incnt))
              (s.file_offset + s.incnt)) (len - s.incnt) k1
              (refilled_consistent _ _ _) hdl with
            ⟨c, k2, msgs, more, e1, e2, e3⟩ | ⟨s3, len3, k3, more, e1, e2, e3, e4, e5⟩
          · refine Or.inl ⟨c, k2, msgs, more1 ++ more, e1, e2, ?_⟩
            rw [e3, hm1, List.append_assoc]
          · refine Or.inr ⟨s3, len3, k3, more1 ++ more, e1, e2, e3, ?_, ?_⟩
            · rw [refilled_unread] at e4
              omega
            · rw [e5, hm1, List.append_assoc]
    · rw [if_neg hgt]
      exact Or.inr ⟨s, len, k, [], rfl, hc, by omega, le_refl _, (List.append_nil _).symm⟩

theorem afterPayload_consistent (s3 : Reader) (len3 : Nat) (hc : s3.Consistent)
    (h : len3 ≤ s3.incnt) :
    (afterPayload s3 len3).Consistent ∧
    (afterPayload s3 len3).unread.length ≤ s3.unread.length := by
  have hw := window_length s3 hc
  constructor
  · unfold Reader.Consistent at hc
    show s3.inptr + len3 + (s3.incnt - len3) = s3.inbuf.length
    omega
  · show (((s3.inbuf.drop (s3.inptr + len3)).take (s3.incnt - len3)) ++ s3.infile).length
      ≤ (((s3.inbuf.drop s3.inptr).take s3.incnt) ++ s3.infile).length
    rw [List.length_append, List.length_append, List.length_take, List.length_take,
      List.length_drop, List.length_drop]
    omega

/-- The chunk loop of `pngsplit` always ends, whatever the input holds: with
one of the codes 0, 19, 20, 21, 22, 23, 24, and with every unit that was
complete before still in place. -/
theorem chunkLoop_total (pre : Nat → Nat → Bool) (fl : Nat) (budget : Nat) (s : Reader)
    (num : Nat) (k : Sink) (hc : s.Consistent) (hb : s.unread.length < budget) :
    ∃ c k1 msgs more, chunkLoop pre fl budget s num k = some (c, k1, msgs) ∧
      (c = 0 ∨ c = 19 ∨ c = 20 ∨ c = 21 ∨ c = 22 ∨ c = 23 ∨ c = 24) ∧
      k1.closed = k.closed ++ more := by
  induction budget generalizing s num k with
  | zero => omega
  | succ b ih =>
    unfold chunkLoop
    cases h1 : GET_U32 false s with
    | none => exact ⟨0, k, [], [], rfl, Or.inl rfl, (List.append_nil _).symm⟩
    | some p1 =>
      obtain ⟨chunklen, s1⟩ := p1
      obtain ⟨l1, _, c1, u1, _, _⟩ := GET_U32_inv false s s1 chunklen hc h1
      simp only []
      cases h2 : GET_U32 true { s1 with calc_crc := crc32 0 [] } with
      | none => exact ⟨0, k, [], [], rfl, Or.inl rfl, (List.append_nil _).symm⟩
      | some p2 =>
        obtain ⟨chunktyp, s2⟩ := p2
        obtain ⟨l2, _, c2, u2, _, _⟩ := GET_U32_inv true _ s2 chunktyp
          (resetCrc_consistent s1 _ c1) h2
        rw [resetCrc_unread] at l2
        simp only []
        obtain ⟨more1, hm1⟩ := write_chunk_mono pre (num + 1) chunklen chunktyp 0 []
          (WR_OPEN ||| fl) k
        generalize write_chunk_to_file pre (num + 1) chunklen chunktyp 0 []
          (WR_OPEN ||| fl) k = w1 at hm1
        obtain ⟨e1, k1, m1⟩ := w1
        simp only [] at hm1
        simp only []
        by_cases he1 : e1 ≠ 0
        · rw [if_pos he1]
          exact ⟨19, k1, m1, more1, rfl, by simp, hm1⟩
        · rw [if_neg he1]
          rcases feedLoop_total pre fl (num + 1) (s2.infile.length + 1) s2 chunklen k1 c2
              (Nat.lt_succ_self _) with
            ⟨c, k2, msgs, more, f1, f2, f3⟩ | ⟨s3, len3, k3, more3, f1, f2, f3, f4, f5⟩
          · rw [f1]
            simp only []
            refine ⟨c, k2, msgs, more1 ++ more, rfl, ?_, ?_⟩
            · rcases f2 with h | h <;> simp [h]
            · rw [f3, hm1, List.append_assoc]
          · rw [f1]
            simp only []
            obtain ⟨more4, hm4⟩ := write_chunk_mono pre (num + 1) 0 0 0
              ((s3.inbuf.drop s3.inptr).take len3) fl k3
            generalize write_chunk_to_file pre (num + 1) 0 0 0
              ((s3.inbuf.drop s3.inptr).take len3) fl k3 = w4 at hm4
            obtain ⟨e4, k4, m4⟩ := w4
            simp only [] at hm4
            simp only []
            have hk4 : k4.closed = k.closed ++ (more1 ++ more3 ++ more4) := by
              rw [hm4, f5, hm1, List.append_assoc, List.append_assoc, List.append_assoc]
            by_cases he4 : e4 ≠ 0
            · rw [if_pos he4]
              exact ⟨22, k4, m4, _, rfl, by simp, hk4⟩
            · rw [if_neg he4]
              obtain ⟨ca, la⟩ := afterPayload_consistent s3 len3 f2 f3
              cases h5 : GET_U32 false (afterPayload s3 len3) with
              | none => exact ⟨0, k4, [], _, rfl, Or.inl rfl, hk4⟩
              | some p5 =>
                obtain ⟨chunkcrc, s5⟩ := p5
                obtain ⟨l5, _, c5, u5, _, _⟩ := GET_U32_inv false _ s5 chunkcrc ca h5
                simp only []
                obtain ⟨more5, hm5⟩ := write_chunk_mono pre (num + 1) 0 0 chunkcrc []
                  (WR_CLOSE ||| fl) k4
                generalize write_chunk_to_file pre (num + 1) 0 0 chunkcrc []
                  (WR_CLOSE ||| fl) k4 = w5 at hm5
                obtain ⟨e5, k5, m5⟩ := w5
                simp only [] at hm5
                simp only []
                have hk5 : k5.closed = k.closed ++ (more1 ++ more3 ++ more4 ++ more5) := by
                  rw [hm5, hk4, List.append_assoc]
                by_cases he5 : e5 ≠ 0
                · rw [if_pos he5]
                  exact ⟨23, k5, m5, _, rfl, by simp, hk5⟩
                · rw [if_neg he5]
                  by_cases hcrc : s5.calc_crc ≠ chunkcrc
                  · rw [if_pos hcrc]
                    exact ⟨24, k5, _, _, rfl, by simp, hk5⟩
                  · rw [if_neg hcrc]
                    have hlen5 : s5.unread.length < b := by
                      have h5l : s5.unread.length = (afterPayload s3 len3).unread.length - 4 := by
                        rw [u5, List.length_drop]
                      have h2l : s2.unread.length = s1.unread.length - 4 := by
                        rw [u2, List.length_drop, resetCrc_unread]
                      have h1l : s1.unread.length = s.unread.length - 4 := by
                        rw [u1, List.length_drop]
                      omega
                    obtain ⟨c, k6, msgs, more6, g1, g2, g3⟩ := ih s5 (num + 1) k5 c5 hlen5
                    refine ⟨c, k6, msgs, (more1 ++ more3 ++ more4 ++ more5) ++ more6, g1, g2, ?_⟩
                    rw [g3, hk5, List.append_assoc]

/-! ## `png_fix_IDAT_windowsize` on arbitrary input -/

/-- The first-pass loop always ends, whatever the input holds. -/
theorem scanLoop_total (budget : Nat) (s : Reader) (hc : s.Consistent)
    (hb : s.unread.length < budget) :
    (∃ msgs, scanLoop budget s = .ret msgs) ∨ (∃ f, scanLoop budget s = .go f) := by
  induction budget generalizing s with
  | zero => omega
  | succ b ih =>
    unfold scanLoop
    cases h1 : GET_U32 false s with
    | none => exact Or.inl ⟨[], rfl⟩
    | some p1 =>
      obtain ⟨chunklen, s1⟩ := p1
      obtain ⟨l1, _, c1, u1, _, _⟩ := GET_U32_inv false s s1 chunklen hc h1
      simp only []
      cases h2 : GET_U32 true { s1 with calc_crc := crc32 0 [] } with
      | none => exact Or.inl ⟨[], rfl⟩
      | some p2 =>
        obtain ⟨chunktyp, s2⟩ := p2
        obtain ⟨l2, _, c2, u2, _, _⟩ := GET_U32_inv true _ s2 chunktyp
          (resetCrc_consistent s1 _ c1) h2
        rw [resetCrc_unread] at l2
        simp only []
        by_cases ht : chunktyp = IDAT
        · rw [if_pos ht]
          exact Or.inr ⟨_, rfl⟩
        · rw [if_neg ht]
          by_cases hl : chunklen ≤ s2.unread.length
          · obtain ⟨s3, len3, e3, c3, l3, l3', u3, _, _⟩ :=
              (skipLoop_spec (s2.infile.length + 1) s2 chunklen c2 (Nat.lt_succ_self _)).1 hl
            rw [e3]
            simp only []
            obtain ⟨ca, la⟩ := afterPayload_consistent s3 len3 c3 l3
            cases h5 : GET_U32 false (afterPayload s3 len3) with
            | none => exact Or.inl ⟨[], rfl⟩
            | some p5 =>
              obtain ⟨chunkcrc, s5⟩ := p5
              obtain ⟨l5, _, c5, u5, _, _⟩ := GET_U32_inv false _ s5 chunkcrc ca h5
              simp only []
              by_cases hcrc : s5.calc_crc ≠ chunkcrc
              · rw [if_pos hcrc]
                exact Or.inl ⟨_, rfl⟩
              · rw [if_neg hcrc]
                apply ih s5 c5
                have h5l : s5.unread.length = (afterPayload s3 len3).unread.length - 4 := by
                  rw [u5, List.length_drop]
                have h3l : s3.unread.length = s2.unread.length - (chunklen - len3) := by
                  rw [u3, List.length_drop]
                have h2l : s2.unread.length = s1.unread.length - 4 := by
                  rw [u2, List.length_drop, resetCrc_unread]
                have h1l : s1.unread.length = s.unread.length - 4 := by
                  rw [u1, List.length_drop]
                omega
          · rw [(skipLoop_spec (s2.infile.length + 1) s2 chunklen c2 (Nat.lt_succ_self _)).2
              (by omega)]
            exact Or.inl ⟨_, rfl⟩

/-- The first pass always ends: with an error of the header checks, with
error 24, or with the place of the first IDAT. -/
theorem firstPass_total (input : List Nat) :
    (∃ c m, headerPass input = .error (c, m) ∧ firstPass input = some (.error (c, [m]))) ∨
    (∃ s d, headerPass input = .ok (s, d) ∧
      ((∃ msgs, firstPass input = some (.error (24, msgs ++ [.noIDAT]))) ∨
       (∃ f, firstPass input = some (.ok f)))) := by
  unfold firstPass
  cases hh : headerPass input with
  | error e =>
    obtain ⟨c, m⟩ := e
    exact Or.inl ⟨c, m, rfl, rfl⟩
  | ok p =>
    obtain ⟨s, d⟩ := p
    obtain ⟨⟨hc, hle, hu⟩, ho⟩ := headerPass_at input s d hh
    have hb : s.unread.length < input.length + 1 := by
      rw [hu, List.length_drop]; omega
    refine Or.inr ⟨s, d, rfl, ?_⟩
    simp only []
    rcases scanLoop_total (input.length + 1) s hc hb with ⟨msgs, e⟩ | ⟨f, e⟩
    · rw [e]; exact Or.inl ⟨msgs, rfl⟩
    · rw [e]; exact Or.inr ⟨f, rfl⟩

/-- The second pass always ends, with one of the codes 25, 26, 23, 16, 27
and 0; an output file exists only with the codes 0 and 27. -/
theorem secondPass_total (env : Env) (input : List Nat) (f : Found) :
    ∃ r, secondPass env input f = some r ∧
      (r.code = 25 ∨ r.code = 26 ∨ r.code = 23 ∨ r.code = 16 ∨ r.code = 27 ∨ r.code = 0) ∧
      (r.outfile ≠ none → r.code = 27 ∨ (r.code = 0 ∧ r.stderr = [])) := by
  unfold secondPass
  by_cases h1 : (!env.seekOk) = true
  · rw [if_pos h1]; exact ⟨_, rfl, by simp, by simp⟩
  rw [if_neg h1]
  by_cases h2 : (!env.mallocOk) = true
  · rw [if_pos h2]; exact ⟨_, rfl, by simp, by simp⟩
  rw [if_neg h2]
  simp only []
  split
  · exact ⟨_, rfl, by simp, by simp⟩
  split
  · by_cases h5 : (!env.outOpens) = true
    · rw [if_pos h5]; exact ⟨_, rfl, by simp, by simp⟩
    rw [if_neg h5]
    rw [copyHead_eq _ _ _ _ (by omega)]
    by_cases h6 : input.length < f.file_offset_IDATs
    · rw [decide_eq_true h6]
      simp only []
      exact ⟨_, rfl, by simp, by simp⟩
    · rw [decide_eq_false h6]
      simp only []
      rw [copyTail_eq _ _ _ (by omega)]
      exact ⟨_, rfl, by simp, by simp⟩
  · exact ⟨_, rfl, by simp, by simp⟩

theorem ihdrStage_error_codes (width height : Int) (depth colortype c : Nat) (m : Msg)
    (h : ihdrStage width height depth colortype = .error (c, m)) :
    c = 20 ∨ c = 22 ∨ c = 23 := by
  unfold ihdrStage at h
  split at h
  · cases h; simp
  split at h
  · cases h; simp
  split at h
  · cases h; simp
  simp only [] at h
  split at h
  · cases h; simp
  · cases h

/-- The function `png_fix_IDAT_windowsize` always returns, and code 18 comes
from the test of the header chunk's length and type only. -/
theorem png_fix_total (env : Env) (force : Bool) (input : List Nat) :
    ∃ r, png_fix_IDAT_windowsize env force input = some r ∧
      (r.code = 18 → headerPass input = .error (18, .badIHDR)) := by
  unfold png_fix_IDAT_windowsize
  by_cases h1 : (!env.inOpens) = true
  · rw [if_pos h1]; exact ⟨_, rfl, by simp⟩
  rw [if_neg h1]
  by_cases h2 : (!force && env.outExists) = true
  · rw [if_pos h2]; exact ⟨_, rfl, by simp⟩
  rw [if_neg h2]
  rcases firstPass_total input with ⟨c, m, hh, hf⟩ | ⟨s, d, hh, ⟨msgs, hf⟩ | ⟨f, hf⟩⟩
  · rw [hf]
    refine ⟨_, rfl, ?_⟩
    intro hc
    simp only at hc
    subst hc
    rw [headerPass_eq] at hh
    rw [headerPass_eq]
    split at hh
    · cases hh
    split at hh
    · rw [if_neg (by assumption), if_pos (by assumption)]
    split at hh
    · cases hh
    split at hh
    · rename_i e he
      cases hh
      have := ihdrStage_error_codes _ _ _ _ _ _ he
      omega
    · cases hh
  · rw [hf]
    exact ⟨_, rfl, by simp⟩
  · rw [hf]
    obtain ⟨r, hr, hcodes, _⟩ := secondPass_total env input f
    refine ⟨r, hr, ?_⟩
    intro hc
    omega

/-! ## The sink of `write_chunk_to_file` -/

/-- C18 (SinkAlreadyOpen): whenever `write_chunk_to_file` is called with the
`WR_OPEN` flag while the static `outfile` is not `NULL`, it returns 2 with the
`logic error` line; no stream is opened, nothing is written, and the sink
state, the open stream with its bytes and the completed units, is as
before. -/
theorem sink_already_open (pre : Nat → Nat → Bool) (num chunklen chunktyp chunkcrc : Nat)
    (buf : List Nat) (flags : Nat) (k : Sink)
    (hflag : flags &&& WR_OPEN ≠ 0) (hopen : k.outfile ≠ .null) :
    write_chunk_to_file pre num chunklen chunktyp chunkcrc buf flags k
      = (2, k, [.logicStillOpen]) := by
  unfold write_chunk_to_file
  rw [if_pos hflag, if_pos hopen]

/-- C18 at a concrete call: the unit 1 is open with 8 bytes written, and the
unit 2 is to be opened with `WR_OPEN | WR_FORCE`. -/
theorem sink_already_open_witness :
    write_chunk_to_file (fun _ _ => false) 2 0 IDAT 0 [] (WR_OPEN ||| WR_FORCE)
        ⟨.writing 1 IHDR [0, 0, 0, 13, 73, 72, 68, 82], [⟨0, 0, pngsig⟩]⟩
      = (2, ⟨.writing 1 IHDR [0, 0, 0, 13, 73, 72, 68, 82], [⟨0, 0, pngsig⟩]⟩,
          [.logicStillOpen]) :=
  sink_already_open (fun _ _ => false) 2 0 IDAT 0 [] (WR_OPEN ||| WR_FORCE)
    ⟨.writing 1 IHDR [0, 0, 0, 13, 73, 72, 68, 82], [⟨0, 0, pngsig⟩]⟩ (by decide) (by simp)

/-! ## The header chunk test -/

/-- C20 (malformed header chunk): for every input of at least 67 bytes that
begins with the PNG signature, when the input opens and the output name is not
refused, `png_fix_IDAT_windowsize` returns, and its code is 18 exactly when
the length field of the first chunk is not 13 or its type is not `IHDR`; in
that case the result is code 18 with the `bad IHDR chunk` line and no output
file, whatever the CRC field and the dimension fields hold. -/
theorem malformed_header_chunk (env : Env) (force : Bool) (input : List Nat)
    (hopen : env.inOpens = true) (hpol : force = true ∨ env.outExists = false)
    (hlen : 67 ≤ input.length) (hsig : input.take 8 = pngsig) :
    ∃ r, png_fix_IDAT_windowsize env force input = some r ∧
      (r.code = 18 ↔
        (U32 ((input.drop 8).take 4) ≠ 13 ∨ U32 ((input.drop 12).take 4) ≠ IHDR)) ∧
      ((U32 ((input.drop 8).take 4) ≠ 13 ∨ U32 ((input.drop 12).take 4) ≠ IHDR) →
        r = ⟨18, none, [.badIHDR]⟩) := by
  have hin : ¬ ((input.take BUFSZ).length < MIN_PNG_SIZE ∨ input.take 8 ≠ pngsig) := by
    rw [List.length_take]; unfold BUFSZ MIN_PNG_SIZE
    intro h
    rcases h with h | h
    · omega
    · exact h hsig
  have hpol' : (!force && env.outExists) = false := by
    rcases hpol with h | h <;> rw [h] <;> simp
  have hbad : (U32 ((input.drop 8).take 4) ≠ 13 ∨ U32 ((input.drop 12).take 4) ≠ IHDR) →
      png_fix_IDAT_windowsize env force input = some ⟨18, none, [.badIHDR]⟩ := by
    intro hc
    unfold png_fix_IDAT_windowsize
    rw [hopen, hpol']
    simp only [Bool.not_true, Bool.false_eq_true, if_false]
    unfold firstPass
    rw [headerPass_eq, if_neg hin, if_pos hc]
  obtain ⟨r, hr, h18⟩ := png_fix_total env force input
  refine ⟨r, hr, ?_, ?_⟩
  · constructor
    · intro hc
      have hh := h18 hc
      rw [headerPass_eq, if_neg hin] at hh
      by_contra hn
      rw [if_neg hn] at hh
      split at hh
      · cases hh
      split at hh
      · rename_i e he
        cases hh
        have := ihdrStage_error_codes _ _ _ _ _ _ he
        omega
      · cases hh
    · intro hc
      rw [hbad hc] at hr
      cases hr
      rfl
  · intro hc
    rw [hbad hc] at hr
    cases hr
    rfl

set_option maxRecDepth 1000000 in
/-- C20 at a concrete file: `sampleBadHeader`, whose first chunk declares the
length 14. -/
theorem malformed_header_chunk_witness :
    ∃ r, png_fix_IDAT_windowsize envPlain false sampleBadHeader = some r ∧
      (r.code = 18 ↔
        (U32 ((sampleBadHeader.drop 8).take 4) ≠ 13 ∨
          U32 ((sampleBadHeader.drop 12).take 4) ≠ IHDR)) ∧
      ((U32 ((sampleBadHeader.drop 8).take 4) ≠ 13 ∨
          U32 ((sampleBadHeader.drop 12).take 4) ≠ IHDR) →
        r = ⟨18, none, [.badIHDR]⟩) :=
  malformed_header_chunk envPlain false sampleBadHeader rfl (Or.inr rfl) (by decide) (by rfl)

/-! ## The signature test of `pngsplit` -/

/-- C19 (signature gate of the splitter): when the input opens, `pngsplit`
returns, and its code is 17 exactly when the first read yields fewer than 67
bytes or the first 8 bytes are none of the PNG, MNG and JNG signatures; with
code 17 the sink state is untouched (nothing is written) and the line `does
not appear to be a PNG, MNG, or JNG file` is printed.  Otherwise, if no sink
is open and the name of unit 0 is free or overwriting is forced, the first
unit completed by the call is unit 0 and holds exactly the 8 signature
bytes, without length, type or CRC. -/
theorem signature_gate (env : SplitEnv) (force : Bool) (input : List Nat) (k : Sink)
    (hopen : env.inOpens = true) :
    ∃ c k1 msgs, pngsplit env force input k = some (c, k1, msgs) ∧
      (c = 17 ↔ ((input.take BUFSZ).length < 67 ∨
        (input.take 8 ≠ pngsig ∧ input.take 8 ≠ mngsig ∧ input.take 8 ≠ jngsig))) ∧
      (c = 17 → k1 = k ∧ msgs = [.notPng]) ∧
      (c ≠ 17 → k.outfile = .null → (force = true ∨ env.pre 0 0 = false) →
        ∃ more, k1.closed = k.closed ++ ⟨0, 0, input.take 8⟩ :: more) := by
  have ht8 : (input.take BUFSZ).take 8 = input.take 8 := by
    rw [List.take_take]; rfl
  by_cases hcond : (input.take BUFSZ).length < 67 ∨
      (input.take 8 ≠ pngsig ∧ input.take 8 ≠ mngsig ∧ input.take 8 ≠ jngsig)
  · refine ⟨17, k, [.notPng], ?_, ?_, ?_, ?_⟩
    · unfold pngsplit
      simp only []
      rw [hopen]
      simp only [Bool.not_true, Bool.false_eq_true, if_false]
      rw [ht8, if_pos]
      exact hcond
    · exact ⟨fun _ => hcond, fun _ => rfl⟩
    · exact fun _ => ⟨rfl, rfl⟩
    · exact fun h => absurd rfl h
  · have hlen : 67 ≤ input.length := by
      have h1 : ¬ (input.take BUFSZ).length < 67 := fun h => hcond (Or.inl h)
      rw [List.length_take] at h1
      omega
    have hsig : input.take 8 = pngsig ∨ input.take 8 = mngsig ∨ input.take 8 = jngsig := by
      by_contra hn
      apply hcond
      right
      exact ⟨fun h => hn (Or.inl h), fun h => hn (Or.inr (Or.inl h)),
        fun h => hn (Or.inr (Or.inr h))⟩
    obtain ⟨hcons, hunread⟩ := startReader_facts input hlen
    have hbud : (Reader.unread
        { inbuf := input.take BUFSZ, inptr := 8, incnt := (input.take BUFSZ).length - 8,
          infile := input.drop BUFSZ, calc_crc := 0, file_offset := 8 }).length
        < input.length + 1 := by
      rw [hunread, List.length_drop]; omega
    rw [pngsplit_accept env force input k hopen hlen hsig]
    by_cases hfree : k.outfile = .null ∧ (force = true ∨ env.pre 0 0 = false)
    · have hfl := force_cases force
      have hfree' : (if force then WR_FORCE else 0) = 1 ∨ env.pre 0 0 = false := by
        rcases hfree.2 with h | h
        · left; rw [h]; rfl
        · right; exact h
      rw [write_sig env.pre _ (input.take 8) k hfl hfree.1 hfree']
      simp only [ne_eq, not_true_eq_false, if_false]
      obtain ⟨c, k1, msgs, more, e, hc, hm⟩ := chunkLoop_total env.pre
        (if force then WR_FORCE else 0) (input.length + 1) _ 0
        { outfile := .null, closed := k.closed ++ [⟨0, 0, input.take 8⟩] } hcons hbud
      have hc17 : c ≠ 17 := by omega
      refine ⟨c, k1, msgs, e, ?_, ?_, ?_⟩
      · exact ⟨fun h => absurd h hc17, fun h => absurd h hcond⟩
      · exact fun h => absurd h hc17
      · intro _ _ _
        refine ⟨more, ?_⟩
        rw [hm]
        show (k.closed ++ [_]) ++ more = _
        rw [List.append_assoc]
        rfl
    · generalize write_chunk_to_file env.pre 0 0 0 0 (input.take 8)
        ((if force then WR_FORCE else 0) ||| WR_OPEN ||| WR_CLOSE) k = w
      obtain ⟨e0, k0, m0⟩ := w
      simp only []
      by_cases he0 : e0 ≠ 0
      · rw [if_pos he0]
        refine ⟨18, k0, m0, rfl, ?_, ?_, ?_⟩
        · exact ⟨fun h => by omega, fun h => absurd h hcond⟩
        · exact fun h => by omega
        · exact fun _ h1 h2 => absurd ⟨h1, h2⟩ hfree
      · rw [if_neg he0]
        obtain ⟨c, k1, msgs, more, e, hc, hm⟩ := chunkLoop_total env.pre
          (if force then WR_FORCE else 0) (input.length + 1) _ 0 k0 hcons hbud
        have hc17 : c ≠ 17 := by omega
        refine ⟨c, k1, msgs, e, ?_, ?_, ?_⟩
        · exact ⟨fun h => absurd h hc17, fun h => absurd h hcond⟩
        · exact fun h => absurd h hc17
        · exact fun _ h1 h2 => absurd ⟨h1, h2⟩ hfree

set_option maxRecDepth 1000000 in
/-- C19 at a concrete file: `sampleNonCanonical`, with no sink open and no
output name taken. -/
theorem signature_gate_witness :
    ∃ c k1 msgs, pngsplit splitEnvFree false sampleNonCanonical sinkFresh = some (c, k1, msgs) ∧
      (c = 17 ↔ ((sampleNonCanonical.take BUFSZ).length < 67 ∨
        (sampleNonCanonical.take 8 ≠ pngsig ∧ sampleNonCanonical.take 8 ≠ mngsig ∧
          sampleNonCanonical.take 8 ≠ jngsig))) ∧
      (c = 17 → k1 = sinkFresh ∧ msgs = [.notPng]) ∧
      (c ≠ 17 → sinkFresh.outfile = .null → (false = true ∨ splitEnvFree.pre 0 0 = false) →
        ∃ more, k1.closed = sinkFresh.closed ++ ⟨0, 0, sampleNonCanonical.take 8⟩ :: more) :=
  signature_gate splitEnvFree false sampleNonCanonical sinkFresh rfl

/-! ## CRC mismatch in `pngsplit` -/

/-- C13 (CRC mismatch is fatal for the splitter): on every input of at least
67 bytes made of a PNG, MNG or JNG signature, complete chunks with right CRCs,
a complete chunk whose stored CRC is not the CRC-32 of its type and payload,
and any rest, with no sink open at the start and overwriting permitted or no
output name taken, `pngsplit` returns 24 with the `bad CRC` line for that
chunk; the units written are the signature, the chunks before it and the
chunk itself, and nothing of the rest is framed. -/
theorem split_crc_mismatch_fatal (env : SplitEnv) (force : Bool) (sig8 : List Nat)
    (good : List Chunk) (bad : Chunk) (rest : List Nat) (k : Sink)
    (hopen : env.inOpens = true)
    (hsig : sig8 = pngsig ∨ sig8 = mngsig ∨ sig8 = jngsig)
    (hg : ∀ c ∈ good, c.WellFormed ∧ c.CrcOk)
    (hb : bad.WellFormed) (hbad : ¬ bad.CrcOk)
    (hlen : 67 ≤ (sig8 ++ (encode good ++ (bad.bytes ++ rest))).length)
    (hk : k.outfile = .null)
    (hpol : force = true ∨ ∀ n t, env.pre n t = false) :
    pngsplit env force (sig8 ++ (encode good ++ (bad.bytes ++ rest))) k
      = some (24,
          { outfile := .null,
            closed := k.closed ++ (⟨0, 0, sig8⟩ :: unitsFrom 0 good
              ++ [⟨good.length + 1, U32 bad.typ, bad.bytes⟩]) },
          [.badCrc (U32 bad.typ) (crc32 0 (bad.typ ++ bad.data)) bad.crc]) := by
  have hs8 : sig8.length = 8 := by
    rcases hsig with h | h | h <;> rw [h] <;> rfl
  have hfl := force_cases force
  have hfree : (if force then WR_FORCE else 0) = 1 ∨ ∀ n t, env.pre n t = false := by
    rcases hpol with h | h
    · left; rw [h]; rfl
    · right; exact h
  have ht8 : (sig8 ++ (encode good ++ (bad.bytes ++ rest))).take 8 = sig8 :=
    List.take_left' hs8
  have hd8 : (sig8 ++ (encode good ++ (bad.bytes ++ rest))).drop 8
      = encode good ++ (bad.bytes ++ rest) := List.drop_left' hs8
  obtain ⟨hcons, hunread⟩ := startReader_facts _ hlen
  rw [hd8] at hunread
  have hgl : good.length ≤ (sig8 ++ (encode good ++ (bad.bytes ++ rest))).length := by
    have := encode_length_ge good (fun c hc => (hg c hc).1.1)
    rw [List.length_append, List.length_append]
    omega
  rw [pngsplit_accept env force _ k hopen hlen (by rw [ht8]; exact hsig), ht8]
  generalize (if force then WR_FORCE else 0) = fl at hfl hfree
  rw [write_sig env.pre fl sig8 k hfl hk
    (by rcases hfree with h | h
        · exact Or.inl h
        · exact Or.inr (h _ _))]
  simp only [ne_eq, not_true_eq_false, if_false]
  obtain ⟨s1, c1, u1, loop⟩ := chunkLoop_prefix env.pre fl good (bad.bytes ++ rest) _ 0
    { outfile := .null, closed := k.closed ++ [⟨0, 0, sig8⟩] } hfl hfree rfl hcons hg hunread
  obtain ⟨s5, _, _, step⟩ := chunkLoop_step env.pre fl s1 bad rest (0 + good.length)
    { outfile := .null, closed := k.closed ++ [⟨0, 0, sig8⟩] ++ unitsFrom 0 good }
    hfl hfree rfl c1 hb u1
  have e : (sig8 ++ (encode good ++ (bad.bytes ++ rest))).length + 1
      = good.length + (((sig8 ++ (encode good ++ (bad.bytes ++ rest))).length - good.length)
          + 1) := by omega
  rw [e, loop, step, if_pos (fun h => hbad h.symm)]
  rw [Nat.zero_add]
  show some (24, Sink.mk OutFile.null (k.closed ++ [_] ++ unitsFrom 0 good ++ [_]), _) = _
  rw [List.append_assoc, List.append_assoc]
  rfl

set_option maxRecDepth 1000000 in
/-- C13 at a concrete file: `sampleBadIdatCrc`, whose IDAT carries a wrong
CRC and is followed by an IEND chunk. -/
theorem split_crc_mismatch_fatal_witness :
    pngsplit splitEnvFree false
        (pngsig ++ (encode [sampleIhdr] ++ (sampleIdatBadCrc.bytes ++ sampleIend.bytes)))
        sinkFresh
      = some (24,
          { outfile := .null,
            closed := sinkFresh.closed ++ (⟨0, 0, pngsig⟩ :: unitsFrom 0 [sampleIhdr]
              ++ [⟨[sampleIhdr].length + 1, U32 sampleIdatBadCrc.typ, sampleIdatBadCrc.bytes⟩]) },
          [.badCrc (U32 sampleIdatBadCrc.typ)
            (crc32 0 (sampleIdatBadCrc.typ ++ sampleIdatBadCrc.data)) sampleIdatBadCrc.crc]) :=
  split_crc_mismatch_fatal splitEnvFree false pngsig [sampleIhdr] sampleIdatBadCrc
    sampleIend.bytes sinkFresh rfl (Or.inl rfl)
    (fun c hc => sampleChunks_ok c (by
      simp only [List.mem_singleton] at hc
      rw [hc]
      exact List.mem_cons_self _ _))
    sampleIdatBadCrc_bad.1 sampleIdatBadCrc_bad.2 (by decide) rfl (Or.inr (fun _ _ => rfl))

/-! ## No IDAT chunk -/

set_option maxRecDepth 1000000 in
theorem sampleText_ok : sampleText.WellFormed ∧ sampleText.CrcOk ∧ U32 sampleText.typ ≠ IDAT := by
  unfold Chunk.WellFormed Chunk.CrcOk IsBytes
  decide

set_option maxRecDepth 1000000 in
theorem sampleIend_not_idat : U32 sampleIend.typ ≠ IDAT := by decide

/-- The first-pass loop on a source that ends inside the length or type field
of a chunk, or right at a chunk boundary: it ends without a line of its
own. -/
theorem scanLoop_eof (s : Reader) (hc : s.Consistent) (h : s.unread.length < 8) (b : Nat) :
    scanLoop (b + 1) s = .ret [] := by
  unfold scanLoop
  cases h1 : GET_U32 false s with
  | none => rfl
  | some p1 =>
    obtain ⟨chunklen, s1⟩ := p1
    obtain ⟨l1, _, c1, u1, _, _⟩ := GET_U32_inv false s s1 chunklen hc h1
    simp only []
    rw [GET_U32_none true _ (resetCrc_consistent s1 _ c1)
      (by rw [resetCrc_unread, u1, List.length_drop]; omega)]

/-- C14 (no target chunk): for every input that passes the signature and
IHDR checks and continues with complete chunks that are not IDATs and have
right CRCs, and then ends, either at a chunk boundary or inside the length or
type field of a further chunk (fewer than 8 bytes left), if the input opens
and the output name is not refused, `png_fix_IDAT_windowsize` returns 24 with
the line `found no IDAT chunks` and creates no output file. -/
theorem no_target_chunk (env : Env) (force : Bool) (input : List Nat) (mids : List Chunk)
    (part : List Nat) (s : Reader) (d : Derived)
    (hopen : env.inOpens = true) (hpol : force = true ∨ env.outExists = false)
    (hh : headerPass input = .ok (s, d))
    (hin : input.drop 33 = encode mids ++ part)
    (hm : ∀ m ∈ mids, m.WellFormed ∧ U32 m.typ ≠ IDAT ∧ m.CrcOk)
    (hpart : part.length < 8) :
    png_fix_IDAT_windowsize env force input = some ⟨24, none, [.noIDAT]⟩ := by
  obtain ⟨⟨hc, hle, hu⟩, ho⟩ := headerPass_at input s d hh
  rw [ho, hin] at hu
  obtain ⟨s1, c1, u1, _, loop⟩ := scanLoop_prefix mids part s hc hm hu
  have hml : mids.length ≤ input.length := by
    have h1 := encode_length_ge mids (fun c hc => (hm c hc).1.1)
    have h2 := congrArg List.length hin
    rw [List.length_drop, List.length_append] at h2
    omega
  have hpol' : (!force && env.outExists) = false := by
    rcases hpol with h | h <;> rw [h] <;> simp
  unfold png_fix_IDAT_windowsize
  rw [hopen, hpol']
  simp only [Bool.not_true, Bool.false_eq_true, if_false]
  unfold firstPass
  rw [hh]
  simp only []
  have e : input.length + 1 = mids.length + ((input.length - mids.length) + 1) := by omega
  rw [e, loop, scanLoop_eof s1 c1 (by rw [u1]; exact hpart)]
  rfl

set_option maxRecDepth 1000000 in
/-- C14 at a concrete file: `sampleNoIdat`, which ends with 3 stray bytes
behind its IEND chunk. -/
theorem no_target_chunk_witness :
    png_fix_IDAT_windowsize envPlain false sampleNoIdat = some ⟨24, none, [.noIDAT]⟩ :=
  no_target_chunk envPlain false sampleNoIdat [sampleText, sampleIend] [0, 0, 0]
    ⟨sampleNoIdat.take BUFSZ, 33, 41, [], 0x3A7E9B55, 33⟩ ⟨1, 8, 8, 2, 2⟩
    rfl (Or.inr rfl) (by rfl) (by rfl)
    (by
      simp only [List.forall_mem_cons, List.not_mem_nil, false_implies, implies_true, and_true]
      exact ⟨⟨sampleText_ok.1, sampleText_ok.2.2, sampleText_ok.2.1⟩,
        (sampleChunks_ok sampleIend (by simp)).1, sampleIend_not_idat,
        (sampleChunks_ok sampleIend (by simp)).2⟩)
    (by decide)

/-! ## Truncated payloads -/

/-- The first-pass loop on a chunk, not an IDAT, whose payload is cut short by
the end of the source: it ends with the `unexpected EOF` line and the count
of missing bytes. -/
theorem scanLoop_trunc (s : Reader) (L : Nat) (typ part : List Nat) (hc : s.Consistent)
    (hL : L < 2^32) (ht4 : typ.length = 4) (ht : U32 typ ≠ IDAT)
    (hu : s.unread = be32 L ++ (typ ++ part)) (ha : part.length < L) (b : Nat) :
    scanLoop (b + 1) s = .ret [.eofMissing (L - part.length)] := by
  obtain ⟨s1, e1, c1, u1, _, _⟩ := GET_U32_be32 false s hc L _ hL hu
  obtain ⟨s2, e2, c2, u2, _, _⟩ :=
    GET_U32_four true { s1 with calc_crc := crc32 0 [] } (resetCrc_consistent s1 _ c1) typ part
      ht4 ((resetCrc_unread s1 _).trans u1)
  unfold scanLoop
  rw [e1]
  simp only []
  rw [e2]
  simp only []
  rw [if_neg ht,
    (skipLoop_spec (s2.infile.length + 1) s2 L c2 (Nat.lt_succ_self _)).2 (by rw [u2]; exact ha)]
  simp only []
  rw [u2]

/-- The chunk loop of `pngsplit` on a chunk whose payload is cut short by the
end of the source: the unit is opened, receives the 8 header bytes and the
payload bytes that exist, and the function returns 21 with the count of
missing bytes; the unit is left open. -/
theorem chunkLoop_trunc (pre : Nat → Nat → Bool) (fl : Nat) (s : Reader) (L : Nat)
    (typ part : List Nat) (num : Nat) (k : Sink)
    (hfl : fl = 0 ∨ fl = 1) (hfree : fl = 1 ∨ ∀ n t, pre n t = false)
    (hk : k.outfile = .null) (hc : s.Consistent)
    (hL : L < 2^32) (ht4 : typ.length = 4)
    (hu : s.unread = be32 L ++ (typ ++ part)) (ha : part.length < L) (b : Nat) :
    chunkLoop pre fl (b + 1) s num k
      = some (21,
          { outfile := .writing (num + 1) (U32 typ) (be32 L ++ be32 (U32 typ) ++ part),
            closed := k.closed },
          [.eofMissing (L - part.length)]) := by
  obtain ⟨s1, e1, c1, u1, _, _⟩ := GET_U32_be32 false s hc L _ hL hu
  obtain ⟨s2, e2, c2, u2, _, _⟩ :=
    GET_U32_four true { s1 with calc_crc := crc32 0 [] } (resetCrc_consistent s1 _ c1) typ part
      ht4 ((resetCrc_unread s1 _).trans u1)
  have hopen := write_open pre fl num L (U32 typ) k hfl hk
    (by rcases hfree with h | h
        · exact Or.inl h
        · exact Or.inr (h _ _))
  unfold chunkLoop
  rw [e1]
  simp only []
  rw [e2]
  simp only []
  rw [hopen]
  simp only [ne_eq, not_true_eq_false, if_false]
  rw [feedLoop_trunc pre fl (num + 1) (s2.infile.length + 1) s2 L
    (Sink.mk (OutFile.writing (num + 1) (U32 typ) (be32 L ++ be32 (U32 typ))) k.closed)
    (num + 1) (U32 typ) (be32 L ++ be32 (U32 typ)) hfl rfl c2 (Nat.lt_succ_self _)
    (by rw [u2]; exact ha)]
  simp only []
  rw [u2]

/-- C11 (truncation detection): when the source ends after `part.length` of
the `L` declared payload bytes of a chunk that follows complete chunks with
right CRCs, the payload loop reports `L - part.length` missing bytes, however
many refills the payload spans.  `pngsplit` (no sink open at the start,
overwriting permitted or no output name taken) returns 21 with that line and
leaves the unit of the chunk open with the bytes that exist;
`png_fix_IDAT_windowsize`, for a chunk that is not an IDAT and stands before
any IDAT, prints that line and `found no IDAT chunks`, returns 24 and creates
no output file. -/
theorem truncation_detection (L : Nat) (typ part : List Nat)
    (envS : SplitEnv) (forceS : Bool) (sig8 : List Nat) (chunks : List Chunk) (k : Sink)
    (envF : Env) (forceF : Bool) (input : List Nat) (mids : List Chunk)
    (s : Reader) (d : Derived)
    (hL : L < 2^32) (ht4 : typ.length = 4) (ha : part.length < L)
    (hopenS : envS.inOpens = true)
    (hsig : sig8 = pngsig ∨ sig8 = mngsig ∨ sig8 = jngsig)
    (hwf : ∀ c ∈ chunks, c.WellFormed ∧ c.CrcOk)
    (hlen : 67 ≤ (sig8 ++ (encode chunks ++ (be32 L ++ (typ ++ part)))).length)
    (hk : k.outfile = .null)
    (hpolS : forceS = true ∨ ∀ n t, envS.pre n t = false)
    (hopenF : envF.inOpens = true) (hpolF : forceF = true ∨ envF.outExists = false)
    (hh : headerPass input = .ok (s, d))
    (hin : input.drop 33 = encode mids ++ (be32 L ++ (typ ++ part)))
    (hm : ∀ m ∈ mids, m.WellFormed ∧ U32 m.typ ≠ IDAT ∧ m.CrcOk) :
    pngsplit envS forceS (sig8 ++ (encode chunks ++ (be32 L ++ (typ ++ part)))) k
      = some (21,
          { outfile := .writing (chunks.length + 1) (U32 typ)
              (be32 L ++ be32 (U32 typ) ++ part),
            closed := k.closed ++ (⟨0, 0, sig8⟩ :: unitsFrom 0 chunks) },
          [.eofMissing (L - part.length)]) ∧
    (U32 typ ≠ IDAT →
      png_fix_IDAT_windowsize envF forceF input
        = some ⟨24, none, [.eofMissing (L - part.length), .noIDAT]⟩) := by
  constructor
  · have hs8 : sig8.length = 8 := by
      rcases hsig with h | h | h <;> rw [h] <;> rfl
    have hfl := force_cases forceS
    have hfree : (if forceS then WR_FORCE else 0) = 1 ∨ ∀ n t, envS.pre n t = false := by
      rcases hpolS with h | h
      · left; rw [h]; rfl
      · right; exact h
    have ht8 : (sig8 ++ (encode chunks ++ (be32 L ++ (typ ++ part)))).take 8 = sig8 :=
      List.take_left' hs8
    have hd8 : (sig8 ++ (encode chunks ++ (be32 L ++ (typ ++ part)))).drop 8
        = encode chunks ++ (be32 L ++ (typ ++ part)) := List.drop_left' hs8
    obtain ⟨hcons, hunread⟩ := startReader_facts _ hlen
    rw [hd8] at hunread
    have hgl : chunks.length
        ≤ (sig8 ++ (encode chunks ++ (be32 L ++ (typ ++ part)))).length := by
      have := encode_length_ge chunks (fun c hc => (hwf c hc).1.1)
      rw [List.length_append, List.length_append]
      omega
    rw [pngsplit_accept envS forceS _ k hopenS hlen (by rw [ht8]; exact hsig), ht8]
    generalize (if forceS then WR_FORCE else 0) = fl at hfl hfree
    rw [write_sig envS.pre fl sig8 k hfl hk
      (by rcases hfree with h | h
          · exact Or.inl h
          · exact Or.inr (h _ _))]
    simp only [ne_eq, not_true_eq_false, if_false]
    obtain ⟨s1, c1, u1, loop⟩ := chunkLoop_prefix envS.pre fl chunks (be32 L ++ (typ ++ part))
      _ 0 { outfile := .null, closed := k.closed ++ [⟨0, 0, sig8⟩] } hfl hfree rfl hcons hwf
      hunread
    have e : (sig8 ++ (encode chunks ++ (be32 L ++ (typ ++ part)))).length + 1
        = chunks.length
          + (((sig8 ++ (encode chunks ++ (be32 L ++ (typ ++ part)))).length - chunks.length)
            + 1) := by omega
    rw [e, loop, chunkLoop_trunc envS.pre fl s1 L typ part (0 + chunks.length) _ hfl hfree rfl
      c1 hL ht4 u1 ha, Nat.zero_add]
    show some (21, Sink.mk _ (k.closed ++ [_] ++ unitsFrom 0 chunks), _) = _
    rw [List.append_assoc k.closed]
    rfl
  · intro ht
    obtain ⟨⟨hc, hle, hu⟩, ho⟩ := headerPass_at input s d hh
    rw [ho, hin] at hu
    obtain ⟨s1, c1, u1, _, loop⟩ := scanLoop_prefix mids _ s hc hm hu
    have hml : mids.length ≤ input.length := by
      have h1 := encode_length_ge mids (fun c hc => (hm c hc).1.1)
      have h2 := congrArg List.length hin
      rw [List.length_drop, List.length_append] at h2
      omega
    have hpol' : (!forceF && envF.outExists) = false := by
      rcases hpolF with h | h <;> rw [h] <;> simp
    unfold png_fix_IDAT_windowsize
    rw [hopenF, hpol']
    simp only [Bool.not_true, Bool.false_eq_true, if_false]
    unfold firstPass
    rw [hh]
    simp only []
    have e : input.length + 1 = mids.length + ((input.length - mids.length) + 1) := by omega
    rw [e, loop, scanLoop_trunc s1 L typ part c1 hL ht4 ht u1 ha]
    rfl

set_option maxRecDepth 1000000 in
/-- C11 at a concrete file: `sampleCutPayload` ends 2 bytes into a payload of
declared length 10; both tools report 8 missing bytes. -/
theorem truncation_detection_witness :
    pngsplit splitEnvFree false
        (pngsig ++ (encode [sampleIhdr, sampleText]
          ++ (be32 10 ++ ([116, 69, 88, 116] ++ [1, 2])))) sinkFresh
      = some (21,
          { outfile := .writing ([sampleIhdr, sampleText].length + 1) (U32 [116, 69, 88, 116])
              (be32 10 ++ be32 (U32 [116, 69, 88, 116]) ++ [1, 2]),
            closed := sinkFresh.closed
              ++ (⟨0, 0, pngsig⟩ :: unitsFrom 0 [sampleIhdr, sampleText]) },
          [.eofMissing (10 - [1, 2].length)]) ∧
    (U32 [116, 69, 88, 116] ≠ IDAT →
      png_fix_IDAT_windowsize envPlain false sampleCutPayload
        = some ⟨24, none, [.eofMissing (10 - [1, 2].length), .noIDAT]⟩) :=
  truncation_detection 10 [116, 69, 88, 116] [1, 2]
    splitEnvFree false pngsig [sampleIhdr, sampleText] sinkFresh
    envPlain false sampleCutPayload [sampleText]
    ⟨sampleCutPayload.take BUFSZ, 33, 36, [], 0x3A7E9B55, 33⟩ ⟨1, 8, 8, 2, 2⟩
    (by decide) rfl (by decide) rfl (Or.inl rfl)
    (by
      simp only [List.forall_mem_cons, List.not_mem_nil, false_implies, implies_true, and_true]
      exact ⟨sampleChunks_ok sampleIhdr (by simp), sampleText_ok.1, sampleText_ok.2.1⟩)
    (by decide) rfl (Or.inr (fun _ _ => rfl)) rfl (Or.inr rfl) (by rfl) (by rfl)
    (by
      simp only [List.forall_mem_cons, List.not_mem_nil, false_implies, implies_true, and_true]
      exact ⟨sampleText_ok.1, sampleText_ok.2.2, sampleText_ok.2.1⟩)

/-! ## Early exits of `pngsplit` -/

/-- The chunk loop of `pngsplit` on a source with fewer than 8 bytes left: the
loop ends and the function returns 0, whether the source ends at a chunk
boundary or inside a length or type field. -/
theorem chunkLoop_eof (pre : Nat → Nat → Bool) (fl : Nat) (s : Reader) (num : Nat) (k : Sink)
    (hc : s.Consistent) (h : s.unread.length < 8) (b : Nat) :
    chunkLoop pre fl (b + 1) s num k = some (0, k, []) := by
  unfold chunkLoop
  cases h1 : GET_U32 false s with
  | none => rfl
  | some p1 =>
    obtain ⟨chunklen, s1⟩ := p1
    obtain ⟨l1, _, c1, u1, _, _⟩ := GET_U32_inv false s s1 chunklen hc h1
    simp only []
    rw [GET_U32_none true _ (resetCrc_consistent s1 _ c1)
      (by rw [resetCrc_unread, u1, List.length_drop]; omega)]

/-- Whenever the source of `pngsplit` ends inside the length or type field of
a chunk (fewer than 8 bytes behind complete chunks with right CRCs), the
function returns 0 with the same units and the same silence as on a source
that ends at the chunk boundary. -/
theorem pngsplit_eof_in_header_field (env : SplitEnv) (force : Bool) (sig8 : List Nat)
    (chunks : List Chunk) (part : List Nat) (k : Sink)
    (hopen : env.inOpens = true)
    (hsig : sig8 = pngsig ∨ sig8 = mngsig ∨ sig8 = jngsig)
    (hwf : ∀ c ∈ chunks, c.WellFormed ∧ c.CrcOk)
    (hlen : 67 ≤ (sig8 ++ (encode chunks ++ part)).length)
    (hk : k.outfile = .null)
    (hpol : force = true ∨ ∀ n t, env.pre n t = false)
    (hpart : part.length < 8) :
    pngsplit env force (sig8 ++ (encode chunks ++ part)) k
      = some (0, { outfile := .null,
                   closed := k.closed ++ (⟨0, 0, sig8⟩ :: unitsFrom 0 chunks) }, []) := by
  have hs8 : sig8.length = 8 := by
    rcases hsig with h | h | h <;> rw [h] <;> rfl
  have hfl := force_cases force
  have hfree : (if force then WR_FORCE else 0) = 1 ∨ ∀ n t, env.pre n t = false := by
    rcases hpol with h | h
    · left; rw [h]; rfl
    · right; exact h
  have ht8 : (sig8 ++ (encode chunks ++ part)).take 8 = sig8 := List.take_left' hs8
  have hd8 : (sig8 ++ (encode chunks ++ part)).drop 8 = encode chunks ++ part :=
    List.drop_left' hs8
  obtain ⟨hcons, hunread⟩ := startReader_facts _ hlen
  rw [hd8] at hunread
  have hgl : chunks.length ≤ (sig8 ++ (encode chunks ++ part)).length := by
    have := encode_length_ge chunks (fun c hc => (hwf c hc).1.1)
    rw [List.length_append, List.length_append]
    omega
  rw [pngsplit_accept env force _ k hopen hlen (by rw [ht8]; exact hsig), ht8]
  generalize (if force then WR_FORCE else 0) = fl at hfl hfree
  rw [write_sig env.pre fl sig8 k hfl hk
    (by rcases hfree with h | h
        · exact Or.inl h
        · exact Or.inr (h _ _))]
  simp only [ne_eq, not_true_eq_false, if_false]
  obtain ⟨s1, c1, u1, loop⟩ := chunkLoop_prefix env.pre fl chunks part
    _ 0 { outfile := .null, closed := k.closed ++ [⟨0, 0, sig8⟩] } hfl hfree rfl hcons hwf
    hunread
  have e : (sig8 ++ (encode chunks ++ part)).length + 1
      = chunks.length + (((sig8 ++ (encode chunks ++ part)).length - chunks.length) + 1) := by
    omega
  rw [e, loop, chunkLoop_eof env.pre fl s1 _ _ c1 (by rw [u1]; exact hpart)]
  show some (0, Sink.mk _ (k.closed ++ [_] ++ unitsFrom 0 chunks), _) = _
  rw [List.append_assoc k.closed]
  rfl

/-- Whenever the output name of the signature unit is taken and `-force` is
not given, `pngsplit` returns 18 on an input that passes the signature test:
no unit is written, no chunk is framed, and the static `outfile` is left at
the stream that was opened for the test and closed again. -/
theorem pngsplit_sig_refused (env : SplitEnv) (input : List Nat) (k : Sink)
    (hopen : env.inOpens = true) (hlen : 67 ≤ input.length)
    (hsig : input.take 8 = pngsig ∨ input.take 8 = mngsig ∨ input.take 8 = jngsig)
    (hk : k.outfile = .null) (hpre : env.pre 0 0 = true) :
    pngsplit env false input k
      = some (18, { k with outfile := .stale }, [.existsNotOverwriting]) := by
  rw [pngsplit_accept env false input k hopen hlen hsig]
  unfold write_chunk_to_file
  simp [hk, hpre, WR_OPEN, WR_FORCE, WR_CLOSE, flag_facts]

set_option maxRecDepth 1000000 in
/-- C12 at the failing inputs: on a source that ends inside the length field
of a chunk (`sampleCutLength`), inside its type field (`sampleCutType`) or
inside its CRC field (`sampleCutCrc`), `pngsplit` returns 0 and prints
nothing; in the last case the unit of the chunk is left open. -/
theorem split_truncated_field_returns_zero :
    (∃ k1, pngsplit splitEnvFree false sampleCutLength sinkFresh = some (0, k1, [])) ∧
    (∃ k1, pngsplit splitEnvFree false sampleCutType sinkFresh = some (0, k1, [])) ∧
    (∃ closed, pngsplit splitEnvFree false sampleCutCrc sinkFresh
      = some (0, ⟨.writing 4 (U32 [73, 69, 78, 68]) [0, 0, 0, 0, 73, 69, 78, 68], closed⟩, [])) ∧
    sampleCutLength.length = 69 ∧ sampleCutType.length = 73 ∧ sampleCutCrc.length = 84 := by
  refine ⟨⟨_, by rfl⟩, ⟨_, by rfl⟩, ⟨_, by rfl⟩, by rfl, by rfl, by rfl⟩

set_option maxRecDepth 1000000 in
/-- C15 at the failing inputs: without `-force`, when the output name of the
signature unit is taken, `pngsplit` returns 18 on `sampleNonCanonical` and
writes no unit at all; when the name of unit 2 (the IDAT) is taken, it
returns 19 after the units 0 and 1, and the IDAT and IEND chunks are never
framed. -/
theorem split_overwrite_refusal_aborts :
    pngsplit splitEnvSigTaken false sampleNonCanonical sinkFresh
      = some (18, ⟨.stale, []⟩, [.existsNotOverwriting]) ∧
    pngsplit splitEnvUnit2Taken false sampleNonCanonical sinkFresh
      = some (19, ⟨.stale, [⟨0, 0, pngsig⟩, ⟨1, IHDR, sampleIhdr.bytes⟩]⟩,
          [.existsNotOverwriting]) := by
  refine ⟨by rfl, by rfl⟩

set_option maxRecDepth 1000000 in
/-- C16 at the failing inputs: `sampleNonCanonical` is split with code 0 by a
fresh process, but with code 18 and the `logic error` line, writing nothing,
when the same process has split `sampleCutPayload` (code 21) before, and
likewise after a call that ended in an overwrite refusal. -/
theorem split_state_leaks_across_files :
    (∃ k0, pngsplit splitEnvFree false sampleNonCanonical sinkFresh = some (0, k0, [])) ∧
    (∃ k1, pngsplit splitEnvFree false sampleCutPayload sinkFresh
        = some (21, k1, [.eofMissing 8]) ∧
      pngsplit splitEnvFree false sampleNonCanonical k1 = some (18, k1, [.logicStillOpen])) ∧
    (∃ k2, pngsplit splitEnvSigTaken false sampleCanonical sinkFresh
        = some (18, k2, [.existsNotOverwriting]) ∧
      pngsplit splitEnvFree false sampleNonCanonical k2 = some (18, k2, [.logicStillOpen])) := by
  refine ⟨⟨_, by rfl⟩, ⟨_, by rfl, by rfl⟩, ⟨_, by rfl, by rfl⟩⟩

set_option maxRecDepth 1000000 in
/-- C17 at the failing inputs: `pngsplit` returns with the static `outfile`
not `NULL` after a truncated payload (code 21, the unit of the chunk still
open), after a source that ends inside a CRC field (code 0, the unit still
open), and after an overwrite refusal (code 18, the pointer left at the
closed stream). -/
theorem split_sink_left_open :
    (∃ k1, pngsplit splitEnvFree false sampleCutPayload sinkFresh
        = some (21, k1, [.eofMissing 8]) ∧
      k1.outfile = .writing 3 (U32 [116, 69, 88, 116]) [0, 0, 0, 10, 116, 69, 88, 116, 1, 2]) ∧
    (∃ k1, pngsplit splitEnvFree false sampleCutCrc sinkFresh = some (0, k1, []) ∧
      k1.outfile = .writing 4 (U32 [73, 69, 78, 68]) [0, 0, 0, 0, 73, 69, 78, 68]) ∧
    (∃ k1, pngsplit splitEnvSigTaken false sampleNonCanonical sinkFresh
        = some (18, k1, [.existsNotOverwriting]) ∧
      k1.outfile = .stale) := by
  refine ⟨⟨_, by rfl, by rfl⟩, ⟨_, by rfl, by rfl⟩, ⟨_, by rfl, by rfl⟩⟩

/-! ## Outcomes of `png_fix_IDAT_windowsize` -/

/-- The ways the second pass can end: an error without output file, the
`skipping` note without output file, or an output file, which exists only
after seek, allocation, the CRC test of the first IDAT, the test of its two
header bytes and `fopen(outname, "wb")` have all succeeded. -/
theorem secondPass_cases (env : Env) (input : List Nat) (f : Found) (r : Result)
    (h : secondPass env input f = some r) :
    (r.code ≠ 0 ∧ r.code ≠ 27 ∧ r.outfile = none) ∨
    r = ⟨0, none, [.noteSkipping]⟩ ∨
    (∃ out, r.outfile = some out ∧ ((r.code = 0 ∧ r.stderr = []) ∨ r.code = 27) ∧
      env.seekOk = true ∧ env.mallocOk = true ∧ env.outOpens = true ∧
      crc32 (crc32 0 []) (((readCbuf env input f).drop 4).take (f.chunklen + 4))
        = U32 ((readCbuf env input f).drop (4 + f.chunklen + 4)) ∧
      ((readCbuf env input f).getD 8 0 ≠ 0x78 ∨ (readCbuf env input f).getD 9 0 ≠ 0x9c)) := by
  unfold secondPass at h
  by_cases h1 : (!env.seekOk) = true
  · rw [if_pos h1] at h; cases h; exact Or.inl ⟨by decide, by decide, rfl⟩
  rw [if_neg h1] at h
  by_cases h2 : (!env.mallocOk) = true
  · rw [if_pos h2] at h; cases h; exact Or.inl ⟨by decide, by decide, rfl⟩
  rw [if_neg h2] at h
  simp only [] at h
  have hs : env.seekOk = true := by simpa using h1
  have hm : env.mallocOk = true := by simpa using h2
  by_cases h3 : crc32 (crc32 0 []) (((readCbuf env input f).drop 4).take (f.chunklen + 4))
      ≠ U32 ((readCbuf env input f).drop (4 + f.chunklen + 4))
  · rw [if_pos h3] at h; cases h; exact Or.inl ⟨by simp, by simp, rfl⟩
  rw [if_neg h3] at h
  have h3' := not_not.mp h3
  by_cases h4 : (readCbuf env input f).getD 8 0 ≠ 0x78 ∨ (readCbuf env input f).getD 9 0 ≠ 0x9c
  · rw [if_pos h4] at h
    by_cases h5 : (!env.outOpens) = true
    · rw [if_pos h5] at h; cases h; exact Or.inl ⟨by decide, by decide, rfl⟩
    rw [if_neg h5] at h
    have ho : env.outOpens = true := by simpa using h5
    rw [copyHead_eq _ _ _ _ (by omega)] at h
    by_cases h6 : input.length < f.file_offset_IDATs
    · rw [decide_eq_true h6] at h
      simp only [] at h
      cases h
      exact Or.inr (Or.inr ⟨_, rfl, Or.inr rfl, hs, hm, ho, h3', h4⟩)
    · rw [decide_eq_false h6] at h
      simp only [] at h
      rw [copyTail_eq _ _ _ (by omega)] at h
      cases h
      exact Or.inr (Or.inr ⟨_, rfl, Or.inl ⟨rfl, rfl⟩, hs, hm, ho, h3', h4⟩)
  · rw [if_neg h4] at h
    cases h
    exact Or.inr (Or.inl rfl)

/-- The ways `png_fix_IDAT_windowsize` can end: an error without output file,
the `skipping` note with code 0 and without output file, or an output file,
which exists only after the input was opened, the output name was not
refused and the header checks, the search for the first IDAT, seek,
allocation, the CRC test of that IDAT, the test of its two header bytes and
`fopen(outname, "wb")` have all succeeded. -/
theorem png_fix_cases (env : Env) (force : Bool) (input : List Nat) (r : Result)
    (h : png_fix_IDAT_windowsize env force input = some r) :
    (r.code ≠ 0 ∧ r.code ≠ 27 ∧ r.outfile = none) ∨
    r = ⟨0, none, [.noteSkipping]⟩ ∨
    (∃ out s d f, r.outfile = some out ∧ ((r.code = 0 ∧ r.stderr = []) ∨ r.code = 27) ∧
      env.inOpens = true ∧ (force = true ∨ env.outExists = false) ∧
      headerPass input = .ok (s, d) ∧ firstPass input = some (.ok f) ∧
      env.seekOk = true ∧ env.mallocOk = true ∧ env.outOpens = true ∧
      crc32 (crc32 0 []) (((readCbuf env input f).drop 4).take (f.chunklen + 4))
        = U32 ((readCbuf env input f).drop (4 + f.chunklen + 4)) ∧
      ((readCbuf env input f).getD 8 0 ≠ 0x78 ∨ (readCbuf env input f).getD 9 0 ≠ 0x9c)) := by
  unfold png_fix_IDAT_windowsize at h
  by_cases h1 : (!env.inOpens) = true
  · rw [if_pos h1] at h; cases h; exact Or.inl ⟨by decide, by decide, rfl⟩
  rw [if_neg h1] at h
  by_cases h2 : (!force && env.outExists) = true
  · rw [if_pos h2] at h; cases h; exact Or.inl ⟨by decide, by decide, rfl⟩
  rw [if_neg h2] at h
  have hi : env.inOpens = true := by simpa using h1
  have hp : force = true ∨ env.outExists = false := by
    cases force <;> cases hx : env.outExists <;> simp [hx] at h2 ⊢
  rcases firstPass_total input with ⟨c, m, hh, hf⟩ | ⟨s, d, hh, ⟨msgs, hf⟩ | ⟨f, hf⟩⟩
  · rw [hf] at h
    cases h
    have hc := headerPass_error_code input c m hh
    refine Or.inl ⟨hc, ?_, rfl⟩
    show c ≠ 27
    rw [headerPass_eq] at hh
    split at hh
    · cases hh; decide
    split at hh
    · cases hh; decide
    split at hh
    · cases hh; decide
    split at hh
    · rename_i e he
      cases hh
      have := ihdrStage_error_codes _ _ _ _ _ _ he
      omega
    · cases hh
  · rw [hf] at h
    cases h
    exact Or.inl ⟨by simp, by simp, rfl⟩
  · rw [hf] at h
    rcases secondPass_cases env input f r h with h' | h' | ⟨out, e1, e2, e3, e4, e5, e6, e7⟩
    · exact Or.inl h'
    · exact Or.inr (Or.inl h')
    · exact Or.inr (Or.inr ⟨out, s, d, f, e1, e2, hi, hp, hh, hf, e3, e4, e5, e6, e7⟩)

/-- C27 (validation failures leave no output): `png_fix_IDAT_windowsize`
always returns, and whenever its code is neither 0 nor 27 it has not created
the output file.  An output file exists only when the input was opened, the
output name was not refused, the header checks passed, the first IDAT was
found, seek and allocation succeeded, the stored CRC of that IDAT equals the
computed one, its two header bytes are not `0x78 0x9C`, and
`fopen(outname, "wb")` succeeded. -/
theorem validation_failures_leave_no_output (env : Env) (force : Bool) (input : List Nat) :
    ∃ r, png_fix_IDAT_windowsize env force input = some r ∧
      (r.code ≠ 0 → r.code ≠ 27 → r.outfile = none) ∧
      (r.outfile ≠ none →
        ∃ s d f, env.inOpens = true ∧ (force = true ∨ env.outExists = false) ∧
          headerPass input = .ok (s, d) ∧ firstPass input = some (.ok f) ∧
          env.seekOk = true ∧ env.mallocOk = true ∧ env.outOpens = true ∧
          crc32 (crc32 0 []) (((readCbuf env input f).drop 4).take (f.chunklen + 4))
            = U32 ((readCbuf env input f).drop (4 + f.chunklen + 4)) ∧
          ((readCbuf env input f).getD 8 0 ≠ 0x78 ∨
            (readCbuf env input f).getD 9 0 ≠ 0x9c)) := by
  obtain ⟨r, h, _⟩ := png_fix_total env force input
  refine ⟨r, h, ?_⟩
  rcases png_fix_cases env force input r h with ⟨_, _, h3⟩ | h' |
    ⟨out, s, d, f, e1, e2, e3, e4, e5, e6, e7, e8, e9, e10, e11⟩
  · exact ⟨fun _ _ => h3, fun hn => absurd h3 hn⟩
  · subst h'
    exact ⟨fun _ _ => rfl, fun hn => absurd rfl hn⟩
  · refine ⟨?_, fun _ => ⟨s, d, f, e3, e4, e5, e6, e7, e8, e9, e10, e11⟩⟩
    intro h0 h27
    rcases e2 with ⟨h, _⟩ | h
    · exact absurd h h0
    · exact absurd h h27

/-- C21 (status of the no-op): `png_fix_IDAT_windowsize` always returns, and
whenever its code is 0 the run is either the no-op, with the `skipping` note
and no output file, or a patch, with an output file and nothing on `stderr`.
The two outcomes carry the same code 0 and differ in the note and in the
output file only. -/
theorem success_outcomes (env : Env) (force : Bool) (input : List Nat) :
    ∃ r, png_fix_IDAT_windowsize env force input = some r ∧
      (r.code = 0 →
        r = ⟨0, none, [.noteSkipping]⟩ ∨ ∃ out, r = ⟨0, some out, []⟩) := by
  obtain ⟨r, h, _⟩ := png_fix_total env force input
  refine ⟨r, h, ?_⟩
  intro h0
  rcases png_fix_cases env force input r h with ⟨hn, _, _⟩ | h' |
    ⟨out, s, d, f, e1, e2, _⟩
  · exact absurd h0 hn
  · exact Or.inl h'
  · right
    rcases e2 with ⟨hc, hs⟩ | hc
    · refine ⟨out, ?_⟩
      obtain ⟨c, o, m⟩ := r
      simp only at e1 hc hs
      rw [e1, hc, hs]
    · rw [hc] at h0
      cases h0

set_option maxRecDepth 1000000 in
/-- C21 at the two sample files: the already-canonical `sampleCanonical` and
the patched `sampleNonCanonical` both end with the return value 0. -/
theorem noop_and_patch_same_code :
    png_fix_IDAT_windowsize envPlain false sampleCanonical
      = some ⟨0, none, [.noteSkipping]⟩ ∧
    png_fix_IDAT_windowsize envPlain false sampleNonCanonical
      = some ⟨0, some sampleCanonical, []⟩ ∧
    (png_fix_IDAT_windowsize envPlain false sampleCanonical).map Result.code
      = (png_fix_IDAT_windowsize envPlain false sampleNonCanonical).map Result.code := by
  refine ⟨by rfl, by rfl, by rfl⟩

/-! ## The truncated first IDAT and the CRC lines on the sample files -/

set_option maxRecDepth 1000000 in
/-- C24 at the failing input: the first IDAT of `sampleTruncated` declares 2
payload bytes but the file ends behind its 8 header bytes; with `staleBlock`
in the allocated block the function returns 0, and the last 6 bytes of its
output, the payload and the CRC of the IDAT, were never read from the input.
With zeros in the allocated block the CRC test fails and the code is 23. -/
theorem truncated_idat_emits_unread_bytes :
    firstPass sampleTruncated = some (.ok ⟨2, IDAT, 59⟩) ∧
    sampleTruncated.length < 59 + 2 + 12 ∧
    png_fix_IDAT_windowsize envStale false sampleTruncated
      = some ⟨0, some (sampleTruncated ++ [120, 156, 98, 164, 145, 43]), []⟩ ∧
    (readCbuf envStale sampleTruncated ⟨2, IDAT, 59⟩).drop 8 = staleBlock.drop 8 ∧
    png_fix_IDAT_windowsize envPlain false sampleTruncated
      = some ⟨23, none, [.badCrc IDAT 0 0]⟩ := by
  refine ⟨by rfl, by decide, by rfl, by rfl, by rfl⟩

set_option maxRecDepth 1000000 in
/-- C29 at the failing inputs: for the wrong CRC `0x12345678` of the IDAT of
`sampleBadIdatCrc`, whose computed CRC is `0x328E80BF`, and for the wrong CRC
of the `tEXt` chunk of `sampleBadTextCrc`, whose computed CRC is `0x297E4D3A`,
the line of `png_fix_IDAT_windowsize` carries the stored CRC in both places;
the line of `pngsplit` carries the computed and the stored one. -/
theorem crc_diagnostic_prints_stored_twice :
    png_fix_IDAT_windowsize envPlain false sampleBadIdatCrc
      = some ⟨23, none, [.badCrc IDAT 0x12345678 0x12345678]⟩ ∧
    crc32 0 (sampleIdatBadCrc.typ ++ sampleIdatBadCrc.data) = 0x328E80BF ∧
    png_fix_IDAT_windowsize envPlain false sampleBadTextCrc
      = some ⟨24, none, [.badCrc (U32 [116, 69, 88, 116]) 0x297E4D00 0x297E4D00, .noIDAT]⟩ ∧
    crc32 0 ([116, 69, 88, 116] ++ [84, 105, 116, 108, 101, 0, 120]) = 0x297E4D3A ∧
    (∃ k1, pngsplit splitEnvFree false sampleBadIdatCrc sinkFresh
      = some (24, k1, [.badCrc IDAT 0x328E80BF 0x12345678])) := by
  refine ⟨by rfl, by rfl, by rfl, by rfl, ⟨_, by rfl⟩⟩


/-! ## `pngsplit` and the header chunk -/

/-- The function `pngsplit` on a signature followed by complete chunks with
right CRCs: it returns 0 and every chunk has become one unit. -/
theorem pngsplit_chunks (env : SplitEnv) (force : Bool) (sig8 : List Nat)
    (chunks : List Chunk) (k : Sink)
    (hopen : env.inOpens = true)
    (hsig : sig8 = pngsig ∨ sig8 = mngsig ∨ sig8 = jngsig)
    (hwf : ∀ c ∈ chunks, c.WellFormed ∧ c.CrcOk)
    (hlen : 67 ≤ (sig8 ++ encode chunks).length)
    (hk : k.outfile = .null)
    (hpol : force = true ∨ ∀ n t, env.pre n t = false) :
    pngsplit env force (sig8 ++ encode chunks) k
      = some (0, { outfile := .null,
                   closed := k.closed ++ (⟨0, 0, sig8⟩ :: unitsFrom 0 chunks) }, []) := by
  have h := pngsplit_eof_in_header_field env force sig8 chunks [] k hopen hsig hwf
    (by rw [List.append_nil]; exact hlen) hk hpol (by decide)
  rw [List.append_nil] at h
  exact h

/-- C28 (the header chunk in `pngsplit`): for every IHDR chunk with the right
CRC, whatever width, height, depth and colour type it declares, followed by
complete chunks with right CRCs whose types are made of letters, `pngsplit`
(input opens, no sink open, overwriting permitted or no output name taken)
returns 0 without any line on `stderr` and has written the signature as
unit 0, the IHDR chunk as unit 1 and every further chunk as a unit of its
own: it does not interpret the header chunk. -/
theorem split_ignores_header_fields (env : SplitEnv) (force : Bool)
    (width height depth colortype cm fm il : Nat) (chunks : List Chunk) (k : Sink)
    (hopen : env.inOpens = true)
    (hd : depth < 256) (hct : colortype < 256) (hcm : cm < 256) (hfm : fm < 256)
    (hil : il < 256)
    (hwf : ∀ c ∈ chunks, c.WellFormed ∧ c.CrcOk)
    (hty : ∀ c ∈ chunks, c.LetterType)
    (hlen : 67 ≤ (pngsig ++ encode (ihdrChunk width height depth colortype cm fm il
      :: chunks)).length)
    (hk : k.outfile = .null)
    (hpol : force = true ∨ ∀ n t, env.pre n t = false) :
    pngsplit env force
        (pngsig ++ encode (ihdrChunk width height depth colortype cm fm il :: chunks)) k
      = some (0,
          { outfile := .null,
            closed := k.closed ++ (⟨0, 0, pngsig⟩
              :: ⟨1, IHDR, (ihdrChunk width height depth colortype cm fm il).bytes⟩
              :: unitsFrom 1 chunks) }, []) := by
  have h0 := ihdrChunk_wellFormed width height depth colortype cm fm il hd hct hcm hfm hil
  exact pngsplit_chunks env force pngsig _ k hopen (Or.inl rfl)
    (by
      intro c hc
      rcases List.mem_cons.mp hc with h | h
      · rw [h]; exact ⟨h0, rfl⟩
      · exact hwf c h)
    hlen hk hpol

set_option maxRecDepth 1000000 in
/-- C28 at a concrete file: `sampleHugeHeader`, whose IHDR declares width and
height `0xFFFFFFFF`, depth 16 and colour type 6. -/
theorem split_ignores_header_fields_witness :
    pngsplit splitEnvFree false
        (pngsig ++ encode (ihdrChunk 0xFFFFFFFF 0xFFFFFFFF 16 6 0 0 0
          :: [sampleIdat, sampleIend])) sinkFresh
      = some (0,
          { outfile := .null,
            closed := sinkFresh.closed ++ (⟨0, 0, pngsig⟩
              :: ⟨1, IHDR, (ihdrChunk 0xFFFFFFFF 0xFFFFFFFF 16 6 0 0 0).bytes⟩
              :: unitsFrom 1 [sampleIdat, sampleIend]) }, []) :=
  split_ignores_header_fields splitEnvFree false 0xFFFFFFFF 0xFFFFFFFF 16 6 0 0 0
    [sampleIdat, sampleIend] sinkFresh rfl (by decide) (by decide) (by decide) (by decide)
    (by decide)
    (by
      intro c hc
      exact sampleChunks_ok c (List.mem_cons_of_mem _ hc))
    (by
      intro c hc
      exact sampleChunks_letters c (List.mem_cons_of_mem _ hc))
    (by decide) rfl (Or.inr (fun _ _ => rfl))

set_option maxRecDepth 1000000 in
/-- C28 at the sample file: on `sampleHugeHeader`, whose IHDR declares width
and height `0xFFFFFFFF`, depth 16 and colour type 6, so that the bytes of a
row times the height do not fit a 64-bit `long`, `pngsplit` returns 0 without
any line on `stderr` and writes the signature and the three chunks, the IHDR
among them, as the units 0, 1, 2 and 3. -/
theorem split_accepts_overflowing_header :
    2^63 ≤ rowBytes 0xFFFFFFFF (16 * channelsOf 6) * 0xFFFFFFFF ∧
    (∃ u0 u1 u2 u3, pngsplit splitEnvFree false sampleHugeHeader sinkFresh
        = some (0, ⟨.null, [u0, u1, u2, u3]⟩, []) ∧
      u0.bytes = pngsig ∧
      u1.bytes = (ihdrChunk 0xFFFFFFFF 0xFFFFFFFF 16 6 0 0 0).bytes ∧
      u2.bytes = sampleIdat.bytes ∧ u3.bytes = sampleIend.bytes) := by
  refine ⟨by decide, ⟨_, _, _, _, by rfl, by rfl, by rfl, by rfl, by rfl⟩⟩

/-! ## The offset counter of the first pass -/

/-- C22 (offset tracking): on every file made of the PNG signature, an IHDR
chunk with legal fields, chunks that are not IDATs with the right CRCs, and
an IDAT chunk, the header checks leave the reader in step with the input at
offset 33; every `GET_U32` that succeeds on a reader in step with the input,
whether its four bytes lie in the window or cross a refill, leaves the reader
in step and adds 4 to `file_offset`; the payload loop with the statements
behind it leaves the reader in step and adds the payload length; and the first
pass records for the IDAT its declared length and the offset
`33 + (encode mids).length`, which is the offset at which the bytes of the
IDAT chunk, its length field first, lie in the input. -/
theorem offset_tracking (width height depth colortype cm fm il : Nat) (mids : List Chunk)
    (idat : Chunk) (tail : List Nat)
    (hw0 : 0 < width) (hw : width < 2^32) (hh0 : 0 < height) (hh : height < 2^32)
    (hcm : cm < 256) (hfm : fm < 256) (hil : il < 256)
    (hl : LegalPair colortype depth)
    (hov : ¬ LongOverflow width height (depth * channelsOf colortype))
    (hm : ∀ m ∈ mids, m.WellFormed ∧ U32 m.typ ≠ IDAT ∧ m.CrcOk)
    (hi : idat.WellFormed) (hit : U32 idat.typ = IDAT)
    (hlen : 67 ≤ (layout pngsig (ihdrChunk width height depth colortype cm fm il) mids idat
      tail).length) :
    (∃ s d, headerPass (layout pngsig (ihdrChunk width height depth colortype cm fm il) mids
        idat tail) = .ok (s, d) ∧
      s.At (layout pngsig (ihdrChunk width height depth colortype cm fm il) mids idat tail) ∧
      s.file_offset = 33) ∧
    (∀ (docrc : Bool) (r r' : Reader) (v : Nat),
      r.At (layout pngsig (ihdrChunk width height depth colortype cm fm il) mids idat tail) →
      GET_U32 docrc r = some (v, r') →
      r'.At (layout pngsig (ihdrChunk width height depth colortype cm fm il) mids idat tail) ∧
      r'.file_offset = r.file_offset + 4) ∧
    (∀ (r r3 : Reader) (len len3 : Nat),
      r.At (layout pngsig (ihdrChunk width height depth colortype cm fm il) mids idat tail) →
      skipLoop (r.infile.length + 1) r len = .go (r3, len3) →
      (afterPayload r3 len3).At
        (layout pngsig (ihdrChunk width height depth colortype cm fm il) mids idat tail) ∧
      (afterPayload r3 len3).file_offset = r.file_offset + len) ∧
    firstPass (layout pngsig (ihdrChunk width height depth colortype cm fm il) mids idat tail)
      = some (.ok ⟨idat.data.length, IDAT, 33 + (encode mids).length⟩) ∧
    (layout pngsig (ihdrChunk width height depth colortype cm fm il) mids idat tail).take
      (33 + (encode mids).length)
      = pngsig ++ (ihdrChunk width height depth colortype cm fm il).bytes ++ encode mids ∧
    ((layout pngsig (ihdrChunk width height depth colortype cm fm il) mids idat tail).drop
      (33 + (encode mids).length)).take (idat.data.length + 12) = idat.bytes ∧
    ((layout pngsig (ihdrChunk width height depth colortype cm fm il) mids idat tail).drop
      (33 + (encode mids).length)).take 4 = be32 idat.data.length := by
  have hd256 : depth < 256 := by unfold LegalPair at hl; omega
  have hct256 : colortype < 256 := by unfold LegalPair at hl; omega
  have hstage := ihdrStage_legal width height depth colortype hw hw0 hh0 hl
  have hhead := headerPass_ihdr width height depth colortype cm fm il
    (encode mids ++ (idat.bytes ++ tail)) hw hh hd256 hct256 hcm hfm hil hlen
  rw [hstage] at hhead
  simp only [] at hhead
  have h0wf := ihdrChunk_wellFormed width height depth colortype cm fm il hd256 hct256 hcm hfm hil
  have hlay : layout pngsig (ihdrChunk width height depth colortype cm fm il) mids idat tail
      = pngsig ++ (ihdrChunk width height depth colortype cm fm il).bytes
        ++ (encode mids ++ (idat.bytes ++ tail)) := rfl
  rw [← hlay] at hhead
  obtain ⟨_, h13, sc1, _⟩ := scan_layout pngsig _ mids idat tail rfl h0wf
    (fun m hmem => ⟨(hm m hmem).1, (hm m hmem).2.1⟩) hi hit _ _ hhead
  obtain ⟨hat, hoff⟩ := headerPass_at _ _ _ hhead
  obtain ⟨_, hr, _⟩ := layout_idat_reads pngsig _ mids idat tail rfl h0wf.1 h13 hi.1
  have hpre : (pngsig ++ (ihdrChunk width height depth colortype cm fm il).bytes
      ++ encode mids).length = 33 + (encode mids).length := by
    rw [List.length_append, List.length_append, Chunk.bytes_length _ h0wf.1, h13]
    rfl
  have hlay2 : layout pngsig (ihdrChunk width height depth colortype cm fm il) mids idat tail
      = (pngsig ++ (ihdrChunk width height depth colortype cm fm il).bytes ++ encode mids)
        ++ (idat.bytes ++ tail) := by
    rw [hlay]; simp only [List.append_assoc]
  refine ⟨⟨_, _, hhead, hat, hoff⟩, ?_, ?_, ?_, ?_, hr, ?_⟩
  · intro docrc r r' v ha h
    obtain ⟨a, o, _⟩ := GET_U32_at docrc r r' v _ ha h
    exact ⟨a, o⟩
  · intro r r3 len len3 ha h
    obtain ⟨a, o, _⟩ := skipPayload_at r r3 len len3 _ ha h
    exact ⟨a, o⟩
  · unfold firstPass
    rw [hhead]
    simp only []
    rw [sc1 (fun m hmem => (hm m hmem).2.2)]
  · rw [hlay2, ← hpre, List.take_left]
  · have h4 : ((layout pngsig (ihdrChunk width height depth colortype cm fm il) mids idat
        tail).drop (33 + (encode mids).length)).take 4
        = (((layout pngsig (ihdrChunk width height depth colortype cm fm il) mids idat
          tail).drop (33 + (encode mids).length)).take (idat.data.length + 12)).take 4 := by
      rw [List.take_take, Nat.min_eq_left (by omega)]
    rw [h4, hr]
    unfold Chunk.bytes
    rw [List.append_assoc, List.append_assoc, List.take_left' (be32_length _)]

set_option maxRecDepth 1000000 in
/-- C22 at a concrete file: the signature, the IHDR of the sample files, the
chunk `sampleText`, the IDAT `sampleIdat` at offset 59 and the IEND chunk. -/
theorem offset_tracking_witness :
    (∃ s d, headerPass (layout pngsig (ihdrChunk 1 1 8 0 0 0 0) [sampleText] sampleIdat
        sampleIend.bytes) = .ok (s, d) ∧
      s.At (layout pngsig (ihdrChunk 1 1 8 0 0 0 0) [sampleText] sampleIdat sampleIend.bytes) ∧
      s.file_offset = 33) ∧
    (∀ (docrc : Bool) (r r' : Reader) (v : Nat),
      r.At (layout pngsig (ihdrChunk 1 1 8 0 0 0 0) [sampleText] sampleIdat sampleIend.bytes) →
      GET_U32 docrc r = some (v, r') →
      r'.At (layout pngsig (ihdrChunk 1 1 8 0 0 0 0) [sampleText] sampleIdat sampleIend.bytes) ∧
      r'.file_offset = r.file_offset + 4) ∧
    (∀ (r r3 : Reader) (len len3 : Nat),
      r.At (layout pngsig (ihdrChunk 1 1 8 0 0 0 0) [sampleText] sampleIdat sampleIend.bytes) →
      skipLoop (r.infile.length + 1) r len = .go (r3, len3) →
      (afterPayload r3 len3).At
        (layout pngsig (ihdrChunk 1 1 8 0 0 0 0) [sampleText] sampleIdat sampleIend.bytes) ∧
      (afterPayload r3 len3).file_offset = r.file_offset + len) ∧
    firstPass (layout pngsig (ihdrChunk 1 1 8 0 0 0 0) [sampleText] sampleIdat sampleIend.bytes)
      = some (.ok ⟨sampleIdat.data.length, IDAT, 33 + (encode [sampleText]).length⟩) ∧
    (layout pngsig (ihdrChunk 1 1 8 0 0 0 0) [sampleText] sampleIdat sampleIend.bytes).take
      (33 + (encode [sampleText]).length)
      = pngsig ++ (ihdrChunk 1 1 8 0 0 0 0).bytes ++ encode [sampleText] ∧
    ((layout pngsig (ihdrChunk 1 1 8 0 0 0 0) [sampleText] sampleIdat sampleIend.bytes).drop
      (33 + (encode [sampleText]).length)).take (sampleIdat.data.length + 12)
        = sampleIdat.bytes ∧
    ((layout pngsig (ihdrChunk 1 1 8 0 0 0 0) [sampleText] sampleIdat sampleIend.bytes).drop
      (33 + (encode [sampleText]).length)).take 4 = be32 sampleIdat.data.length :=
  offset_tracking 1 1 8 0 0 0 0 [sampleText] sampleIdat sampleIend.bytes
    (by decide) (by decide) (by decide) (by decide) (by decide) (by decide) (by decide)
    (by unfold LegalPair; decide) (by unfold LongOverflow rowBytes channelsOf; decide)
    (by
      intro m hmem
      rw [List.mem_singleton] at hmem
      rw [hmem]
      exact ⟨sampleText_ok.1, sampleText_ok.2.2, sampleText_ok.2.1⟩)
    (sampleChunks_ok sampleIdat (by simp)).1 (by rfl) (by decide)

/-! ## The running CRC and the one-pass CRC -/

theorem crcOneShot_eq (bytes : List Nat) : crcOneShot bytes = crc32 0 bytes := by
  unfold crcOneShot crc32
  rw [Nat.zero_xor]

/-- C23 (the CRC does not depend on the tiling): for every reader, wherever
its window ends, whose unread stream starts with a complete chunk, the reads
of one turn of the loop succeed (length, type with the CRC reset, the payload
loop, the stored CRC) and the `calc_crc` they leave is the one-pass CRC-32 of
the four type bytes followed by the whole payload; the payload loop of
`pngsplit` ends in the same reader state; and this is the value both loops
compare with the stored CRC: the first pass on a chunk that is not an IDAT,
`pngsplit` on every chunk. -/
theorem crc_tiling_independent (s : Reader) (m : Chunk) (r : List Nat)
    (hc : s.Consistent) (hm : m.WellFormed) (hu : s.unread = m.bytes ++ r) :
    (∃ s1 s2 s3 len3 s5,
      GET_U32 false s = some (m.data.length, s1) ∧
      GET_U32 true { s1 with calc_crc := crc32 0 [] } = some (U32 m.typ, s2) ∧
      skipLoop (s2.infile.length + 1) s2 m.data.length = .go (s3, len3) ∧
      GET_U32 false (afterPayload s3 len3) = some (m.crc, s5) ∧
      s5.calc_crc = crcOneShot (m.typ ++ m.data) ∧
      (∀ (pre : Nat → Nat → Bool) (fl num : Nat) (k : Sink) (n t : Nat) (bytes : List Nat),
        (fl = 0 ∨ fl = 1) → k.outfile = .writing n t bytes →
        ∃ k3, feedLoop pre fl num (s2.infile.length + 1) s2 m.data.length k
          = .go (s3, len3, k3))) ∧
    (U32 m.typ ≠ IDAT → ∃ s5 : Reader, ∀ b, scanLoop (b + 1) s =
      if crcOneShot (m.typ ++ m.data) ≠ m.crc then .ret [.badCrc (U32 m.typ) m.crc m.crc]
      else scanLoop b s5) ∧
    (∀ (pre : Nat → Nat → Bool) (fl num : Nat) (k : Sink),
      (fl = 0 ∨ fl = 1) → (fl = 1 ∨ ∀ n t, pre n t = false) → k.outfile = .null →
      ∃ s5 : Reader, ∀ b, chunkLoop pre fl (b + 1) s num k =
        if crcOneShot (m.typ ++ m.data) ≠ m.crc then
          some (24, { outfile := .null,
                      closed := k.closed ++ [⟨num + 1, U32 m.typ, m.bytes⟩] },
                [.badCrc (U32 m.typ) (crcOneShot (m.typ ++ m.data)) m.crc])
        else
          chunkLoop pre fl b s5 (num + 1)
            { outfile := .null, closed := k.closed ++ [⟨num + 1, U32 m.typ, m.bytes⟩] }) := by
  refine ⟨?_, ?_, ?_⟩
  · obtain ⟨hm1, hm2, hm3, hm4, hm5⟩ := hm
    have hu1 : s.unread = be32 m.data.length ++ (m.typ ++ (m.data ++ (be32 m.crc ++ r))) := by
      rw [hu]; unfold Chunk.bytes; simp only [List.append_assoc]
    obtain ⟨s1, e1, c1, u1, _, _⟩ := GET_U32_be32 false s hc _ _ hm4 hu1
    obtain ⟨s2, e2, c2, u2, r2, _⟩ :=
      GET_U32_four true { s1 with calc_crc := crc32 0 [] } (resetCrc_consistent s1 _ c1) m.typ _
        hm1 ((resetCrc_unread s1 _).trans u1)
    rw [resetCrc_crc] at r2
    have hlen : m.data.length ≤ s2.unread.length := by
      rw [u2, List.length_append]; omega
    obtain ⟨s3, len3, e3, c4, u4, r4, _⟩ := skipPayload_spec s2 m.data.length c2 hlen
    rw [u2, List.drop_left] at u4
    rw [u2, List.take_left] at r4
    obtain ⟨s5, e5, c5, u5, r5, _⟩ := GET_U32_be32 false _ c4 _ _ hm5 u4
    refine ⟨s1, s2, s3, len3, s5, e1, e2, e3, e5, ?_, ?_⟩
    · rw [crcOneShot_eq, r5]
      simp only [Bool.false_eq_true, if_false]
      rw [r4, r2]
      simp only [if_true]
      rw [crc32_nil, crc32_append]
    · intro pre fl num k n t bytes hfl hk
      obtain ⟨s3', len3', e, e'⟩ := feedLoop_eq pre fl num (s2.infile.length + 1) s2
        m.data.length k n t bytes hfl hk c2 (by omega) hlen
      rw [e3] at e
      simp only [Flow.go.injEq, Prod.mk.injEq] at e
      obtain ⟨rfl, rfl⟩ := e
      exact ⟨_, e'⟩
  · intro ht
    obtain ⟨s5, _, _, _, step⟩ := scanLoop_step s m r hc hm ht hu
    refine ⟨s5, ?_⟩
    intro b
    rw [crcOneShot_eq]
    exact step b
  · intro pre fl num k hfl hfree hk
    obtain ⟨s5, _, _, step⟩ := chunkLoop_step pre fl s m r num k hfl hfree hk hc hm hu
    refine ⟨s5, ?_⟩
    intro b
    rw [crcOneShot_eq]
    exact step b

set_option maxRecDepth 1000000 in
/-- C23 at a concrete reader: `sampleStraddle`, whose window ends inside the
type field of an IEND chunk without payload; the one-pass CRC-32 of the four
bytes `IEND` is `0xAE426082`. -/
theorem crc_tiling_independent_witness :
    crcOneShot (sampleIend.typ ++ sampleIend.data) = 0xAE426082 ∧
    sampleStraddle.inbuf.length < sampleIend.bytes.length ∧
    ((∃ s1 s2 s3 len3 s5,
      GET_U32 false sampleStraddle = some (sampleIend.data.length, s1) ∧
      GET_U32 true { s1 with calc_crc := crc32 0 [] } = some (U32 sampleIend.typ, s2) ∧
      skipLoop (s2.infile.length + 1) s2 sampleIend.data.length = .go (s3, len3) ∧
      GET_U32 false (afterPayload s3 len3) = some (sampleIend.crc, s5) ∧
      s5.calc_crc = crcOneShot (sampleIend.typ ++ sampleIend.data) ∧
      (∀ (pre : Nat → Nat → Bool) (fl num : Nat) (k : Sink) (n t : Nat) (bytes : List Nat),
        (fl = 0 ∨ fl = 1) → k.outfile = .writing n t bytes →
        ∃ k3, feedLoop pre fl num (s2.infile.length + 1) s2 sampleIend.data.length k
          = .go (s3, len3, k3))) ∧
    (U32 sampleIend.typ ≠ IDAT → ∃ s5 : Reader, ∀ b, scanLoop (b + 1) sampleStraddle =
      if crcOneShot (sampleIend.typ ++ sampleIend.data) ≠ sampleIend.crc then
        .ret [.badCrc (U32 sampleIend.typ) sampleIend.crc sampleIend.crc]
      else scanLoop b s5) ∧
    (∀ (pre : Nat → Nat → Bool) (fl num : Nat) (k : Sink),
      (fl = 0 ∨ fl = 1) → (fl = 1 ∨ ∀ n t, pre n t = false) → k.outfile = .null →
      ∃ s5 : Reader, ∀ b, chunkLoop pre fl (b + 1) sampleStraddle num k =
        if crcOneShot (sampleIend.typ ++ sampleIend.data) ≠ sampleIend.crc then
          some (24, { outfile := .null,
                      closed := k.closed ++ [⟨num + 1, U32 sampleIend.typ, sampleIend.bytes⟩] },
                [.badCrc (U32 sampleIend.typ) (crcOneShot (sampleIend.typ ++ sampleIend.data))
                  sampleIend.crc])
        else
          chunkLoop pre fl b s5 (num + 1)
            { outfile := .null,
              closed := k.closed ++ [⟨num + 1, U32 sampleIend.typ, sampleIend.bytes⟩] })) :=
  ⟨by rfl, by decide,
    crc_tiling_independent sampleStraddle sampleIend [] rfl
      (sampleChunks_ok sampleIend (by simp)).1 (by rfl)⟩

/-! ## What `pngsplit` writes is a prefix of what it reads -/

theorem concatUnits_append (a b : List OutUnit) :
    concatUnits (a ++ b) = concatUnits a ++ concatUnits b := by
  induction a with
  | nil => rfl
  | cons u t ih =>
    show u.bytes ++ concatUnits (t ++ b) = (u.bytes ++ concatUnits t) ++ concatUnits b
    rw [ih, List.append_assoc]

theorem written_null (k : Sink) (hk : k.outfile = .null) : written k = concatUnits k.closed := by
  unfold written
  rw [hk]
  exact List.append_nil _

theorem unitNums_null (k : Sink) (hk : k.outfile = .null) :
    unitNums k = k.closed.map OutUnit.num := by
  unfold unitNums
  rw [hk]
  exact List.append_nil _

/-- Four bytes in front of a list that has them. -/
theorem split_four (u : List Nat) (h : 4 ≤ u.length) (hb : IsBytes u) :
    ∃ q t, u = q ++ t ∧ q.length = 4 ∧ IsBytes q ∧ IsBytes t ∧ be32 (U32 q) = q ∧
      U32 q < 2^32 := by
  have e : u = u.take 4 ++ u.drop 4 := (List.take_append_drop 4 u).symm
  have hl : (u.take 4).length = 4 := by rw [List.length_take]; omega
  have hq : IsBytes (u.take 4) := IsBytes.take hb 4
  refine ⟨u.take 4, u.drop 4, e, hl, hq, IsBytes.drop hb 4, be32_U32_typ _ hl hq, ?_⟩
  obtain ⟨a, b, c, d, e4⟩ := list_of_length_four _ hl
  rw [e4] at hq ⊢
  exact U32_lt a b c d (hq a (by simp)) (hq b (by simp)) (hq c (by simp)) (hq d (by simp))

/-- The chunk loop of `pngsplit` on a chunk whose payload is complete and
whose CRC field is cut short by the end of the source: the unit has received
the 8 header bytes and the payload, is left open, and the function
returns 0. -/
theorem chunkLoop_crc_cut (pre : Nat → Nat → Bool) (fl : Nat) (s : Reader)
    (typ data part : List Nat) (num : Nat) (k : Sink)
    (hfl : fl = 0 ∨ fl = 1) (hfree : fl = 1 ∨ ∀ n t, pre n t = false)
    (hk : k.outfile = .null) (hc : s.Consistent)
    (hL : data.length < 2^32) (ht4 : typ.length = 4)
    (hu : s.unread = be32 data.length ++ (typ ++ (data ++ part))) (ha : part.length < 4)
    (b : Nat) :
    chunkLoop pre fl (b + 1) s num k
      = some (0,
          { outfile := .writing (num + 1) (U32 typ)
              (be32 data.length ++ be32 (U32 typ) ++ data),
            closed := k.closed }, []) := by
  obtain ⟨s1, e1, c1, u1, _, _⟩ := GET_U32_be32 false s hc _ _ hL hu
  obtain ⟨s2, e2, c2, u2, r2, _⟩ :=
    GET_U32_four true { s1 with calc_crc := crc32 0 [] } (resetCrc_consistent s1 _ c1) typ _ ht4
      ((resetCrc_unread s1 _).trans u1)
  have hlen : data.length ≤ s2.unread.length := by
    rw [u2, List.length_append]; omega
  have hopen := write_open pre fl num data.length (U32 typ) k hfl hk
    (by rcases hfree with h | h
        · exact Or.inl h
        · exact Or.inr (h _ _))
  obtain ⟨s3, len3, e3, e3'⟩ := feedLoop_eq pre fl (num + 1) (s2.infile.length + 1) s2
    data.length
    (Sink.mk (OutFile.writing (num + 1) (U32 typ) (be32 data.length ++ be32 (U32 typ)))
      k.closed)
    (num + 1) (U32 typ) (be32 data.length ++ be32 (U32 typ)) hfl rfl c2 (by omega) hlen
  obtain ⟨s3', len3', e3s, c3, l3, l3', u3, _, _⟩ :=
    (skipLoop_spec (s2.infile.length + 1) s2 data.length c2 (by omega)).1 hlen
  rw [e3] at e3s
  simp only [Flow.go.injEq, Prod.mk.injEq] at e3s
  obtain ⟨rfl, rfl⟩ := e3s
  obtain ⟨s3'', len3'', e4s, c4, u4, r4, _⟩ := skipPayload_spec s2 data.length c2 hlen
  rw [e3] at e4s
  simp only [Flow.go.injEq, Prod.mk.injEq] at e4s
  obtain ⟨rfl, rfl⟩ := e4s
  rw [u2, List.drop_left] at u4
  have e5 := GET_U32_none false _ c4 (by rw [u4]; exact ha)
  have hseg : s2.unread.take (data.length - len3) ++ (s3.inbuf.drop s3.inptr).take len3
      = data := by
    have hw3 := window_length s3 c3
    have h1 : (s3.inbuf.drop s3.inptr).take len3
        = (s2.unread.drop (data.length - len3)).take len3 := by
      rw [← u3, Reader.unread_eq s3 c3, List.take_append_of_le_length (by omega)]
    rw [h1]
    have h2 := List.take_add s2.unread (data.length - len3) len3
    rw [Nat.sub_add_cancel l3'] at h2
    rw [← h2, u2, List.take_left]
  unfold chunkLoop
  rw [e1]
  simp only []
  rw [e2]
  simp only []
  rw [hopen]
  simp only [ne_eq, not_true_eq_false, if_false]
  rw [e3']
  simp only []
  rw [write_data pre fl (num + 1) _ _ (num + 1) (U32 typ) _ hfl rfl]
  simp only [ne_eq, not_true_eq_false, if_false]
  rw [e5]
  simp only []
  rw [List.append_assoc (be32 data.length ++ be32 (U32 typ)), hseg]

/-- The chunk loop of `pngsplit`, started with no sink open on a stream of
bytes: it ends, and what its units hold beyond what was there before is a
prefix of the stream; the units it makes are numbered from `num + 1` on. -/
theorem chunkLoop_written (pre : Nat → Nat → Bool) (fl : Nat) (budget : Nat) (s : Reader)
    (num : Nat) (k : Sink)
    (hfl : fl = 0 ∨ fl = 1) (hfree : fl = 1 ∨ ∀ n t, pre n t = false)
    (hk : k.outfile = .null) (hc : s.Consistent) (hby : IsBytes s.unread)
    (hb : s.unread.length < budget) :
    ∃ c k1 msgs p q j, chunkLoop pre fl budget s num k = some (c, k1, msgs) ∧
      s.unread = p ++ q ∧ written k1 = written k ++ p ∧
      unitNums k1 = unitNums k ++ List.range' (num + 1) j := by
  induction budget generalizing s num k with
  | zero => omega
  | succ b ih =>
    by_cases h8 : s.unread.length < 8
    · rw [chunkLoop_eof pre fl s num k hc h8 b]
      exact ⟨0, k, [], [], s.unread, 0, rfl, rfl, (List.append_nil _).symm,
        (List.append_nil _).symm⟩
    obtain ⟨q4, u1, eu, hq4, hqb, hu1b, hqe, hqlt⟩ := split_four s.unread (by omega) hby
    have hu1l : 4 ≤ u1.length := by
      have := congrArg List.length eu
      rw [List.length_append] at this
      omega
    obtain ⟨t4, rest, eu1, ht4, htb, hrb, hte, _⟩ := split_four u1 hu1l hu1b
    have hu : s.unread = be32 (U32 q4) ++ (t4 ++ rest) := by rw [hqe, eu, eu1]
    have hlen : s.unread.length = 8 + rest.length := by
      rw [eu, eu1]
      simp only [List.length_append, hq4, ht4]
      omega
    have wk := written_null k hk
    have nk := unitNums_null k hk
    by_cases ha : rest.length < U32 q4
    · rw [chunkLoop_trunc pre fl s (U32 q4) t4 rest num k hfl hfree hk hc hqlt ht4 hu ha b]
      refine ⟨_, _, _, s.unread, [], 1, rfl, (List.append_nil _).symm, ?_, ?_⟩
      · rw [wk, hu, hte]
        show concatUnits k.closed ++ (be32 (U32 q4) ++ t4 ++ rest) = _
        rw [List.append_assoc]
      · rw [nk]
        rfl
    have hd : (rest.take (U32 q4)).length = U32 q4 := by
      rw [List.length_take]; omega
    have hrest : rest = rest.take (U32 q4) ++ rest.drop (U32 q4) :=
      (List.take_append_drop _ _).symm
    have hdb : IsBytes (rest.take (U32 q4)) := IsBytes.take hrb _
    have hdl : (rest.drop (U32 q4)).length = rest.length - U32 q4 := List.length_drop _ _
    by_cases h4 : (rest.drop (U32 q4)).length < 4
    · have hu' : s.unread = be32 (rest.take (U32 q4)).length
          ++ (t4 ++ (rest.take (U32 q4) ++ rest.drop (U32 q4))) := by
        rw [hd, ← hrest]; exact hu
      rw [chunkLoop_crc_cut pre fl s t4 (rest.take (U32 q4)) (rest.drop (U32 q4)) num k hfl
        hfree hk hc (by rw [hd]; exact hqlt) ht4 hu' h4 b]
      refine ⟨_, _, _, be32 (U32 q4) ++ t4 ++ rest.take (U32 q4), rest.drop (U32 q4), 1, rfl,
        ?_, ?_, ?_⟩
      · rw [hu]
        conv => lhs; rw [hrest]
        simp only [List.append_assoc]
      · rw [wk, hd, hte]
        rfl
      · rw [nk]
        rfl
    obtain ⟨c4, r, er, hc4, hcb, _, hce, hclt⟩ :=
      split_four (rest.drop (U32 q4)) (by omega) (IsBytes.drop hrb _)
    have hmwf : Chunk.WellFormed ⟨t4, rest.take (U32 q4), U32 c4⟩ :=
      ⟨ht4, htb, hdb, by show (rest.take (U32 q4)).length < 2^32; rw [hd]; exact hqlt, hclt⟩
    have hmb : Chunk.bytes ⟨t4, rest.take (U32 q4), U32 c4⟩
        = be32 (U32 q4) ++ t4 ++ rest.take (U32 q4) ++ c4 := by
      show be32 (rest.take (U32 q4)).length ++ t4 ++ rest.take (U32 q4) ++ be32 (U32 c4) = _
      rw [hd, hce]
    have hum : s.unread = Chunk.bytes ⟨t4, rest.take (U32 q4), U32 c4⟩ ++ r := by
      rw [hmb, hu]
      conv => lhs; rw [hrest, er]
      simp only [List.append_assoc]
    obtain ⟨s5, c5, u5, step⟩ := chunkLoop_step pre fl s ⟨t4, rest.take (U32 q4), U32 c4⟩ r num k
      hfl hfree hk hc hmwf hum
    rw [step b]
    have hw1 : written (Sink.mk OutFile.null
        (k.closed ++ [⟨num + 1, U32 t4, Chunk.bytes ⟨t4, rest.take (U32 q4), U32 c4⟩⟩]))
        = written k ++ Chunk.bytes ⟨t4, rest.take (U32 q4), U32 c4⟩ := by
      rw [written_null _ rfl, wk, concatUnits_append]
      show _ ++ (Chunk.bytes _ ++ []) = _
      rw [List.append_nil]
    have hn1 : unitNums (Sink.mk OutFile.null
        (k.closed ++ [⟨num + 1, U32 t4, Chunk.bytes ⟨t4, rest.take (U32 q4), U32 c4⟩⟩]))
        = unitNums k ++ [num + 1] := by
      rw [unitNums_null _ rfl, nk, List.map_append]
      rfl
    split
    · exact ⟨_, _, _, _, r, 1, rfl, hum, hw1, hn1⟩
    · have hrl : r.length < b := by
        have := congrArg List.length hum
        rw [List.length_append, Chunk.bytes_length _ ht4] at this
        omega
      obtain ⟨c, k1, msgs, p, q, j, e, e1, e2, e3⟩ := ih s5 (num + 1)
        (Sink.mk OutFile.null
          (k.closed ++ [⟨num + 1, U32 t4, Chunk.bytes ⟨t4, rest.take (U32 q4), U32 c4⟩⟩]))
        rfl c5 (by rw [u5]; rw [hum] at hby; exact IsBytes.right hby) (by rw [u5]; exact hrl)
      refine ⟨c, k1, msgs, Chunk.bytes ⟨t4, rest.take (U32 q4), U32 c4⟩ ++ p, q, j + 1, e,
        ?_, ?_, ?_⟩
      · rw [hum, List.append_assoc, ← e1, u5]
      · rw [e2, hw1, List.append_assoc]
      · rw [e3, hn1, List.append_assoc]
        rfl

/-- C26 (the output of `pngsplit` is a prefix of its input): for every input
of bytes, started with no sink open and with overwriting forced or no output
name taken, `pngsplit` returns, whatever its code, and the bytes its output
files hold beyond what was there before the call, taken in the order of the
unit numbers 0, 1, 2, ... (completed units first, then the unit left open),
are a prefix of the input: every length, type and CRC field in the output is
the stored field of the input. -/
theorem split_output_prefix (env : SplitEnv) (force : Bool) (input : List Nat) (k : Sink)
    (hby : IsBytes input) (hk : k.outfile = .null)
    (hpol : force = true ∨ ∀ n t, env.pre n t = false) :
    ∃ c k1 msgs p j, pngsplit env force input k = some (c, k1, msgs) ∧
      p <+: input ∧ written k1 = written k ++ p ∧
      unitNums k1 = unitNums k ++ List.range' 0 j := by
  by_cases hopen : env.inOpens = true
  swap
  · refine ⟨2, k, [.cannotOpenIn], [], 0, ?_, List.nil_prefix, (List.append_nil _).symm,
      (List.append_nil _).symm⟩
    unfold pngsplit
    simp only []
    rw [if_pos (by simpa using hopen)]
  by_cases hacc : (input.take BUFSZ).length < MIN_PNG_SIZE ∨
      ((input.take BUFSZ).take 8 ≠ pngsig ∧ (input.take BUFSZ).take 8 ≠ mngsig ∧
        (input.take BUFSZ).take 8 ≠ jngsig)
  · refine ⟨17, k, [.notPng], [], 0, ?_, List.nil_prefix, (List.append_nil _).symm,
      (List.append_nil _).symm⟩
    unfold pngsplit
    simp only []
    rw [hopen]
    simp only [Bool.not_true, Bool.false_eq_true, if_false]
    rw [if_pos hacc]
  have ht8 : (input.take BUFSZ).take 8 = input.take 8 := by
    rw [List.take_take]; rfl
  rw [ht8] at hacc
  have hlen : 67 ≤ input.length := by
    by_contra hlt
    apply hacc
    left
    rw [List.length_take]
    unfold MIN_PNG_SIZE
    omega
  have hsig : input.take 8 = pngsig ∨ input.take 8 = mngsig ∨ input.take 8 = jngsig := by
    by_contra hno
    apply hacc
    right
    exact ⟨fun h => hno (Or.inl h), fun h => hno (Or.inr (Or.inl h)),
      fun h => hno (Or.inr (Or.inr h))⟩
  have hfl := force_cases force
  have hfree : (if force then WR_FORCE else 0) = 1 ∨ ∀ n t, env.pre n t = false := by
    rcases hpol with h | h
    · left; rw [h]; rfl
    · right; exact h
  rw [pngsplit_accept env force input k hopen hlen hsig,
    write_sig env.pre _ (input.take 8) k hfl hk
      (by rcases hfree with h | h
          · exact Or.inl h
          · exact Or.inr (h _ _))]
  simp only [ne_eq, not_true_eq_false, if_false]
  obtain ⟨hc0, hu0⟩ := startReader_facts input hlen
  obtain ⟨c, k1, msgs, p, q, j, e, e1, e2, e3⟩ := chunkLoop_written env.pre
    (if force then WR_FORCE else 0) (input.length + 1) _ 0
    (Sink.mk OutFile.null (k.closed ++ [⟨0, 0, input.take 8⟩])) hfl hfree rfl hc0
    (by rw [hu0]; exact IsBytes.drop hby 8)
    (by rw [hu0, List.length_drop]; omega)
  refine ⟨c, k1, msgs, input.take 8 ++ p, j + 1, e, ⟨q, ?_⟩, ?_, ?_⟩
  · rw [List.append_assoc, ← e1, hu0, List.take_append_drop]
  · rw [e2, written_null _ rfl, written_null k hk, concatUnits_append, List.append_assoc]
    show concatUnits k.closed ++ ((input.take 8 ++ []) ++ p) = _
    rw [List.append_nil]
  · rw [e3, unitNums_null _ rfl, unitNums_null k hk, List.map_append, List.append_assoc]
    rfl

set_option maxRecDepth 1000000 in
/-- C26 at a concrete file: `sampleBadIdatCrc`, on which `pngsplit` returns 24
after it has written the IDAT with its stored CRC `0x12345678`. -/
theorem split_output_prefix_witness :
    pngsplit splitEnvFree false sampleBadIdatCrc sinkFresh
      = some (24, ⟨.null, [⟨0, 0, pngsig⟩, ⟨1, IHDR, sampleIhdr.bytes⟩,
          ⟨2, IDAT, sampleIdatBadCrc.bytes⟩]⟩, [.badCrc IDAT 0x328E80BF 0x12345678]) ∧
    ∃ c k1 msgs p j, pngsplit splitEnvFree false sampleBadIdatCrc sinkFresh
        = some (c, k1, msgs) ∧
      p <+: sampleBadIdatCrc ∧ written k1 = written sinkFresh ++ p ∧
      unitNums k1 = unitNums sinkFresh ++ List.range' 0 j :=
  ⟨by rfl, split_output_prefix splitEnvFree false sampleBadIdatCrc sinkFresh (by
      unfold IsBytes; decide) rfl (Or.inr (fun _ _ => rfl))⟩

/-! ## A second run on the patched output -/

/-- The first-pass loop on a chunk, not an IDAT, whose payload is complete and
whose CRC field is cut short by the end of the source: it ends without a line
of its own. -/
theorem scanLoop_crc_cut (s : Reader) (typ data part : List Nat) (hc : s.Consistent)
    (hL : data.length < 2^32) (ht4 : typ.length = 4) (ht : U32 typ ≠ IDAT)
    (hu : s.unread = be32 data.length ++ (typ ++ (data ++ part))) (ha : part.length < 4)
    (b : Nat) :
    scanLoop (b + 1) s = .ret [] := by
  obtain ⟨s1, e1, c1, u1, _, _⟩ := GET_U32_be32 false s hc _ _ hL hu
  obtain ⟨s2, e2, c2, u2, _, _⟩ :=
    GET_U32_four true { s1 with calc_crc := crc32 0 [] } (resetCrc_consistent s1 _ c1) typ _ ht4
      ((resetCrc_unread s1 _).trans u1)
  have hlen : data.length ≤ s2.unread.length := by
    rw [u2, List.length_append]; omega
  obtain ⟨s3, len3, e3, c4, u4, _, _⟩ := skipPayload_spec s2 data.length c2 hlen
  rw [u2, List.drop_left] at u4
  have e5 := GET_U32_none false _ c4 (by rw [u4]; exact ha)
  unfold scanLoop
  rw [e1]
  simp only []
  rw [e2]
  simp only []
  rw [if_neg ht, e3]
  simp only []
  rw [e5]

/-- What the scan has passed when it stops at an IDAT: the stream it started
on holds complete chunks that are not IDATs, each with the right CRC, and
behind them the recorded length and four type bytes that read IDAT. -/
theorem scanLoop_go_chunks (budget : Nat) (s : Reader) (f : Found) (hc : s.Consistent)
    (hby : IsBytes s.unread) (h : scanLoop budget s = .go f) :
    ∃ mids t4 r, (∀ m ∈ mids, m.WellFormed ∧ U32 m.typ ≠ IDAT ∧ m.CrcOk) ∧
      t4.length = 4 ∧ U32 t4 = IDAT ∧ f.chunklen < 2^32 ∧ f.chunktyp = IDAT ∧
      s.unread = encode mids ++ (be32 f.chunklen ++ (t4 ++ r)) ∧
      f.file_offset_IDATs = s.file_offset + (encode mids).length := by
  induction budget generalizing s with
  | zero => unfold scanLoop at h; cases h
  | succ b ih =>
    by_cases h8 : s.unread.length < 8
    · rw [scanLoop_eof s hc h8 b] at h; cases h
    obtain ⟨q4, u1, eu, hq4, hqb, hu1b, hqe, hqlt⟩ := split_four s.unread (by omega) hby
    have hu1l : 4 ≤ u1.length := by
      have := congrArg List.length eu
      rw [List.length_append] at this
      omega
    obtain ⟨t4, rest, eu1, ht4, htb, hrb, hte, _⟩ := split_four u1 hu1l hu1b
    have hu : s.unread = be32 (U32 q4) ++ (t4 ++ rest) := by rw [hqe, eu, eu1]
    by_cases hid : U32 t4 = IDAT
    · rw [scanLoop_idat s (U32 q4) t4 rest hc hqlt ht4 hid hu b] at h
      simp only [Flow.go.injEq] at h
      subst h
      exact ⟨[], t4, rest, fun m hm => absurd hm (List.not_mem_nil _), ht4, hid, hqlt, rfl, hu,
        rfl⟩
    by_cases ha : rest.length < U32 q4
    · rw [scanLoop_trunc s (U32 q4) t4 rest hc hqlt ht4 hid hu ha b] at h; cases h
    have hd : (rest.take (U32 q4)).length = U32 q4 := by
      rw [List.length_take]; omega
    have hrest : rest = rest.take (U32 q4) ++ rest.drop (U32 q4) :=
      (List.take_append_drop _ _).symm
    have hdb : IsBytes (rest.take (U32 q4)) := IsBytes.take hrb _
    have hdl : (rest.drop (U32 q4)).length = rest.length - U32 q4 := List.length_drop _ _
    by_cases h4 : (rest.drop (U32 q4)).length < 4
    · have hu' : s.unread = be32 (rest.take (U32 q4)).length
          ++ (t4 ++ (rest.take (U32 q4) ++ rest.drop (U32 q4))) := by
        rw [hd, ← hrest]; exact hu
      rw [scanLoop_crc_cut s t4 (rest.take (U32 q4)) (rest.drop (U32 q4)) hc
        (by rw [hd]; exact hqlt) ht4 hid hu' h4 b] at h
      cases h
    obtain ⟨c4, r, er, hc4, hcb, hrb2, hce, hclt⟩ :=
      split_four (rest.drop (U32 q4)) (by omega) (IsBytes.drop hrb _)
    have hmwf : Chunk.WellFormed ⟨t4, rest.take (U32 q4), U32 c4⟩ :=
      ⟨ht4, htb, hdb, by show (rest.take (U32 q4)).length < 2^32; rw [hd]; exact hqlt, hclt⟩
    have hmb : Chunk.bytes ⟨t4, rest.take (U32 q4), U32 c4⟩
        = be32 (U32 q4) ++ t4 ++ rest.take (U32 q4) ++ c4 := by
      show be32 (rest.take (U32 q4)).length ++ t4 ++ rest.take (U32 q4) ++ be32 (U32 c4) = _
      rw [hd, hce]
    have hum : s.unread = Chunk.bytes ⟨t4, rest.take (U32 q4), U32 c4⟩ ++ r := by
      rw [hmb, hu]
      conv => lhs; rw [hrest, er]
      simp only [List.append_assoc]
    obtain ⟨s5, c5, u5, o5, step⟩ := scanLoop_step s ⟨t4, rest.take (U32 q4), U32 c4⟩ r hc hmwf
      hid hum
    rw [step b] at h
    by_cases hcrc : crc32 0 (t4 ++ rest.take (U32 q4)) ≠ U32 c4
    · rw [if_pos hcrc] at h; cases h
    rw [if_neg hcrc] at h
    obtain ⟨mids, t4', r', g1, g2, g3, g4, g5, g6, g7⟩ := ih s5 c5 (by rw [u5]; exact hrb2) h
    refine ⟨⟨t4, rest.take (U32 q4), U32 c4⟩ :: mids, t4', r', ?_, g2, g3, g4, g5, ?_, ?_⟩
    · intro m hm
      rcases List.mem_cons.mp hm with e | hm'
      · rw [e]
        exact ⟨hmwf, hid, (not_not.mp hcrc).symm⟩
      · exact g1 m hm'
    · rw [hum, u5.symm.trans g6]
      show _ = (Chunk.bytes _ ++ encode mids) ++ _
      rw [List.append_assoc]
    · rw [g7, o5]
      show _ = s.file_offset + (Chunk.bytes _ ++ encode mids).length
      rw [List.length_append, Nat.add_assoc]

/-- The patched working buffer of an IDAT with at least 2 payload bytes holds
`0x78 0x9C` at the indices 8 and 9. -/
theorem patchCbuf_header (cbuf : List Nat) (len : Nat) (hl : cbuf.length = len + 12)
    (h2 : 2 ≤ len) :
    (patchCbuf cbuf len).getD 8 0 = 0x78 ∧ (patchCbuf cbuf len).getD 9 0 = 0x9c := by
  simp only [List.getD_eq_getElem?_getD]
  unfold patchCbuf
  simp only []
  constructor
  · rw [List.getElem?_set_ne (by omega), List.getElem?_set_ne (by omega),
      List.getElem?_set_ne (by omega), List.getElem?_set_ne (by omega),
      List.getElem?_set_ne (by omega), List.getElem?_set_self (by omega)]
    rfl
  · rw [List.getElem?_set_ne (by omega), List.getElem?_set_ne (by omega),
      List.getElem?_set_ne (by omega), List.getElem?_set_ne (by omega),
      List.getElem?_set_self (by rw [List.length_set]; omega)]
    rfl

/-- The second pass on a working buffer whose CRC is right and whose bytes 8
and 9 are `0x78 0x9C`: the no-op. -/
theorem secondPass_noop (env : Env) (input : List Nat) (f : Found)
    (hseek : env.seekOk = true) (hmalloc : env.mallocOk = true)
    (hcrc : crc32 0 (((readCbuf env input f).drop 4).take (f.chunklen + 4))
      = U32 ((readCbuf env input f).drop (4 + f.chunklen + 4)))
    (h8 : (readCbuf env input f).getD 8 0 = 0x78)
    (h9 : (readCbuf env input f).getD 9 0 = 0x9c) :
    secondPass env input f = some ⟨0, none, [.noteSkipping]⟩ := by
  unfold secondPass
  rw [hseek, hmalloc]
  simp only [Bool.not_true, Bool.false_eq_true, if_false]
  rw [crc32_nil, if_neg (fun h => h hcrc), h8, h9]
  rfl

/-- Two inputs with the same first 33 bytes hold the same bytes in every
field of the signature and the IHDR chunk. -/
theorem field_of_take (a b : List Nat) (h : a.take 33 = b.take 33) (k n : Nat)
    (hk : k + n ≤ 33) : (a.drop k).take n = (b.drop k).take n := by
  have e : ∀ l : List Nat, (l.drop k).take n = ((l.take 33).drop k).take n := by
    intro l
    rw [List.drop_take, List.take_take, Nat.min_eq_left (by omega)]
  rw [e a, e b, h]

theorem getD_of_take (a b : List Nat) (h : a.take 33 = b.take 33) (i : Nat) (hi : i < 33) :
    a.getD i 0 = b.getD i 0 := by
  have e : ∀ l : List Nat, l.getD i 0 = (l.take 33).getD i 0 := by
    intro l
    simp only [List.getD_eq_getElem?_getD]
    rw [List.getElem?_take_of_lt hi]
  rw [e a, e b, h]

/-- The header checks see only the first 33 bytes and whether there are 67:
on two inputs with the same first 33 bytes and at least 67 bytes each they
succeed together, with the same derived values. -/
theorem headerPass_of_take (a b : List Nat) (h : a.take 33 = b.take 33) (hb : 67 ≤ b.length)
    (s : Reader) (d : Derived) (ha : headerPass a = .ok (s, d)) :
    ∃ s', headerPass b = .ok (s', d) := by
  obtain ⟨_, g8, g13, gI, gcrc, gst⟩ := headerPass_ok_inv a s d ha
  have f8 : a.take 8 = b.take 8 := by
    have := field_of_take a b h 0 8 (by omega)
    simpa using this
  rw [f8] at g8
  rw [field_of_take a b h 8 4 (by omega)] at g13
  rw [field_of_take a b h 12 4 (by omega)] at gI
  rw [field_of_take a b h 12 17 (by omega), field_of_take a b h 29 4 (by omega)] at gcrc
  rw [field_of_take a b h 16 4 (by omega), field_of_take a b h 20 4 (by omega),
    getD_of_take a b h 24 (by omega), getD_of_take a b h 25 (by omega)] at gst
  rw [headerPass_eq]
  have hl : ¬ ((b.take BUFSZ).length < MIN_PNG_SIZE ∨ b.take 8 ≠ pngsig) := by
    rw [List.length_take]
    unfold MIN_PNG_SIZE BUFSZ
    intro hh
    rcases hh with hh | hh
    · omega
    · exact hh g8
  rw [if_neg hl, if_neg (by rw [g13, gI]; simp), if_neg (fun hh => hh gcrc), gst]
  exact ⟨_, rfl⟩

/-- C25 (patching is idempotent on its own output): whenever
`png_fix_IDAT_windowsize` ends on an input of bytes with code 0 and an output
file, and the first IDAT it found declares at least 2 payload bytes, a second
run on that output (input opens, output name not refused, seek and
allocation succeed) passes the header checks, finds the same first IDAT at
the same offset with every chunk before it passing its CRC test, finds the
CRC of that IDAT right, and ends with code 0, the `skipping` note and no
output file. -/
theorem patch_idempotent (env env2 : Env) (force force2 : Bool) (input out : List Nat)
    (msgs : List Msg) (f : Found) (hb : IsBytes input)
    (h : png_fix_IDAT_windowsize env force input = some ⟨0, some out, msgs⟩)
    (hf : firstPass input = some (.ok f)) (h2 : 2 ≤ f.chunklen)
    (hopen : env2.inOpens = true) (hpol : force2 = true ∨ env2.outExists = false)
    (hseek : env2.seekOk = true) (hmalloc : env2.mallocOk = true) :
    (∃ s d, headerPass out = .ok (s, d)) ∧
    firstPass out = some (.ok f) ∧
    crc32 0 (((readCbuf env2 out f).drop 4).take (f.chunklen + 4))
      = U32 ((readCbuf env2 out f).drop (4 + f.chunklen + 4)) ∧
    png_fix_IDAT_windowsize env2 force2 out = some ⟨0, none, [.noteSkipping]⟩ := by
  obtain ⟨f', hf', hs⟩ := png_fix_patched env force input out msgs h
  rw [hf] at hf'
  simp only [Option.some.injEq, Except.ok.injEq] at hf'
  subst hf'
  obtain ⟨g33, g8, _, _, _⟩ := firstPass_ok input f hf
  obtain ⟨_, hout, _, _⟩ := secondPass_patched env input f out msgs hs
  -- the first pass on the input, taken apart
  have hf0 := hf
  unfold firstPass at hf0
  cases hh : headerPass input with
  | error e =>
    rw [hh] at hf0
    obtain ⟨c, m⟩ := e
    simp only [Option.some.injEq] at hf0
    cases hf0
  | ok p =>
    obtain ⟨s, d⟩ := p
    rw [hh] at hf0
    simp only [] at hf0
    obtain ⟨⟨hc, _, hu⟩, ho⟩ := headerPass_at input s d hh
    obtain ⟨h67, _⟩ := headerPass_ok_inv input s d hh
    have hgo : scanLoop (input.length + 1) s = .go f := by
      cases hsc : scanLoop (input.length + 1) s with
      | starved => rw [hsc] at hf0; cases hf0
      | ret m => rw [hsc] at hf0; simp only [Option.some.injEq] at hf0; cases hf0
      | go f' =>
        rw [hsc] at hf0
        simp only [Option.some.injEq, Except.ok.injEq] at hf0
        rw [hf0]
    rw [ho] at hu
    obtain ⟨mids, t4, r, hm, ht4, hid, hlen, htyp, hun, hoff⟩ :=
      scanLoop_go_chunks _ s f hc (by rw [hu]; exact IsBytes.drop hb 33) hgo
    rw [hu] at hun
    rw [ho] at hoff
    -- the three parts of the output
    have hcl := readCbuf_length env input f
    have hpl : (patchCbuf (readCbuf env input f) f.chunklen).length = f.chunklen + 12 := by
      rw [patchCbuf_length, hcl]
    have htl : (input.take f.file_offset_IDATs).length = f.file_offset_IDATs := by
      rw [List.length_take]; omega
    have holen : out.length = f.file_offset_IDATs + (f.chunklen + 12)
        + (input.length - (f.file_offset_IDATs + f.chunklen + 12)) := by
      rw [hout, List.length_append, List.length_append, htl, hpl, List.length_drop]
    have hdrop : out.drop f.file_offset_IDATs
        = patchCbuf (readCbuf env input f) f.chunklen
          ++ input.drop (f.file_offset_IDATs + f.chunklen + 12) := by
      rw [hout, List.append_assoc, List.drop_left' htl]
    have hread : readCbuf env2 out f = patchCbuf (readCbuf env input f) f.chunklen := by
      rw [readCbuf_complete env2 out f (by omega), hdrop, ← hpl, List.take_left]
    have hcrc : crc32 0 (((readCbuf env2 out f).drop 4).take (f.chunklen + 4))
        = U32 ((readCbuf env2 out f).drop (4 + f.chunklen + 4)) := by
      rw [hread]
      exact (patchCbuf_crc _ _ hcl (readCbuf_isBytes env input f hb)).symm
    obtain ⟨p8, p9⟩ := patchCbuf_header (readCbuf env input f) f.chunklen hcl h2
    have hsec := secondPass_noop env2 out f hseek hmalloc hcrc (by rw [hread]; exact p8)
      (by rw [hread]; exact p9)
    -- the header checks on the output
    have ht33 : input.take 33 = out.take 33 := by
      rw [hout, List.append_assoc, List.take_append_of_le_length (by omega), List.take_take,
        Nat.min_eq_left g33]
    obtain ⟨s', hh'⟩ := headerPass_of_take input out ht33 (by omega) s d hh
    obtain ⟨⟨hc', _, hu'⟩, ho'⟩ := headerPass_at out s' d hh'
    rw [ho'] at hu'
    -- the scan on the output
    have hin : input.take f.file_offset_IDATs = input.take 33 ++ encode mids := by
      have e : input = input.take 33 ++ (encode mids ++ (be32 f.chunklen ++ (t4 ++ r))) := by
        rw [← hun, List.take_append_drop]
      have l33 : (input.take 33).length = 33 := by rw [List.length_take]; omega
      conv => lhs; rw [e, ← List.append_assoc]
      rw [List.take_left']
      rw [List.length_append, l33, hoff]
    have hp8 : (patchCbuf (readCbuf env input f) f.chunklen).take 8 = be32 f.chunklen ++ t4 := by
      have hi8 : (input.drop f.file_offset_IDATs).take 8 = be32 f.chunklen ++ t4 := by
        have e : input.drop f.file_offset_IDATs = be32 f.chunklen ++ (t4 ++ r) := by
          have e1 : input.drop f.file_offset_IDATs
              = (input.drop 33).drop (encode mids).length := by
            rw [List.drop_drop, hoff, Nat.add_comm]
          rw [e1, hun, List.drop_left' rfl]
        rw [e, ← List.append_assoc, List.take_left']
        rw [List.length_append, be32_length, ht4]
      rw [← hi8]
      apply List.ext_getElem?
      intro j
      rw [List.getElem?_take, List.getElem?_take]
      by_cases hj : j < 8
      · rw [if_pos hj, if_pos hj, patchCbuf_getElem _ _ j (by omega) (by omega) (by omega),
          readCbuf_getElem env input f j (by omega) (by omega), List.getElem?_drop]
      · rw [if_neg hj, if_neg hj]
    have hscan : s'.unread = encode mids ++ (be32 f.chunklen ++ (t4 ++
        ((patchCbuf (readCbuf env input f) f.chunklen).drop 8
          ++ input.drop (f.file_offset_IDATs + f.chunklen + 12)))) := by
      have e1 : out.drop 33 = encode mids ++ out.drop f.file_offset_IDATs := by
        conv => lhs; rw [hout, hin]
        have l33 : (input.take 33).length = 33 := by rw [List.length_take]; omega
        rw [List.append_assoc, List.append_assoc, List.drop_left' l33, hdrop]
      rw [hu', e1, hdrop]
      conv => lhs; rw [← List.take_append_drop 8 (patchCbuf (readCbuf env input f) f.chunklen)]
      rw [hp8]
      simp only [List.append_assoc]
    have hbud : mids.length < out.length + 1 := by
      have h1 := encode_length_ge mids (fun c hc => (hm c hc).1.1)
      omega
    have hsc := (scanLoop_chunks mids f.chunklen t4 _ (out.length + 1) s' hc'
      (fun m hmem => ⟨(hm m hmem).1, (hm m hmem).2.1⟩) hlen ht4 hid hscan hbud).1
      (fun m hmem => (hm m hmem).2.2)
    have hfo : firstPass out = some (.ok f) := by
      unfold firstPass
      rw [hh']
      simp only []
      rw [hsc, ho', ← hoff, ← htyp]
    refine ⟨⟨s', d, hh'⟩, hfo, hcrc, ?_⟩
    unfold png_fix_IDAT_windowsize
    rw [hopen]
    have hpol' : (!force2 && env2.outExists) = false := by
      rcases hpol with hp | hp <;> rw [hp] <;> simp
    rw [hpol']
    simp only [Bool.not_true, Bool.false_eq_true, if_false]
    rw [hfo]
    simp only []
    exact hsec

set_option maxRecDepth 1000000 in
/-- C25 at a concrete file: `sampleNonCanonical`, patched to
`sampleCanonical`, whose IDAT declares 10 payload bytes. -/
theorem patch_idempotent_witness :
    (∃ s d, headerPass sampleCanonical = .ok (s, d)) ∧
    firstPass sampleCanonical = some (.ok ⟨10, IDAT, 33⟩) ∧
    crc32 0 (((readCbuf envPlain sampleCanonical ⟨10, IDAT, 33⟩).drop 4).take (10 + 4))
      = U32 ((readCbuf envPlain sampleCanonical ⟨10, IDAT, 33⟩).drop (4 + 10 + 4)) ∧
    png_fix_IDAT_windowsize envPlain false sampleCanonical
      = some ⟨0, none, [.noteSkipping]⟩ :=
  patch_idempotent envPlain envPlain false false sampleNonCanonical sampleCanonical []
    ⟨10, IDAT, 33⟩ isBytes_sampleNonCanonical run_sampleNonCanonical (by rfl) (by decide)
    rfl (Or.inr rfl) rfl rfl

/-! ## Headers whose size does not fit a `long` -/

set_option maxRecDepth 1000000 in
/-- C7 at the failing input: width and height `0xFFFFFFFF` with depth 16 and
colour type 6 are a legal pair whose size `bytewidth * height` does not fit a
64-bit `long`.  On the wrapped product the comparison `ucsize/bytewidth !=
height` of line 384 would be true, but the product has overflowed before the
comparison is made; the IHDR checks accept the header, and
`png_fix_IDAT_windowsize` goes on to patch the file `sampleHugeHeader` and
returns 0. -/
theorem overflowing_header_accepted :
    LegalPair 6 16 ∧
    2^63 ≤ rowBytes 0xFFFFFFFF (16 * channelsOf 6) * 0xFFFFFFFF ∧
    (wrapLong (((rowBytes 0xFFFFFFFF 64 : Nat) : Int) * 0xFFFFFFFF)).tdiv
      ((rowBytes 0xFFFFFFFF 64 : Nat) : Int) ≠ 0xFFFFFFFF ∧
    divideBack ((rowBytes 0xFFFFFFFF 64 : Nat) : Int) 0xFFFFFFFF = false ∧
    (∃ d, ihdrStage 0xFFFFFFFF 0xFFFFFFFF 16 6 = .ok d) ∧
    png_fix_IDAT_windowsize envPlain false sampleHugeHeader
      = some ⟨0, some (pngsig ++ encode [ihdrChunk 0xFFFFFFFF 0xFFFFFFFF 16 6 0 0 0,
          sampleIdatCanonical, sampleIend]), []⟩ := by
  refine ⟨by unfold LegalPair; decide, by decide, by decide, by rfl, ⟨_, by rfl⟩, by rfl⟩

set_option maxRecDepth 1000000 in
/-- C9 at the failing input: the IHDR checks accept width and height
`0xFFFFFFFF` with depth 16 and colour type 6 with `bytewidth` 34359738361 and
the negative `ucsize` -64424509433, which is not `bytewidth * height`. -/
theorem overflowing_header_derived_values :
    ihdrStage 0xFFFFFFFF 0xFFFFFFFF 16 6
      = .ok ⟨4, 64, 274877906880, 34359738361, -64424509433⟩ ∧
    (34359738361 : Int) = 1 + (274877906880 + 7) / 8 ∧
    (-64424509433 : Int) ≠ 34359738361 * 0xFFFFFFFF ∧
    (2 : Int)^63 ≤ 34359738361 * 0xFFFFFFFF := by
  refine ⟨by rfl, by decide, by decide, by decide⟩

end Png
